import Mathlib

/-!
# TreeMap (aisdi) : a parent-linked binary search tree in an explicit heap

The C++ class `aisdi::TreeMap<KeyType, ValueType>` of `src/TreeMap.h` stores its
entries in heap nodes linked by raw pointers (`left`, `right`, `parent`).  The
embedding keeps that representation: memory is a map from addresses to node
cells, a `Node*` is an `Option Nat` (`none` is `nullptr`), and every member
function is a function on memory.  Loops take a fuel argument that bounds the
number of iterations; dereferencing a null or dangling pointer is reported as
`Res.undefined`, and a thrown `std::out_of_range` as `Res.thrown`, together with
the state that the throwing function leaves behind.
-/

namespace Aisdi

/-! ## Memory model -/

/-- The struct `TreeMap::Node`: the stored pair and the three links. -/
structure Node (K V : Type) where
  data : K × V
  left : Option Nat
  right : Option Nat
  parent : Option Nat

/-- The data members of a `TreeMap` object: `root` and `count`. -/
structure TreeMap where
  root : Option Nat
  count : Nat
deriving DecidableEq

/-- Memory: the node cells, the `TreeMap` objects, and the address that the next
`new Node` returns. -/
structure Mem (K V : Type) where
  node : Nat → Option (Node K V)
  tree : Nat → Option TreeMap
  next : Nat

/-- The call sites that throw `std::out_of_range` (its `what()` argument). -/
inductive OutOfRange where
  | valueOf
  | remove
  | opIncr
  | opDecr
  | opDeref
deriving DecidableEq

/-- Outcome of running a member function: normal return, a thrown
`std::out_of_range` with the state left behind, undefined behaviour (null or
dangling dereference), or fuel exhausted. -/
inductive Res (ε α : Type) where
  | ok (a : α)
  | thrown (e : OutOfRange) (s : ε)
  | undefined
  | timeout
deriving DecidableEq

/-- Sequencing of outcomes. -/
def Res.bind {ε α β : Type} (x : Res ε α) (f : α → Res ε β) : Res ε β :=
  match x with
  | .ok a => f a
  | .thrown e s => .thrown e s
  | .undefined => .undefined
  | .timeout => .timeout

/-- The value of a normal return. -/
def Res.toOption {ε α : Type} : Res ε α → Option α
  | .ok a => some a
  | _ => none

/-- The outcome is not a thrown exception. -/
def Res.NoThrow {ε α : Type} (x : Res ε α) : Prop :=
  ∀ e s, x ≠ Res.thrown e s

instance {ε : Type} : Monad (Res ε) where
  pure := Res.ok
  bind := Res.bind

variable {K V ε : Type}

/-- The empty memory. -/
def Mem.empty : Mem K V := ⟨fun _ => none, fun _ => none, 0⟩

/-- Dereference a non-null node pointer. -/
def Mem.getNode (m : Mem K V) (a : Nat) : Res ε (Node K V) :=
  match m.node a with
  | some nd => .ok nd
  | none => .undefined

/-- Overwrite the cell at `a`. -/
def Mem.setNode (m : Mem K V) (a : Nat) (nd : Node K V) : Mem K V :=
  { m with node := fun b => if b = a then some nd else m.node b }

/-- Release the cell at `a`. -/
def Mem.freeNode (m : Mem K V) (a : Nat) : Mem K V :=
  { m with node := fun b => if b = a then none else m.node b }

/-- The assignment `a->left = p`. -/
def Mem.setLeft (m : Mem K V) (a : Nat) (p : Option Nat) : Res ε (Mem K V) := do
  let nd ← m.getNode a
  pure (m.setNode a { nd with left := p })

/-- The assignment `a->right = p`. -/
def Mem.setRight (m : Mem K V) (a : Nat) (p : Option Nat) : Res ε (Mem K V) := do
  let nd ← m.getNode a
  pure (m.setNode a { nd with right := p })

/-- The assignment `a->parent = p`. -/
def Mem.setParent (m : Mem K V) (a : Nat) (p : Option Nat) : Res ε (Mem K V) := do
  let nd ← m.getNode a
  pure (m.setNode a { nd with parent := p })

/-- Dereference a `TreeMap*`. -/
def Mem.getTree (m : Mem K V) (this : Nat) : Res ε TreeMap :=
  match m.tree this with
  | some t => .ok t
  | none => .undefined

/-- Overwrite the `TreeMap` object at `this`. -/
def Mem.setTree (m : Mem K V) (this : Nat) (t : TreeMap) : Mem K V :=
  { m with tree := fun b => if b = this then some t else m.tree b }

/-- The assignment `root = p` inside a member function. -/
def Mem.setRoot (m : Mem K V) (this : Nat) (p : Option Nat) : Res ε (Mem K V) := do
  let t ← m.getTree this
  pure (m.setTree this { t with root := p })

/-- The assignment `count = c` inside a member function. -/
def Mem.setCount (m : Mem K V) (this : Nat) (c : Nat) : Res ε (Mem K V) := do
  let t ← m.getTree this
  pure (m.setTree this { t with count := c })

/-- The statement `count++`.  On a `size_t` the increment wraps from `2^64 - 1` to 0;
here it is taken in `Nat`, without wrap-around, which is the same as long as the
incremented count is below `2^64`.  In the states a program reaches `count` is the number
of live nodes of the map, at distinct addresses, so it stays below that bound; a
statement about the count after an increment in a state given by hypotheses alone carries
the bound as a hypothesis. -/
def Mem.incrCount (m : Mem K V) (this : Nat) : Res ε (Mem K V) := do
  let t ← m.getTree this
  m.setCount this (t.count + 1)

/-- The statement `count--` on a `size_t`: zero wraps to `2^64 - 1`. -/
def Mem.decrCount (m : Mem K V) (this : Nat) : Res ε (Mem K V) := do
  let t ← m.getTree this
  m.setCount this (if t.count = 0 then 2 ^ 64 - 1 else t.count - 1)

/-- The expression `new Node(key, mapped)`: a cell with null links at a fresh address. -/
def Mem.newNode (m : Mem K V) (key : K) (mapped : V) : Mem K V × Nat :=
  ({ m with node := fun b => if b = m.next then some ⟨(key, mapped), none, none, none⟩
                             else m.node b,
            next := m.next + 1 }, m.next)

/-- The statement `delete p`: `~Node` deletes `left`, then `right`, then the cell is
released; `delete nullptr` does nothing. -/
def Mem.delete : Nat → Mem K V → Option Nat → Res ε (Mem K V)
  | _, m, none => .ok m
  | 0, _, some _ => .timeout
  | fuel + 1, m, some a => do
    let nd ← m.getNode a
    let m1 ← Mem.delete fuel m nd.left
    let m2 ← Mem.delete fuel m1 nd.right
    pure (m2.freeNode a)

/-! ## Shared loops -/

/-- The loop `while (node->left != nullptr) node = node->left;`. -/
def leftmost (m : Mem K V) : Nat → Nat → Res ε Nat
  | 0, a => do
    let nd ← m.getNode a
    match nd.left with
    | none => pure a
    | some _ => .timeout
  | f + 1, a => do
    let nd ← m.getNode a
    match nd.left with
    | none => pure a
    | some l => leftmost m f l

/-- The loop `while (node->right != nullptr) node = node->right;`. -/
def rightmost (m : Mem K V) : Nat → Nat → Res ε Nat
  | 0, a => do
    let nd ← m.getNode a
    match nd.right with
    | none => pure a
    | some _ => .timeout
  | f + 1, a => do
    let nd ← m.getNode a
    match nd.right with
    | none => pure a
    | some r => rightmost m f r

/-! ## Private member functions of `TreeMap` -/

section Ops
variable [LinearOrder K]

/-- The loop of `TreeMap::findNode`. -/
def findNodeLoop (m : Mem K V) (key : K) : Nat → Option Nat → Res ε (Option Nat)
  | _, none => .ok none
  | 0, some _ => .timeout
  | fuel + 1, some a => do
    let nd ← m.getNode a
    if key > nd.data.1 then findNodeLoop m key fuel nd.right
    else if key < nd.data.1 then findNodeLoop m key fuel nd.left
    else pure (some a)

/-- The function `TreeMap::findNode`. -/
def findNode (m : Mem K V) (this : Nat) (key : K) (fuel : Nat) : Res ε (Option Nat) := do
  let t ← m.getTree this
  findNodeLoop m key fuel t.root

/-- The function `TreeMap::minNode`. -/
def minNode (m : Mem K V) (node : Option Nat) (fuel : Nat) : Res ε (Option Nat) :=
  match node with
  | none => pure none
  | some a => do
    let x ← leftmost m fuel a
    pure (some x)

/-- The `while (true)` loop of `TreeMap::insert`.  The flag of the result tells whether
the loop was left by `break` (the node was linked) or by `return` (the node was
deleted as a duplicate). -/
def insertLoop (fuel : Nat) (m : Mem K V) (newNode : Nat) : Nat → Nat → Res ε (Mem K V × Bool)
  | 0, _ => .timeout
  | f + 1, current => do
    let nn ← m.getNode newNode
    let cur ← m.getNode current
    if nn.data.1 > cur.data.1 then
      match cur.right with
      | none => do
        let m1 ← m.setRight current (some newNode)
        let m2 ← m1.setParent newNode (some current)
        pure (m2, true)
      | some r => insertLoop fuel m newNode f r
    else if nn.data.1 < cur.data.1 then
      match cur.left with
      | none => do
        let m1 ← m.setLeft current (some newNode)
        let m2 ← m1.setParent newNode (some current)
        pure (m2, true)
      | some l => insertLoop fuel m newNode f l
    else do
      let m1 ← Mem.delete fuel m (some newNode)
      pure (m1, false)

/-- The function `TreeMap::insert(Node* newNode)`. -/
def insert (m : Mem K V) (this : Nat) (newNode : Nat) (fuel : Nat) : Res ε (Mem K V) := do
  let t ← m.getTree this
  match t.root with
  | none => do
    let m1 ← m.setRoot this (some newNode)
    m1.incrCount this
  | some r => do
    let (m1, linked) ← insertLoop fuel m newNode fuel r
    if linked then m1.incrCount this else pure m1

/-- The function `TreeMap::replace(Node* A, Node* B)`. -/
def replace (m : Mem K V) (this : Nat) (A : Nat) (B : Option Nat) : Res ε (Mem K V) := do
  let a ← m.getNode A
  let m1 ← (match a.parent with
    | none => m.setRoot this B
    | some p => do
      let pn ← m.getNode p
      if some A = pn.left then m.setLeft p B else m.setRight p B)
  let m2 ← (match B with
    | none => pure m1
    | some b => do
      let a1 ← m1.getNode A
      let m3 ← m1.setParent b a1.parent
      let a2 ← m3.getNode A
      let m4 ← (if a2.right ≠ none ∧ a2.right ≠ some b then do
          let m5 ← m3.setRight b a2.right
          let bn ← m5.getNode b
          match bn.right with
          | none => Res.undefined
          | some br => m5.setParent br (some b)
        else pure m3)
      let a3 ← m4.getNode A
      if a3.left ≠ none ∧ a3.left ≠ some b then do
        let m6 ← m4.setLeft b a3.left
        let bn ← m6.getNode b
        match bn.left with
        | none => Res.undefined
        | some bl => m6.setParent bl (some b)
      else pure m4)
  let m7 ← m2.setParent A none
  let m8 ← m7.setLeft A none
  m8.setRight A none

/-- The loop `while (tmp != nullptr) tmp = tmp->parent;` of `TreeMap::remove(Node*)`. -/
def climbToNull (m : Mem K V) : Nat → Option Nat → Res ε Unit
  | _, none => .ok ()
  | 0, some _ => .timeout
  | fuel + 1, some a => do
    let nd ← m.getNode a
    climbToNull m fuel nd.parent

/-- The if / else-if / else statement at the head of `TreeMap::remove(Node* node)`:
the relinking, with the final value of `tmp`. -/
def removeRelink (m : Mem K V) (this : Nat) (node : Nat) (fuel : Nat) :
    Res ε (Mem K V × Option Nat) := do
  let nd ← m.getNode node
  if nd.left = none then do
    let tmp := nd.right
    let m1 ← replace m this node tmp
    pure (m1, tmp)
  else if nd.right = none then do
    let tmp := nd.left
    let m1 ← replace m this node tmp
    pure (m1, tmp)
  else
    match nd.right with
    | none => Res.undefined
    | some r => do
      let tmp ← leftmost m fuel r
      let tn ← m.getNode tmp
      let m1 ← replace m this tmp tn.right
      let m2 ← replace m1 this node (some tmp)
      pure (m2, some tmp)

/-- The function `TreeMap::remove(Node* node)`. -/
def removeNode (m : Mem K V) (this : Nat) (node : Nat) (fuel : Nat) : Res ε (Mem K V) := do
  let (m1, tmp) ← removeRelink m this node fuel
  climbToNull m1 fuel tmp
  let m2 ← m1.decrCount this
  Mem.delete fuel m2 (some node)

/-- The function `TreeMap::erase`. -/
def erase (m : Mem K V) (this : Nat) (fuel : Nat) : Res ε (Mem K V) := do
  let t ← m.getTree this
  let m1 ← Mem.delete fuel m t.root
  let m2 ← m1.setRoot this none
  m2.setCount this 0

/-! ## Iterators -/

/-- The data members of `TreeMap::ConstIterator` (and of `Iterator`, which adds none):
the tree it is bound to and the current node; a null node is the end position. -/
structure ConstIterator where
  tree : Option Nat
  node : Option Nat
deriving DecidableEq

/-- An exception that leaves a member function of the map: the state left behind is
the memory `m`. -/
def Res.inMem {σ α : Type} (m : Mem K V) : Res σ α → Res (Mem K V) α
  | .ok a => .ok a
  | .thrown e _ => .thrown e m
  | .undefined => .undefined
  | .timeout => .timeout

/-- The climbing loop of `ConstIterator::operator++`; the result is the new value of
the member `node`. -/
def incrClimb (m : Mem K V) : Nat → Nat → Res ε (Option Nat)
  | 0, _ => .timeout
  | f + 1, node => do
    let nd ← m.getNode node
    match nd.parent with
    | none => pure none
    | some p => do
      let pn ← m.getNode p
      if pn.left = some node then pure (some p) else incrClimb m f p

/-- The prefix `ConstIterator::operator++`. -/
def ConstIterator.incr (m : Mem K V) (it : ConstIterator) (fuel : Nat) :
    Res ConstIterator ConstIterator :=
  match it.tree, it.node with
  | some _, some n => do
    let nd ← m.getNode n
    match nd.right with
    | some r => do
      let x ← leftmost m fuel r
      pure { it with node := some x }
    | none => do
      let x ← incrClimb m fuel n
      pure { it with node := x }
  | _, _ => .thrown .opIncr it

/-- The climbing loop of `ConstIterator::operator--`.  The loop assigns to the member
`node` while it climbs, so the exception thrown at the root leaves the iterator at the
node reached. -/
def decrClimb (m : Mem K V) (tree : Option Nat) : Nat → Nat → Res ConstIterator (Option Nat)
  | 0, _ => .timeout
  | f + 1, node => do
    let nd ← m.getNode node
    match nd.parent with
    | none => .thrown .opDecr ⟨tree, some node⟩
    | some p => do
      let pn ← m.getNode p
      if pn.right = some node then pure (some p) else decrClimb m tree f p

/-- The prefix `ConstIterator::operator--`. -/
def ConstIterator.decr (m : Mem K V) (it : ConstIterator) (fuel : Nat) :
    Res ConstIterator ConstIterator :=
  match it.tree with
  | none => .thrown .opDecr it
  | some t => do
    let tm ← m.getTree t
    match tm.root with
    | none => .thrown .opDecr it
    | some root =>
      match it.node with
      | none => do
        let x ← rightmost m fuel root
        pure { it with node := some x }
      | some n => do
        let nd ← m.getNode n
        match nd.left with
        | some l => do
          let x ← rightmost m fuel l
          pure { it with node := some x }
        | none => do
          let x ← decrClimb m it.tree fuel n
          pure { it with node := x }

/-- The function `ConstIterator::operator*`. -/
def ConstIterator.deref (m : Mem K V) (it : ConstIterator) : Res ConstIterator (K × V) :=
  match it.tree, it.node with
  | some _, some n => do
    let nd ← m.getNode n
    pure nd.data
  | _, _ => .thrown .opDeref it

/-! ## Public member functions of `TreeMap` -/

/-- The default constructor `TreeMap()`, run on the object at `this`. -/
def ctor (m : Mem K V) (this : Nat) : Mem K V :=
  m.setTree this ⟨none, 0⟩

/-- The function `TreeMap::getSize`. -/
def getSize (m : Mem K V) (this : Nat) : Res ε Nat := do
  let t ← m.getTree this
  pure t.count

/-- The function `TreeMap::isEmpty`: `!count`. -/
def isEmpty (m : Mem K V) (this : Nat) : Res ε Bool := do
  let t ← m.getTree this
  pure (decide (t.count = 0))

/-- The functions `TreeMap::find`. -/
def find (m : Mem K V) (this : Nat) (key : K) (fuel : Nat) : Res ε ConstIterator := do
  let n ← findNode m this key fuel
  pure ⟨some this, n⟩

/-- The functions `TreeMap::begin` and `cbegin`. -/
def cbegin (m : Mem K V) (this : Nat) (fuel : Nat) : Res ε ConstIterator := do
  let t ← m.getTree this
  let n ← minNode m t.root fuel
  pure ⟨some this, n⟩

/-- The functions `TreeMap::end` and `cend`. -/
def cend (this : Nat) : ConstIterator := ⟨some this, none⟩

/-- The function `TreeMap::remove(const const_iterator&)`. -/
def removeIt (m : Mem K V) (this : Nat) (it : ConstIterator) (fuel : Nat) :
    Res (Mem K V) (Mem K V) :=
  if some this ≠ it.tree ∨ it = cend this then .thrown .remove m
  else
    match it.node with
    | none => .undefined
    | some n => removeNode m this n fuel

/-- The function `TreeMap::remove(const key_type&)`. -/
def removeKey (m : Mem K V) (this : Nat) (key : K) (fuel : Nat) : Res (Mem K V) (Mem K V) := do
  let it ← find m this key fuel
  removeIt m this it fuel

/-- The expression `insert(new Node(key, mapped))`. -/
def insertNew (m : Mem K V) (this : Nat) (key : K) (mapped : V) (fuel : Nat) :
    Res ε (Mem K V) :=
  insert (m.newNode key mapped).1 this (m.newNode key mapped).2 fuel

/-- The function `TreeMap::operator[]`.  The reference returned is given by the address
of the node whose value it designates. -/
def opIndex [Inhabited V] (m : Mem K V) (this : Nat) (key : K) (fuel : Nat) :
    Res (Mem K V) (Mem K V × Nat) := do
  let current ← findNode m this key fuel
  match current with
  | some c => pure (m, c)
  | none => do
    let m1 ← insert (m.newNode key default).1 this (m.newNode key default).2 fuel
    pure (m1, (m.newNode key default).2)

/-- The functions `TreeMap::valueOf`; the result is the address of the node whose value
the returned reference designates. -/
def valueOf (m : Mem K V) (this : Nat) (key : K) (fuel : Nat) : Res (Mem K V) Nat := do
  let current ← findNode m this key fuel
  match current with
  | none => .thrown .valueOf m
  | some c => pure c

/-- The loop of the constructor `TreeMap(std::initializer_list<value_type>)`. -/
def ctorListLoop (this : Nat) (fuel : Nat) : Mem K V → List (K × V) → Res ε (Mem K V)
  | m, [] => pure m
  | m, x :: rest => do
    let m1 ← insertNew m this x.1 x.2 fuel
    ctorListLoop this fuel m1 rest

/-- The constructor `TreeMap(std::initializer_list<value_type>)`. -/
def ctorList (m : Mem K V) (this : Nat) (list : List (K × V)) (fuel : Nat) : Res ε (Mem K V) :=
  ctorListLoop this fuel (ctor m this) list

/-- The loop `for (it = other.begin(); it != other.end(); ++it) insert(new Node(*it));`
of the copy assignment. -/
def assignLoop (this other : Nat) (fuel : Nat) :
    Nat → Mem K V → ConstIterator → Res (Mem K V) (Mem K V)
  | n, m, it =>
    if it = cend other then pure m
    else
      match n with
      | 0 => .timeout
      | f + 1 => do
        let d ← (it.deref m).inMem m
        let m1 ← insertNew m this d.1 d.2 fuel
        let it1 ← (it.incr m1 fuel).inMem m1
        assignLoop this other fuel f m1 it1

/-- The copy assignment `TreeMap::operator=(const TreeMap&)`, with `other` the address
of the argument. -/
def assign (m : Mem K V) (this other : Nat) (fuel : Nat) : Res (Mem K V) (Mem K V) :=
  if this ≠ other then do
    let m1 ← erase m this fuel
    let it ← cbegin m1 other fuel
    assignLoop this other fuel fuel m1 it
  else pure m

/-- The move assignment `TreeMap::operator=(TreeMap&&)`. -/
def moveAssign (m : Mem K V) (this other : Nat) (fuel : Nat) : Res (Mem K V) (Mem K V) :=
  if this ≠ other then do
    let m1 ← erase m this fuel
    let o ← m1.getTree other
    let m2 ← m1.setRoot this o.root
    let o1 ← m2.getTree other
    let m3 ← m2.setCount this o1.count
    let m4 ← m3.setRoot other none
    m4.setCount other 0
  else pure m

/-- A client loop `for (it = begin(); it != end(); ++it) out.push_back(*it);`: the
remaining part of the traversal from the position `it`. -/
def traverseFrom (m : Mem K V) (this : Nat) (fuel : Nat) :
    Nat → ConstIterator → Res ConstIterator (List (K × V))
  | n, it =>
    if it = cend this then pure []
    else
      match n with
      | 0 => .timeout
      | f + 1 => do
        let d ← it.deref m
        let it1 ← it.incr m fuel
        let rest ← traverseFrom m this fuel f it1
        pure (d :: rest)

/-- The traversal of the map at `this` from `begin()` to `end()`. -/
def traverse (m : Mem K V) (this : Nat) (fuel : Nat) : Res ConstIterator (List (K × V)) := do
  let it ← cbegin m this fuel
  traverseFrom m this fuel fuel it

/-- The copy constructor `TreeMap(const TreeMap& other)`: the default constructor
followed by `*this = other`. -/
def copyCtor (m : Mem K V) (this other : Nat) (fuel : Nat) : Res (Mem K V) (Mem K V) :=
  assign (ctor m this) this other fuel

/-- The loop `for (it = begin(), it2 = other.begin(); it != end(); ++it, ++it2)` of
`TreeMap::operator==`, with the body `if (*it != *it2) return false;`. -/
def opEqLoop [DecidableEq V] (m : Mem K V) (this : Nat) (fuel : Nat) :
    Nat → ConstIterator → ConstIterator → Res (Mem K V) Bool
  | n, it, it2 =>
    if it = cend this then pure true
    else
      match n with
      | 0 => .timeout
      | f + 1 => do
        let d ← (it.deref m).inMem m
        let d2 ← (it2.deref m).inMem m
        if d ≠ d2 then pure false
        else do
          let it1 ← (it.incr m fuel).inMem m
          let it3 ← (it2.incr m fuel).inMem m
          opEqLoop m this fuel f it1 it3

/-- The function `TreeMap::operator==`, with `other` the address of the argument. -/
def opEq [DecidableEq V] (m : Mem K V) (this other : Nat) (fuel : Nat) :
    Res (Mem K V) Bool := do
  let t ← m.getTree this
  let o ← m.getTree other
  if t.count ≠ o.count then pure false
  else do
    let it ← cbegin m this fuel
    let it2 ← cbegin m other fuel
    opEqLoop m this fuel fuel it it2

/-- The function `TreeMap::operator!=`. -/
def opNe [DecidableEq V] (m : Mem K V) (this other : Nat) (fuel : Nat) :
    Res (Mem K V) Bool := do
  let b ← opEq m this other fuel
  pure (!b)

/-- A client loop `for (k : keys) map.remove(k);`. -/
def removeAll (this : Nat) (fuel : Nat) : Mem K V → List K → Res (Mem K V) (Mem K V)
  | m, [] => pure m
  | m, k :: rest => do
    let m1 ← removeKey m this k fuel
    removeAll this fuel m1 rest

end Ops

/-! ## Abstract trees and the representation predicate -/

/-- The shape of a tree in memory: every node with its address, key and value. -/
inductive Tree (K V : Type) where
  | nil : Tree K V
  | node (l : Tree K V) (a : Nat) (k : K) (v : V) (r : Tree K V) : Tree K V

namespace Tree

/-- The pointer to the root node. -/
def rootPtr : Tree K V → Option Nat
  | nil => none
  | node _ a _ _ _ => some a

/-- The addresses of the nodes, in order. -/
def addrs : Tree K V → List Nat
  | nil => []
  | node l a _ _ r => l.addrs ++ a :: r.addrs

/-- The in-order sequence of (key, value) pairs. -/
def toList : Tree K V → List (K × V)
  | nil => []
  | node l _ k v r => l.toList ++ (k, v) :: r.toList

/-- The in-order sequence of keys. -/
def keys : Tree K V → List K
  | nil => []
  | node l _ k _ r => l.keys ++ k :: r.keys

/-- The in-order sequence of nodes: address, key and value. -/
def nodes : Tree K V → List (Nat × K × V)
  | nil => []
  | node l a k v r => l.nodes ++ (a, k, v) :: r.nodes

/-- Number of nodes. -/
def size : Tree K V → Nat
  | nil => 0
  | node l _ _ _ r => l.size + 1 + r.size

/-- Number of nodes on the longest path from the root. -/
def height : Tree K V → Nat
  | nil => 0
  | node l _ _ _ r => max l.height r.height + 1

/-- The BST order invariant: keys of the left subtree are smaller and keys of the right
subtree are greater than the key of the node, at every node. -/
def BST [LinearOrder K] : Tree K V → Prop
  | nil => True
  | node l _ k _ r => (∀ x ∈ l.keys, x < k) ∧ (∀ x ∈ r.keys, k < x) ∧ l.BST ∧ r.BST

/-- Search by key along the BST order: the address of the node found. -/
def findAddr [LinearOrder K] (key : K) : Tree K V → Option Nat
  | nil => none
  | node l a k _ r =>
    if key > k then r.findAddr key else if key < k then l.findAddr key else some a

/-- The tree with a new leaf `(p, key, v)` at the place where the search for `key` ends;
unchanged when `key` is present. -/
def ins [LinearOrder K] (p : Nat) (key : K) (v : V) : Tree K V → Tree K V
  | nil => node nil p key v nil
  | node l a k w r =>
    if key > k then node l a k w (r.ins p key v)
    else if key < k then node (l.ins p key v) a k w r
    else node l a k w r

end Tree

/-- The memory `h` holds the tree `t` below a node (or root slot) `par`: every node of `t`
is a cell with the key, the value and the child links of `t`; with `pc` set, the parent
link of every node is its parent in `t` as well (parent consistency), `par` for the root. -/
def Rep (pc : Bool) (h : Nat → Option (Node K V)) : Option Nat → Tree K V → Prop
  | _, .nil => True
  | par, .node l a k v r =>
    (∃ nd, h a = some nd ∧ nd.data = (k, v) ∧ nd.left = l.rootPtr ∧ nd.right = r.rootPtr ∧
      (pc = true → nd.parent = par)) ∧
    Rep pc h (some a) l ∧ Rep pc h (some a) r

/-- The `TreeMap` object at `this` owns the tree `t`: its `root` points to the root of `t`
and the nodes of `t` are laid out in memory. -/
def MapRep (pc : Bool) (m : Mem K V) (this : Nat) (t : Tree K V) : Prop :=
  ∃ tm, m.tree this = some tm ∧ tm.root = t.rootPtr ∧ Rep pc m.node none t

/-- The map object at `this` holds the in-order sequence `l`: it owns a binary search
tree with consistent parent links whose in-order sequence of pairs is `l`, and `count`
is the length of `l`. -/
def Content [LinearOrder K] (m : Mem K V) (this : Nat) (l : List (K × V)) : Prop :=
  ∃ t : Tree K V, MapRep true m this t ∧ t.BST ∧ t.toList = l ∧
    (getSize m this : Res Unit Nat) = Res.ok l.length

/-- A right-leaning chain: no node has a left child. -/
def Tree.RightChain : Tree K V → Prop
  | .nil => True
  | .node l _ _ _ r => l = .nil ∧ r.RightChain

/-! ## Abstract removal and tree contexts -/

namespace Tree

/-- The leftmost node: address, key and value. -/
def min? : Tree K V → Option (Nat × K × V)
  | nil => none
  | node nil a k v _ => some (a, k, v)
  | node (node ll la lk lv lr) _ _ _ _ => min? (node ll la lk lv lr)

/-- The rightmost node: address, key and value. -/
def max? : Tree K V → Option (Nat × K × V)
  | nil => none
  | node _ a k v nil => some (a, k, v)
  | node _ _ _ _ (node rl ra rk rv rr) => max? (node rl ra rk rv rr)

/-- The tree without its leftmost node, whose right subtree takes its place. -/
def delMin : Tree K V → Tree K V
  | nil => nil
  | node nil _ _ _ r => r
  | node (node ll la lk lv lr) a k v r => node (delMin (node ll la lk lv lr)) a k v r

/-- The tree without its root: a root with at most one child is replaced by that child,
a root with two children by the leftmost node of its right subtree. -/
def delRoot : Tree K V → Tree K V
  | nil => nil
  | node nil _ _ _ r => r
  | node (node ll la lk lv lr) _ _ _ nil => node ll la lk lv lr
  | node (node ll la lk lv lr) _ _ _ (node rl ra rk rv rr) =>
    match (node rl ra rk rv rr).min? with
    | some (b, kb, vb) => node (node ll la lk lv lr) b kb vb (node rl ra rk rv rr).delMin
    | none => nil

end Tree

/-- One step of a path from a node down to a subtree: the node with the sibling that is
left in place; the hole is the left child (`left`) or the right child (`right`). -/
inductive Frame (K V : Type) where
  | left (a : Nat) (k : K) (v : V) (r : Tree K V) : Frame K V
  | right (l : Tree K V) (a : Nat) (k : K) (v : V) : Frame K V

/-- The address of the node of a frame. -/
def Frame.addr : Frame K V → Nat
  | .left a _ _ _ => a
  | .right _ a _ _ => a

/-- The node of a frame with the tree `t` put in the hole. -/
def Frame.fill : Frame K V → Tree K V → Tree K V
  | .left a k v r, t => .node t a k v r
  | .right l a k v, t => .node l a k v t

/-- The tree around a subtree, as the frames from the subtree up to the root, with the
subtree `t` put in. -/
def plug : List (Frame K V) → Tree K V → Tree K V
  | [], t => t
  | f :: c, t => plug c (f.fill t)

/-- The parent of the subtree in a context: the node of the innermost frame, or the
parent `par` of the whole tree. -/
def ctxParent (par : Option Nat) : List (Frame K V) → Option Nat
  | [] => par
  | f :: _ => some f.addr

/-- The nodes of a context that come before the subtree, in order. -/
def ctxBefore : List (Frame K V) → List (Nat × K × V)
  | [] => []
  | .left _ _ _ _ :: c => ctxBefore c
  | .right l a k v :: c => ctxBefore c ++ l.nodes ++ [(a, k, v)]

/-- The nodes of a context that come after the subtree, in order. -/
def ctxAfter : List (Frame K V) → List (Nat × K × V)
  | [] => []
  | .left a k v r :: c => (a, k, v) :: r.nodes ++ ctxAfter c
  | .right _ _ _ _ :: c => ctxAfter c

/-! ## Client programs and reachable states -/

/-- A client loop that applies `++` to an iterator `n` times. -/
def stepForward (m : Mem K V) (fuel : Nat) : Nat → ConstIterator → Res ConstIterator ConstIterator
  | 0, it => pure it
  | n + 1, it => do
    let it1 ← it.incr m fuel
    stepForward m fuel n it1

/-- The call modelled by `run`, a function of the fuel, has the outcome `r`: every run
with enough fuel ends with `r`.  The fuel is an artefact of the embedding; an execution
of the program corresponds to a run with unbounded fuel. -/
def Returns {ε α : Type} (run : Nat → Res ε α) (r : Res ε α) : Prop :=
  ∃ f0, ∀ f, f0 ≤ f → run f = r

/-- The memory states that a client reaches from the empty memory through the public
interface: construction of maps (empty or from an initializer list) at unused object
addresses, `operator[]`, removal by key and by an iterator to a stored entry (as `find`
returns it), and, when `asg` is set, copy and move assignment.  Only calls that return
normally make a step. -/
inductive Reachable [LinearOrder K] [Inhabited V] (asg : Bool) : Mem K V → Prop where
  | empty : Reachable asg Mem.empty
  | ctor {m : Mem K V} {this : Nat} :
      Reachable asg m → m.tree this = none → Reachable asg (ctor m this)
  | ctorList {m m' : Mem K V} {this : Nat} {list : List (K × V)} :
      Reachable asg m → m.tree this = none →
      Returns (fun f => ctorList m this list f) (Res.ok m' : Res (Mem K V) (Mem K V)) →
      Reachable asg m'
  | opIndex {m m' : Mem K V} {this : Nat} {key : K} {a : Nat} :
      Reachable asg m → Returns (fun f => opIndex m this key f) (Res.ok (m', a)) →
      Reachable asg m'
  | removeKey {m m' : Mem K V} {this : Nat} {key : K} :
      Reachable asg m → Returns (fun f => removeKey m this key f) (Res.ok m') →
      Reachable asg m'
  | removeIt {m m' : Mem K V} {this : Nat} {key : K} {it : ConstIterator} :
      Reachable asg m →
      Returns (fun f => find m this key f) (Res.ok it : Res (Mem K V) ConstIterator) →
      Returns (fun f => removeIt m this it f) (Res.ok m') → Reachable asg m'
  | assign {m m' : Mem K V} {this other : Nat} :
      asg = true → Reachable asg m → Returns (fun f => assign m this other f) (Res.ok m') →
      Reachable asg m'
  | moveAssign {m m' : Mem K V} {this other : Nat} :
      asg = true → Reachable asg m →
      Returns (fun f => moveAssign m this other f) (Res.ok m') → Reachable asg m'

/-- The reachable states together with the numbers of successful insertions into and
successful removals from the map object `obj` on the way.  A construction from an
initializer list inserts each of its distinct keys once; `operator[]` inserts when the
key is not found; a copy assignment inserts the entries of its argument; a removal that
returns normally is successful.  Copy and move assignments between any maps are steps of
a history; with `asg` unset, none of them has written to `obj`: `obj` was not the
destination of a copy or move assignment from another map, and not the source of a move
assignment to another map (a copy assignment from `obj` only reads it, and an assignment
of a map to itself does nothing). -/
inductive History [LinearOrder K] [Inhabited V] (asg : Bool) (obj : Nat) :
    Mem K V → Nat → Nat → Prop where
  | empty : History asg obj Mem.empty 0 0
  | ctor {m : Mem K V} {this i r : Nat} :
      History asg obj m i r → m.tree this = none → History asg obj (ctor m this) i r
  | ctorList {m m' : Mem K V} {this i r : Nat} {list : List (K × V)} :
      History asg obj m i r → m.tree this = none →
      Returns (fun f => ctorList m this list f) (Res.ok m' : Res (Mem K V) (Mem K V)) →
      History asg obj m' (i + if this = obj then (list.map Prod.fst).dedup.length else 0) r
  | opIndex {m m' : Mem K V} {this i r : Nat} {key : K} {c : Option Nat} {a : Nat} :
      History asg obj m i r →
      Returns (fun f => findNode m this key f) (Res.ok c : Res (Mem K V) (Option Nat)) →
      Returns (fun f => opIndex m this key f) (Res.ok (m', a)) →
      History asg obj m' (i + if this = obj ∧ c = none then 1 else 0) r
  | removeKey {m m' : Mem K V} {this i r : Nat} {key : K} :
      History asg obj m i r → Returns (fun f => removeKey m this key f) (Res.ok m') →
      History asg obj m' i (r + if this = obj then 1 else 0)
  | removeIt {m m' : Mem K V} {this i r : Nat} {key : K} {it : ConstIterator} :
      History asg obj m i r →
      Returns (fun f => find m this key f) (Res.ok it : Res (Mem K V) ConstIterator) →
      Returns (fun f => removeIt m this it f) (Res.ok m') →
      History asg obj m' i (r + if this = obj then 1 else 0)
  | assign {m m' : Mem K V} {this other i r c : Nat} :
      (asg = true ∨ this ≠ obj ∨ this = other) → History asg obj m i r →
      (getSize m other : Res (Mem K V) Nat) = Res.ok c →
      Returns (fun f => assign m this other f) (Res.ok m') →
      History asg obj m' (i + if this = obj ∧ this ≠ other then c else 0) r
  | moveAssign {m m' : Mem K V} {this other i r : Nat} :
      (asg = true ∨ (this ≠ obj ∧ other ≠ obj) ∨ this = other) → History asg obj m i r →
      Returns (fun f => moveAssign m this other f) (Res.ok m') → History asg obj m' i r

/-- The invariant of the whole memory, for the trees `T i` owned by the map objects `i`:
every map object points to its tree, which is laid out with consistent parent links, is a
binary search tree and has `count` nodes; different maps own disjoint sets of nodes; and
no cell is in use at or beyond the next address of the allocator. -/
def GInvW [LinearOrder K] (m : Mem K V) (T : Nat → Tree K V) : Prop :=
  (∀ i tm, m.tree i = some tm →
    tm.root = (T i).rootPtr ∧ Rep true m.node none (T i) ∧ (T i).BST ∧ tm.count = (T i).size) ∧
  (∀ i j, i ≠ j → ∀ x, x ∈ (T i).addrs → x ∉ (T j).addrs) ∧
  (∀ i, m.tree i = none → T i = Tree.nil) ∧
  (∀ a, m.next ≤ a → m.node a = none)

/-! ## The scenario of the specification -/

/-- The pairs of the scenario: keys 5, 3, 8, 1, 4, 7, 9 in this order. -/
def exampleList : List (Nat × Nat) :=
  [(5, 50), (3, 30), (8, 80), (1, 10), (4, 40), (7, 70), (9, 90)]

/-- The memory after `TreeMap<int, int> map = { (5, 50), (3, 30), ... }` for the map
object at address 0, starting from the empty memory. -/
def exampleMem : Mem Nat Nat :=
  match (ctorList Mem.empty 0 exampleList 8 : Res Unit (Mem Nat Nat)) with
  | .ok m => m
  | _ => Mem.empty

/-- The tree that insertion of the keys 5, 3, 8, 1, 4, 7, 9 builds; the nodes are
allocated at the addresses 0 to 6 in the order of insertion. -/
def exampleTree : Tree Nat Nat :=
  .node (.node (.node .nil 3 1 10 .nil) 1 3 30 (.node .nil 4 4 40 .nil)) 0 5 50
    (.node (.node .nil 5 7 70 .nil) 2 8 80 (.node .nil 6 9 90 .nil))

/-- The memory after `TreeMap<int, int> a; a[5];` for the map object `a` at address 0,
starting from the empty memory. -/
def indexedMem : Mem Nat Nat :=
  match opIndex (ctor Mem.empty 0) 0 5 2 with
  | .ok (m, _) => m
  | _ => Mem.empty

/-- The memory after the further statements `TreeMap<int, int> b; a = b;` with the map
object `b` at address 1. -/
def assignedMem : Mem Nat Nat :=
  match assign (ctor indexedMem 1) 0 1 2 with
  | .ok m => m
  | _ => Mem.empty

/-- The memory after `TreeMap<int, int> a; a[5]; TreeMap<int, int> b; b = a;` with the
map object `b` at address 1: the copy assignment reads `a` and writes `b`. -/
def copiedMem : Mem Nat Nat :=
  match assign (ctor indexedMem 1) 1 0 3 with
  | .ok m => m
  | _ => Mem.empty

/-- The memory after `TreeMap<int, int> map = { (1, 10), (2, 20), (3, 30) }` for the map
object at address 0, starting from the empty memory. -/
def smallMem : Mem Nat Nat :=
  match (ctorList Mem.empty 0 [(1, 10), (2, 20), (3, 30)] 4 : Res Unit (Mem Nat Nat)) with
  | .ok m => m
  | _ => Mem.empty

/-- The tree that insertion of the keys 1, 2, 3 builds, at the addresses 0 to 2. -/
def smallTree : Tree Nat Nat :=
  .node .nil 0 1 10 (.node .nil 1 2 20 (.node .nil 2 3 30 .nil))

/-- The memory after `TreeMap<int, int> map = { (5, 1), (5, 2) }` for the map object at
address 0, starting from the empty memory. -/
def dupMem : Mem Nat Nat :=
  match (ctorList Mem.empty 0 [(5, 1), (5, 2)] 3 : Res Unit (Mem Nat Nat)) with
  | .ok m => m
  | _ => Mem.empty

/-- The memory after a second construction, of the map object at address 1 from the pairs
`(2, 20), (1, 10), (3, 30)`, in the memory `smallMem`: the two maps hold the same entries
in trees of different shapes. -/
def twinMem : Mem Nat Nat :=
  match (ctorList smallMem 1 [(2, 20), (1, 10), (3, 30)] 4 : Res Unit (Mem Nat Nat)) with
  | .ok m => m
  | _ => Mem.empty

/-- The tree that insertion of the keys 2, 1, 3 builds, at the addresses 3 to 5. -/
def twinTree : Tree Nat Nat :=
  .node (.node .nil 4 1 10 .nil) 3 2 20 (.node .nil 5 3 30 .nil)

/-! ## Basic facts about outcomes and memory -/

section Basics

@[simp] theorem Res.pure_eq {α : Type} (a : α) : (pure a : Res ε α) = Res.ok a := rfl

@[simp] theorem Res.ok_bind {α β : Type} (a : α) (f : α → Res ε β) :
    (Res.ok a >>= f) = f a := rfl

@[simp] theorem Res.thrown_bind {α β : Type} (e : OutOfRange) (s : ε) (f : α → Res ε β) :
    (Res.thrown e s >>= f) = Res.thrown e s := rfl

@[simp] theorem Res.undefined_bind {α β : Type} (f : α → Res ε β) :
    ((Res.undefined : Res ε α) >>= f) = Res.undefined := rfl

@[simp] theorem Res.timeout_bind {α β : Type} (f : α → Res ε β) :
    ((Res.timeout : Res ε α) >>= f) = Res.timeout := rfl

@[simp] theorem Res.inMem_ok {σ α : Type} (m : Mem K V) (a : α) :
    (Res.ok a : Res σ α).inMem m = Res.ok a := rfl

@[simp] theorem Mem.setNode_node (m : Mem K V) (a b : Nat) (nd : Node K V) :
    (m.setNode a nd).node b = if b = a then some nd else m.node b := rfl

@[simp] theorem Mem.setNode_tree (m : Mem K V) (a : Nat) (nd : Node K V) :
    (m.setNode a nd).tree = m.tree := rfl

@[simp] theorem Mem.setNode_next (m : Mem K V) (a : Nat) (nd : Node K V) :
    (m.setNode a nd).next = m.next := rfl

@[simp] theorem Mem.freeNode_node (m : Mem K V) (a b : Nat) :
    (m.freeNode a).node b = if b = a then none else m.node b := rfl

@[simp] theorem Mem.freeNode_tree (m : Mem K V) (a : Nat) : (m.freeNode a).tree = m.tree := rfl

@[simp] theorem Mem.freeNode_next (m : Mem K V) (a : Nat) : (m.freeNode a).next = m.next := rfl

@[simp] theorem Mem.setTree_node (m : Mem K V) (a : Nat) (t : TreeMap) :
    (m.setTree a t).node = m.node := rfl

@[simp] theorem Mem.setTree_tree (m : Mem K V) (a b : Nat) (t : TreeMap) :
    (m.setTree a t).tree b = if b = a then some t else m.tree b := rfl

@[simp] theorem Mem.setTree_next (m : Mem K V) (a : Nat) (t : TreeMap) :
    (m.setTree a t).next = m.next := rfl

theorem Mem.getNode_eq {m : Mem K V} {a : Nat} {nd : Node K V} (h : m.node a = some nd) :
    (m.getNode a : Res ε (Node K V)) = Res.ok nd := by
  simp [Mem.getNode, h]

theorem Mem.getTree_eq {m : Mem K V} {a : Nat} {t : TreeMap} (h : m.tree a = some t) :
    (m.getTree a : Res ε TreeMap) = Res.ok t := by
  simp [Mem.getTree, h]

theorem Mem.setLeft_eq {m : Mem K V} {a : Nat} {nd : Node K V} (h : m.node a = some nd)
    (p : Option Nat) :
    (m.setLeft a p : Res ε (Mem K V)) = Res.ok (m.setNode a { nd with left := p }) := by
  simp [Mem.setLeft, Mem.getNode_eq h]

theorem Mem.setRight_eq {m : Mem K V} {a : Nat} {nd : Node K V} (h : m.node a = some nd)
    (p : Option Nat) :
    (m.setRight a p : Res ε (Mem K V)) = Res.ok (m.setNode a { nd with right := p }) := by
  simp [Mem.setRight, Mem.getNode_eq h]

theorem Mem.setParent_eq {m : Mem K V} {a : Nat} {nd : Node K V} (h : m.node a = some nd)
    (p : Option Nat) :
    (m.setParent a p : Res ε (Mem K V)) = Res.ok (m.setNode a { nd with parent := p }) := by
  simp [Mem.setParent, Mem.getNode_eq h]

theorem Mem.setRoot_eq {m : Mem K V} {a : Nat} {t : TreeMap} (h : m.tree a = some t)
    (p : Option Nat) :
    (m.setRoot a p : Res ε (Mem K V)) = Res.ok (m.setTree a { t with root := p }) := by
  simp [Mem.setRoot, Mem.getTree_eq h]

theorem Mem.setCount_eq {m : Mem K V} {a : Nat} {t : TreeMap} (h : m.tree a = some t)
    (c : Nat) :
    (m.setCount a c : Res ε (Mem K V)) = Res.ok (m.setTree a { t with count := c }) := by
  simp [Mem.setCount, Mem.getTree_eq h]

theorem Mem.incrCount_eq {m : Mem K V} {a : Nat} {t : TreeMap} (h : m.tree a = some t) :
    (m.incrCount a : Res ε (Mem K V)) = Res.ok (m.setTree a { t with count := t.count + 1 }) := by
  simp [Mem.incrCount, Mem.getTree_eq h, Mem.setCount_eq h]

theorem Mem.decrCount_eq {m : Mem K V} {a : Nat} {t : TreeMap} (h : m.tree a = some t)
    (hc : t.count ≠ 0) :
    (m.decrCount a : Res ε (Mem K V)) = Res.ok (m.setTree a { t with count := t.count - 1 }) := by
  simp [Mem.decrCount, Mem.getTree_eq h, Mem.setCount_eq h, hc]

/-- Deleting a node whose child links are null releases exactly its cell. -/
theorem Mem.delete_leaf {m : Mem K V} {a : Nat} {nd : Node K V} (h : m.node a = some nd)
    (hl : nd.left = none) (hr : nd.right = none) (fuel : Nat) (hf : 0 < fuel) :
    (Mem.delete fuel m (some a) : Res ε (Mem K V)) = Res.ok (m.freeNode a) := by
  obtain ⟨f, rfl⟩ : ∃ f, fuel = f + 1 := ⟨fuel - 1, by omega⟩
  simp [Mem.delete, Mem.getNode_eq h, hl, hr]

end Basics

/-! ## Facts about abstract trees -/

namespace Tree

theorem keys_eq_map (t : Tree K V) : t.keys = t.toList.map Prod.fst := by
  induction t with
  | nil => rfl
  | node l a k v r ihl ihr => simp [keys, toList, ihl, ihr]

theorem toList_eq_map (t : Tree K V) : t.toList = t.nodes.map Prod.snd := by
  induction t with
  | nil => rfl
  | node l a k v r ihl ihr => simp [nodes, toList, ihl, ihr]

theorem addrs_eq_map (t : Tree K V) : t.addrs = t.nodes.map Prod.fst := by
  induction t with
  | nil => rfl
  | node l a k v r ihl ihr => simp [nodes, addrs, ihl, ihr]

theorem length_toList (t : Tree K V) : t.toList.length = t.size := by
  induction t with
  | nil => rfl
  | node l a k v r ihl ihr => simp [size, toList, ihl, ihr]; omega

theorem length_addrs (t : Tree K V) : t.addrs.length = t.size := by
  induction t with
  | nil => rfl
  | node l a k v r ihl ihr => simp [size, addrs, ihl, ihr]; omega

theorem rootPtr_eq_none {t : Tree K V} : t.rootPtr = none ↔ t = nil := by
  cases t <;> simp [rootPtr]

theorem rootPtr_mem_addrs {t : Tree K V} {a : Nat} (h : t.rootPtr = some a) : a ∈ t.addrs := by
  cases t with
  | nil => simp [rootPtr] at h
  | node l b k v r => simp [rootPtr] at h; simp [addrs, h]

section Order
variable [LinearOrder K]

/-- The in-order key sequence of a BST is strictly increasing. -/
theorem BST.sorted {t : Tree K V} (h : t.BST) : t.keys.Sorted (· < ·) := by
  induction t with
  | nil => simp [keys]
  | node l a k v r ihl ihr =>
    obtain ⟨hl, hr, bl, br⟩ := h
    simp only [keys, List.Sorted, List.pairwise_append, List.pairwise_cons]
    refine ⟨ihl bl, ⟨hr, ihr br⟩, ?_⟩
    intro x hx y hy
    rcases List.mem_cons.1 hy with rfl | hy
    · exact hl x hx
    · exact lt_trans (hl x hx) (hr y hy)

/-- A tree whose in-order key sequence is strictly increasing is a BST. -/
theorem BST.of_sorted {t : Tree K V} (h : t.keys.Sorted (· < ·)) : t.BST := by
  induction t with
  | nil => trivial
  | node l a k v r ihl ihr =>
    simp only [keys, List.Sorted, List.pairwise_append, List.pairwise_cons] at h
    obtain ⟨hl, ⟨hr, hrs⟩, hlr⟩ := h
    exact ⟨fun x hx => hlr x hx k (List.mem_cons_self _ _), hr, ihl hl, ihr hrs⟩

theorem BST.nodup_keys {t : Tree K V} (h : t.BST) : t.keys.Nodup :=
  (BST.sorted h).imp (fun hab => ne_of_lt hab)

end Order

end Tree


@[simp] theorem Tree.rootPtr_nil : (Tree.nil : Tree K V).rootPtr = none := rfl

@[simp] theorem Tree.rootPtr_node (l : Tree K V) (a : Nat) (k : K) (v : V) (r : Tree K V) :
    (Tree.node l a k v r).rootPtr = some a := rfl

theorem Rep.congr {pc : Bool} {h h' : Nat → Option (Node K V)} {par : Option Nat} {t : Tree K V}
    (hagree : ∀ a ∈ t.addrs, h' a = h a) (hr : Rep pc h par t) : Rep pc h' par t := by
  induction t generalizing par with
  | nil => trivial
  | node l a k v r ihl ihr =>
    obtain ⟨hc, hl, hrr⟩ := hr
    refine ⟨?_, ihl (fun x hx => hagree x (by simp [Tree.addrs, hx])) hl,
      ihr (fun x hx => hagree x (by simp [Tree.addrs, hx])) hrr⟩
    rw [hagree a (by simp [Tree.addrs])]
    exact hc

theorem Rep.weaken {pc : Bool} {h : Nat → Option (Node K V)} {par : Option Nat} {t : Tree K V}
    (hr : Rep pc h par t) : Rep false h par t := by
  induction t generalizing par with
  | nil => trivial
  | node l a k v r ihl ihr =>
    obtain ⟨⟨nd, h1, h2, h3, h4, _⟩, hl, hrr⟩ := hr
    exact ⟨⟨nd, h1, h2, h3, h4, by simp⟩, ihl hl, ihr hrr⟩

/-- Changing the expected parent of the root only concerns the root cell. -/
theorem Rep.cell_of_mem {pc : Bool} {h : Nat → Option (Node K V)} {par : Option Nat}
    {t : Tree K V} (hr : Rep pc h par t) {a : Nat} {k : K} {v : V}
    (hm : (a, k, v) ∈ t.nodes) : ∃ nd, h a = some nd ∧ nd.data = (k, v) := by
  induction t generalizing par with
  | nil => simp [Tree.nodes] at hm
  | node l b kb vb r ihl ihr =>
    obtain ⟨⟨nd, h1, h2, _⟩, hl, hrr⟩ := hr
    simp only [Tree.nodes, List.mem_append, List.mem_cons] at hm
    rcases hm with hm | hm | hm
    · exact ihl hl hm
    · cases hm; exact ⟨nd, h1, h2⟩
    · exact ihr hrr hm

theorem Tree.mem_addrs_iff {t : Tree K V} {a : Nat} :
    a ∈ t.addrs ↔ ∃ k v, (a, k, v) ∈ t.nodes := by
  simp [Tree.addrs_eq_map]

theorem Tree.mem_keys_iff {t : Tree K V} {k : K} :
    k ∈ t.keys ↔ ∃ a v, (a, k, v) ∈ t.nodes := by
  induction t with
  | nil => simp [Tree.keys, Tree.nodes]
  | node l b kb vb r ihl ihr =>
    simp only [Tree.keys, Tree.nodes, List.mem_append, List.mem_cons, ihl, ihr, Prod.mk.injEq]
    constructor
    · rintro (⟨a, v, h⟩ | rfl | ⟨a, v, h⟩)
      · exact ⟨a, v, Or.inl h⟩
      · exact ⟨b, vb, Or.inr (Or.inl ⟨rfl, rfl, rfl⟩)⟩
      · exact ⟨a, v, Or.inr (Or.inr h)⟩
    · rintro ⟨a, v, h | ⟨-, rfl, -⟩ | h⟩
      · exact Or.inl ⟨a, v, h⟩
      · exact Or.inr (Or.inl rfl)
      · exact Or.inr (Or.inr ⟨a, v, h⟩)

theorem Tree.mem_toList_iff {t : Tree K V} {k : K} {v : V} :
    (k, v) ∈ t.toList ↔ ∃ a, (a, k, v) ∈ t.nodes := by
  simp [Tree.toList_eq_map]

theorem Tree.mem_keys_of_mem_nodes {t : Tree K V} {a : Nat} {k : K} {v : V}
    (h : (a, k, v) ∈ t.nodes) : k ∈ t.keys := Tree.mem_keys_iff.2 ⟨a, v, h⟩

theorem Tree.mem_addrs_of_mem_nodes {t : Tree K V} {a : Nat} {k : K} {v : V}
    (h : (a, k, v) ∈ t.nodes) : a ∈ t.addrs := Tree.mem_addrs_iff.2 ⟨k, v, h⟩

section Order
variable [LinearOrder K]

/-- In a BST laid out in memory, an address determines its node: the cell fixes the key,
and the keys of a BST are pairwise distinct. -/
theorem Rep.nodup_addrs {pc : Bool} {h : Nat → Option (Node K V)} {par : Option Nat}
    {t : Tree K V} (hr : Rep pc h par t) (hb : t.BST) : t.addrs.Nodup := by
  induction t generalizing par with
  | nil => simp [Tree.addrs]
  | node l a k v r ihl ihr =>
    obtain ⟨⟨nd, h1, h2, _⟩, hl, hrr⟩ := hr
    obtain ⟨bl, br, bstl, bstr⟩ := hb
    have key_of : ∀ (s : Tree K V) (q : Option Nat), Rep pc h q s → ∀ x ∈ s.addrs,
        ∃ nx, h x = some nx ∧ nx.data.1 ∈ s.keys := by
      intro s q hs x hx
      obtain ⟨kx, vx, hm⟩ := Tree.mem_addrs_iff.1 hx
      obtain ⟨nx, e1, e2⟩ := hs.cell_of_mem hm
      exact ⟨nx, e1, by rw [e2]; exact Tree.mem_keys_of_mem_nodes hm⟩
    simp only [Tree.addrs, List.nodup_append, List.nodup_cons]
    refine ⟨ihl hl bstl, ⟨?_, ihr hrr bstr⟩, ?_⟩
    · intro ha
      obtain ⟨nx, e1, e2⟩ := key_of r _ hrr a ha
      rw [h1] at e1; cases e1
      rw [h2] at e2
      exact lt_irrefl _ (br _ e2)
    · intro x hx hx2
      rcases List.mem_cons.1 hx2 with rfl | hx2
      · obtain ⟨nx, e1, e2⟩ := key_of l _ hl x hx
        rw [h1] at e1; cases e1
        rw [h2] at e2
        exact lt_irrefl _ (bl _ e2)
      · obtain ⟨nx, e1, e2⟩ := key_of l _ hl x hx
        obtain ⟨ny, e3, e4⟩ := key_of r _ hrr x hx2
        rw [e1] at e3; cases e3
        exact lt_irrefl _ (lt_trans (bl _ e2) (br _ e4))

theorem Tree.findAddr_eq_some {t : Tree K V} (hb : t.BST) {key : K} {a : Nat} :
    t.findAddr key = some a ↔ ∃ v, (a, key, v) ∈ t.nodes := by
  induction t with
  | nil => simp [Tree.findAddr, Tree.nodes]
  | node l b k w r ihl ihr =>
    obtain ⟨bl, br, bstl, bstr⟩ := hb
    simp only [Tree.findAddr, Tree.nodes, List.mem_append, List.mem_cons, Prod.mk.injEq]
    by_cases h1 : key > k
    · simp only [h1, if_true, ihr bstr]
      constructor
      · rintro ⟨v, hv⟩; exact ⟨v, Or.inr (Or.inr hv)⟩
      · rintro ⟨v, hv | ⟨-, rfl, -⟩ | hv⟩
        · exact absurd (bl _ (Tree.mem_keys_of_mem_nodes hv)) (not_lt_of_gt h1)
        · exact absurd h1 (lt_irrefl _)
        · exact ⟨v, hv⟩
    · by_cases h2 : key < k
      · simp only [h1, h2, if_true, if_false, ihl bstl]
        constructor
        · rintro ⟨v, hv⟩; exact ⟨v, Or.inl hv⟩
        · rintro ⟨v, hv | ⟨-, rfl, -⟩ | hv⟩
          · exact ⟨v, hv⟩
          · exact absurd h2 (lt_irrefl _)
          · exact absurd (br _ (Tree.mem_keys_of_mem_nodes hv)) (not_lt_of_gt h2)
      · have hk : key = k := le_antisymm (not_lt.1 h1) (not_lt.1 h2)
        subst hk
        simp only [h1, if_false, Option.some.injEq]
        constructor
        · rintro rfl; exact ⟨w, Or.inr (Or.inl ⟨rfl, trivial, rfl⟩)⟩
        · rintro ⟨v, hv | ⟨rfl, -, -⟩ | hv⟩
          · exact absurd (bl _ (Tree.mem_keys_of_mem_nodes hv)) (lt_irrefl _)
          · rfl
          · exact absurd (br _ (Tree.mem_keys_of_mem_nodes hv)) (lt_irrefl _)

theorem Tree.findAddr_eq_none {t : Tree K V} (hb : t.BST) {key : K} :
    t.findAddr key = none ↔ key ∉ t.keys := by
  rw [Tree.mem_keys_iff]
  constructor
  · rintro h ⟨a, v, hm⟩
    rw [(Tree.findAddr_eq_some hb).2 ⟨v, hm⟩] at h
    cases h
  · intro h
    cases hf : t.findAddr key with
    | none => rfl
    | some a =>
      obtain ⟨v, hv⟩ := (Tree.findAddr_eq_some hb).1 hf
      exact absurd ⟨a, v, hv⟩ h

/-- The loop of `findNode` follows the abstract search. -/
theorem findNodeLoop_eq {pc : Bool} {m : Mem K V} {par : Option Nat} {t : Tree K V}
    (hr : Rep pc m.node par t) (key : K) {fuel : Nat} (hf : t.height ≤ fuel) :
    (findNodeLoop m key fuel t.rootPtr : Res ε (Option Nat)) = Res.ok (t.findAddr key) := by
  induction t generalizing par fuel with
  | nil => cases fuel <;> simp [findNodeLoop, Tree.findAddr]
  | node l a k v r ihl ihr =>
    obtain ⟨⟨nd, h1, h2, h3, h4, _⟩, hl, hrr⟩ := hr
    simp only [Tree.height] at hf
    obtain ⟨f, rfl⟩ : ∃ f, fuel = f + 1 := ⟨fuel - 1, by omega⟩
    have hfl : l.height ≤ f := by have := le_max_left l.height r.height; omega
    have hfr : r.height ≤ f := by have := le_max_right l.height r.height; omega
    simp only [findNodeLoop, Tree.rootPtr_node, Mem.getNode_eq h1, Res.ok_bind, h2, h3, h4,
      Tree.findAddr, ihl hl hfl, ihr hrr hfr]
    split_ifs <;> rfl

end Order

/-! ## Insertion -/

section Insertion
variable [LinearOrder K]

theorem Tree.ins_rootPtr (p : Nat) (key : K) (v : V) (l : Tree K V) (a : Nat) (k : K) (w : V)
    (r : Tree K V) : ((Tree.node l a k w r).ins p key v).rootPtr = some a := by
  simp only [Tree.ins]
  split_ifs <;> rfl

theorem Tree.ins_of_mem {t : Tree K V} (hb : t.BST) {key : K} (hk : key ∈ t.keys) (p : Nat)
    (v : V) : t.ins p key v = t := by
  induction t with
  | nil => simp [Tree.keys] at hk
  | node l a k w r ihl ihr =>
    obtain ⟨bl, br, bstl, bstr⟩ := hb
    simp only [Tree.keys, List.mem_append, List.mem_cons] at hk
    simp only [Tree.ins]
    by_cases h1 : key > k
    · have hkr : key ∈ r.keys := by
        rcases hk with hk | hk | hk
        · exact absurd (bl _ hk) (not_lt_of_gt h1)
        · exact absurd h1 (hk ▸ lt_irrefl _)
        · exact hk
      simp [h1, ihr bstr hkr]
    · by_cases h2 : key < k
      · have hkl : key ∈ l.keys := by
          rcases hk with hk | hk | hk
          · exact hk
          · exact absurd h2 (hk ▸ lt_irrefl _)
          · exact absurd (br _ hk) (not_lt_of_gt h2)
        simp [h1, h2, ihl bstl hkl]
      · simp [h1, h2]

/-- Inserting an absent key adds the pair at its sorted position of the in-order
sequence. -/
theorem Tree.ins_nodes {t : Tree K V} (hb : t.BST) {key : K} (hk : key ∉ t.keys) (p : Nat)
    (v : V) : ∃ l1 l2, t.nodes = l1 ++ l2 ∧ (t.ins p key v).nodes = l1 ++ (p, key, v) :: l2 ∧
      (∀ x ∈ l1, x.2.1 < key) ∧ (∀ x ∈ l2, key < x.2.1) := by
  induction t with
  | nil => exact ⟨[], [], by simp [Tree.nodes, Tree.ins]⟩
  | node l a k w r ihl ihr =>
    obtain ⟨bl, br, bstl, bstr⟩ := hb
    simp only [Tree.keys, List.mem_append, List.mem_cons, not_or] at hk
    obtain ⟨hkl, hkk, hkr⟩ := hk
    simp only [Tree.ins]
    by_cases h1 : key > k
    · obtain ⟨l1, l2, e1, e2, e3, e4⟩ := ihr bstr hkr
      refine ⟨l.nodes ++ (a, k, w) :: l1, l2, ?_, ?_, ?_, e4⟩
      · simp [Tree.nodes, e1]
      · simp [h1, Tree.nodes, e2]
      · intro x hx
        simp only [List.mem_append, List.mem_cons] at hx
        rcases hx with hx | rfl | hx
        · exact lt_trans (bl _ (Tree.mem_keys_of_mem_nodes hx)) h1
        · exact h1
        · exact e3 x hx
    · have h2 : key < k := lt_of_le_of_ne (not_lt.1 h1) hkk
      obtain ⟨l1, l2, e1, e2, e3, e4⟩ := ihl bstl hkl
      refine ⟨l1, l2 ++ (a, k, w) :: r.nodes, ?_, ?_, e3, ?_⟩
      · simp [Tree.nodes, e1]
      · simp [h1, h2, Tree.nodes, e2]
      · intro x hx
        simp only [List.mem_append, List.mem_cons] at hx
        rcases hx with hx | rfl | hx
        · exact e4 x hx
        · exact h2
        · exact lt_trans h2 (br _ (Tree.mem_keys_of_mem_nodes hx))

theorem Tree.ins_keys_subset (t : Tree K V) (p : Nat) (key : K) (v : V) :
    ∀ x ∈ (t.ins p key v).keys, x = key ∨ x ∈ t.keys := by
  induction t with
  | nil => intro x hx; simp [Tree.ins, Tree.keys] at hx; exact Or.inl hx
  | node l a k w r ihl ihr =>
    intro x hx
    simp only [Tree.ins] at hx
    split_ifs at hx
    · simp only [Tree.keys, List.mem_append, List.mem_cons] at hx ⊢
      rcases hx with hx | hx | hx
      · exact Or.inr (Or.inl hx)
      · exact Or.inr (Or.inr (Or.inl hx))
      · rcases ihr x hx with h | h
        · exact Or.inl h
        · exact Or.inr (Or.inr (Or.inr h))
    · simp only [Tree.keys, List.mem_append, List.mem_cons] at hx ⊢
      rcases hx with hx | hx | hx
      · rcases ihl x hx with h | h
        · exact Or.inl h
        · exact Or.inr (Or.inl h)
      · exact Or.inr (Or.inr (Or.inl hx))
      · exact Or.inr (Or.inr (Or.inr hx))
    · exact Or.inr hx

theorem Tree.ins_addrs_subset (t : Tree K V) (p : Nat) (key : K) (v : V) :
    ∀ x ∈ (t.ins p key v).addrs, x = p ∨ x ∈ t.addrs := by
  induction t with
  | nil => intro x hx; simp [Tree.ins, Tree.addrs] at hx; exact Or.inl hx
  | node l a k w r ihl ihr =>
    intro x hx
    simp only [Tree.ins] at hx
    split_ifs at hx
    · simp only [Tree.addrs, List.mem_append, List.mem_cons] at hx ⊢
      rcases hx with hx | hx | hx
      · exact Or.inr (Or.inl hx)
      · exact Or.inr (Or.inr (Or.inl hx))
      · rcases ihr x hx with h | h
        · exact Or.inl h
        · exact Or.inr (Or.inr (Or.inr h))
    · simp only [Tree.addrs, List.mem_append, List.mem_cons] at hx ⊢
      rcases hx with hx | hx | hx
      · rcases ihl x hx with h | h
        · exact Or.inl h
        · exact Or.inr (Or.inl h)
      · exact Or.inr (Or.inr (Or.inl hx))
      · exact Or.inr (Or.inr (Or.inr hx))
    · exact Or.inr hx

/-- Insertion keeps the BST order invariant. -/
theorem Tree.ins_BST {t : Tree K V} (hb : t.BST) (p : Nat) (key : K) (v : V) :
    (t.ins p key v).BST := by
  induction t with
  | nil => simp [Tree.ins, Tree.BST, Tree.keys]
  | node l a k w r ihl ihr =>
    obtain ⟨bl, br, bstl, bstr⟩ := hb
    simp only [Tree.ins]
    by_cases h1 : key > k
    · simp only [h1, if_true]
      refine ⟨bl, ?_, bstl, ihr bstr⟩
      intro x hx
      rcases Tree.ins_keys_subset r p key v x hx with rfl | h
      · exact h1
      · exact br x h
    · by_cases h2 : key < k
      · simp only [h1, h2, if_true, if_false]
        refine ⟨?_, br, ihl bstl, bstr⟩
        intro x hx
        rcases Tree.ins_keys_subset l p key v x hx with rfl | h
        · exact h2
        · exact bl x h
      · simp only [h1, h2, if_false]
        exact ⟨bl, br, bstl, bstr⟩

theorem Tree.ins_height_le (t : Tree K V) (p : Nat) (key : K) (v : V) :
    (t.ins p key v).height ≤ t.height + 1 := by
  induction t with
  | nil => simp [Tree.ins, Tree.height]
  | node l a k w r ihl ihr =>
    simp only [Tree.ins]
    split_ifs <;> simp only [Tree.height] <;> omega

/-- The loop of `insert`, started at the root `cur` of a subtree `s`: the new node `p` is
linked where the search for its key ends, or released when the key is present; cells
outside `s` other than `p` keep their contents. -/
theorem insertLoop_spec {pc : Bool} {m : Mem K V} {s : Tree K V} {p : Nat} {key : K} {v : V}
    {np : Option Nat} (hp : m.node p = some ⟨(key, v), none, none, np⟩) {fuel : Nat}
    (hfuel : 0 < fuel) :
    ∀ {par : Option Nat} {cur : Nat} {f : Nat}, Rep pc m.node par s → s.BST →
      s.rootPtr = some cur → p ∉ s.addrs → s.height ≤ f →
      ∃ m', (insertLoop fuel m p f cur : Res ε (Mem K V × Bool)) =
          Res.ok (m', decide (key ∉ s.keys)) ∧
        m'.tree = m.tree ∧ m'.next = m.next ∧
        (∀ x, x ∉ s.addrs → x ≠ p → m'.node x = m.node x) ∧
        Rep pc m'.node par (s.ins p key v) ∧
        (key ∈ s.keys → m'.node p = none) := by
  induction s with
  | nil => intro par cur f _ _ hroot; simp at hroot
  | node l a k w r ihl ihr =>
    intro par cur f hr hb hroot hfresh hf
    simp only [Tree.rootPtr_node, Option.some.injEq] at hroot
    subst hroot
    obtain ⟨⟨nd, h1, h2, h3, h4, h5⟩, hl, hrr⟩ := hr
    have hnodup := Rep.nodup_addrs (show Rep pc m.node par (Tree.node l a k w r) from
      ⟨⟨nd, h1, h2, h3, h4, h5⟩, hl, hrr⟩) hb
    obtain ⟨bl, br, bstl, bstr⟩ := hb
    simp only [Tree.addrs, List.mem_append, List.mem_cons, not_or] at hfresh
    obtain ⟨hpl, hpa, hpr⟩ := hfresh
    simp only [Tree.addrs, List.nodup_append, List.nodup_cons] at hnodup
    obtain ⟨_, ⟨hal, _⟩, hdisj⟩ := hnodup
    have har : a ∉ l.addrs := fun h => hdisj h (List.mem_cons_self _ _)
    simp only [Tree.height] at hf
    obtain ⟨f, rfl⟩ : ∃ g, f = g + 1 := ⟨f - 1, by omega⟩
    have hfl : l.height ≤ f := by have := le_max_left l.height r.height; omega
    have hfr : r.height ≤ f := by have := le_max_right l.height r.height; omega
    simp only [insertLoop, Mem.getNode_eq hp, Mem.getNode_eq h1, Res.ok_bind, h2]
    by_cases c1 : key > k
    · simp only [c1, if_true, Tree.ins, Tree.keys]
      have hkl : key ∉ l.keys := fun h => absurd (bl _ h) (not_lt_of_gt c1)
      have hkk : key ≠ k := ne_of_gt c1
      have hdec : decide (key ∉ l.keys ++ k :: r.keys) = decide (key ∉ r.keys) := by
        simp [hkl, hkk]
      rw [hdec]
      cases r with
      | nil =>
        simp only [Tree.rootPtr_nil] at h4
        have hm1 : (m.setNode a { nd with right := some p }).node p =
            some ⟨(key, v), none, none, np⟩ := by simp [hpa, hp]
        simp only [h4, Mem.setRight_eq h1, Res.ok_bind, Mem.setParent_eq hm1, Tree.keys,
          List.not_mem_nil, not_false_eq_true, decide_True, Res.pure_eq]
        refine ⟨_, rfl, rfl, rfl, ?_, ?_, ?_⟩
        · intro x hx hxp
          simp only [Tree.addrs, List.append_nil, List.mem_append, List.mem_cons,
            List.not_mem_nil, or_false, not_or] at hx
          simp [hxp, hx.2]
        · refine ⟨⟨{ nd with right := some p }, by simp [Ne.symm hpa], h2, h3, rfl, h5⟩, ?_, ?_⟩
          · refine Rep.congr ?_ hl
            intro x hx
            have : x ≠ p := fun e => hpl (e ▸ hx)
            have : x ≠ a := fun e => har (e ▸ hx)
            simp [*]
          · exact ⟨⟨⟨(key, v), none, none, some a⟩, by simp, rfl, rfl, rfl, fun _ => rfl⟩,
              trivial, trivial⟩
        · intro h; simp [hkl, hkk] at h
      | node rl ra rk rw rr =>
        simp only [Tree.rootPtr_node] at h4
        simp only [h4]
        obtain ⟨m', e1, e2, e3, e4, e5, e6⟩ :=
          @ihr (some a) ra f hrr bstr rfl hpr hfr
        refine ⟨m', e1, e2, e3, ?_, ?_, ?_⟩
        rotate_left 2
        · intro h
          simp only [List.mem_append, List.mem_cons, hkl, hkk, false_or] at h
          exact e6 h
        · intro x hx hxp
          simp only [Tree.addrs, List.mem_append, List.mem_cons, not_or] at hx
          exact e4 x (by simpa [Tree.addrs] using hx.2.2) hxp
        · refine ⟨⟨nd, ?_, h2, h3, ?_, h5⟩, ?_, e5⟩
          · rw [e4 a (by simpa [Tree.addrs] using ‹a ∉ (Tree.node rl ra rk rw rr).addrs›)
              (Ne.symm hpa)]
            exact h1
          · rw [h4, Tree.ins_rootPtr]
          · refine Rep.congr ?_ hl
            intro x hx
            exact e4 x (fun h => hdisj hx (List.mem_cons_of_mem _ h)) (fun e => hpl (e ▸ hx))
    · by_cases c2 : key < k
      · simp only [c1, c2, if_true, if_false, Tree.ins, Tree.keys]
        have hkr : key ∉ r.keys := fun h => absurd (br _ h) (not_lt_of_gt c2)
        have hkk : key ≠ k := ne_of_lt c2
        have hdec : decide (key ∉ l.keys ++ k :: r.keys) = decide (key ∉ l.keys) := by
          simp [hkr, hkk]
        rw [hdec]
        cases l with
        | nil =>
          simp only [Tree.rootPtr_nil] at h3
          have hm1 : (m.setNode a { nd with left := some p }).node p =
              some ⟨(key, v), none, none, np⟩ := by simp [hpa, hp]
          simp only [h3, Mem.setLeft_eq h1, Res.ok_bind, Mem.setParent_eq hm1, Tree.keys,
            List.not_mem_nil, not_false_eq_true, decide_True, Res.pure_eq]
          refine ⟨_, rfl, rfl, rfl, ?_, ?_, ?_⟩
          · intro x hx hxp
            simp only [Tree.addrs, List.nil_append, List.mem_cons, not_or] at hx
            simp [hxp, hx.1]
          · refine ⟨⟨{ nd with left := some p }, by simp [Ne.symm hpa], h2, rfl, h4, h5⟩, ?_, ?_⟩
            · exact ⟨⟨⟨(key, v), none, none, some a⟩, by simp, rfl, rfl, rfl, fun _ => rfl⟩,
                trivial, trivial⟩
            · refine Rep.congr ?_ hrr
              intro x hx
              have : x ≠ p := fun e => hpr (e ▸ hx)
              have : x ≠ a := fun e => hal (e ▸ hx)
              simp [*]
          · intro h; simp [hkr, hkk] at h
        | node ll la lk lw lr =>
          simp only [Tree.rootPtr_node] at h3
          simp only [h3]
          obtain ⟨m', e1, e2, e3, e4, e5, e6⟩ :=
            @ihl (some a) la f hl bstl rfl hpl hfl
          refine ⟨m', e1, e2, e3, ?_, ?_, ?_⟩
          rotate_left 2
          · intro h
            simp only [List.mem_append, List.mem_cons, hkr, hkk, false_or, or_false] at h
            exact e6 h
          · intro x hx hxp
            simp only [Tree.addrs, List.mem_append, List.mem_cons, not_or] at hx
            exact e4 x (by simpa [Tree.addrs] using hx.1) hxp
          · refine ⟨⟨nd, ?_, h2, ?_, h4, h5⟩, e5, ?_⟩
            · rw [e4 a har (Ne.symm hpa)]
              exact h1
            · rw [h3, Tree.ins_rootPtr]
            · refine Rep.congr ?_ hrr
              intro x hx
              exact e4 x (fun h => hdisj h (List.mem_cons_of_mem _ hx)) (fun e => hpr (e ▸ hx))
      · have hk : key = k := le_antisymm (not_lt.1 c1) (not_lt.1 c2)
        subst hk
        simp only [c1, if_false, Tree.ins, Tree.keys, Mem.delete_leaf hp rfl rfl fuel hfuel,
          Res.ok_bind, Res.pure_eq]
        refine ⟨m.freeNode p, ?_, rfl, rfl, ?_, ?_, ?_⟩
        · simp
        · intro x _ hxp; simp [hxp]
        · refine Rep.congr ?_ (show Rep pc m.node par (Tree.node l a key w r) from
            ⟨⟨nd, h1, h2, h3, h4, h5⟩, hl, hrr⟩)
          intro x hx
          have : x ≠ p := by
            rintro rfl
            simp only [Tree.addrs, List.mem_append, List.mem_cons] at hx
            rcases hx with hx | hx | hx
            · exact hpl hx
            · exact hpa hx
            · exact hpr hx
          simp [this]
        · intro _; simp

end Insertion

theorem Rep.mem_addrs_live {pc : Bool} {h : Nat → Option (Node K V)} {par : Option Nat}
    {t : Tree K V} (hr : Rep pc h par t) {a : Nat} (ha : a ∈ t.addrs) : h a ≠ none := by
  obtain ⟨k, v, hm⟩ := Tree.mem_addrs_iff.1 ha
  obtain ⟨nd, e, _⟩ := hr.cell_of_mem hm
  simp [e]

section InsertionTop
variable [LinearOrder K]

/-- The function `insert` on a map that owns the tree `t`, given a node `p` with null
links that is not part of the tree. -/
theorem insert_spec {pc : Bool} {m : Mem K V} {this : Nat} {t : Tree K V} {tm : TreeMap}
    (htm : m.tree this = some tm) (hroot : tm.root = t.rootPtr) (hr : Rep pc m.node none t)
    (hb : t.BST) {p : Nat} {key : K} {v : V}
    (hp : m.node p = some ⟨(key, v), none, none, none⟩) (hfresh : p ∉ t.addrs)
    {fuel : Nat} (hf : t.height < fuel) :
    ∃ m', (insert m this p fuel : Res ε (Mem K V)) = Res.ok m' ∧
      m'.tree this = some ⟨(t.ins p key v).rootPtr,
        if key ∈ t.keys then tm.count else tm.count + 1⟩ ∧
      (∀ j, j ≠ this → m'.tree j = m.tree j) ∧ m'.next = m.next ∧
      (∀ x, x ∉ t.addrs → x ≠ p → m'.node x = m.node x) ∧
      Rep pc m'.node none (t.ins p key v) ∧
      (key ∈ t.keys → m'.node p = none) := by
  cases t with
  | nil =>
    simp only [Tree.rootPtr_nil] at hroot
    have h2 : (m.setTree this { tm with root := some p }).tree this =
        some { tm with root := some p } := by simp
    simp only [insert, Mem.getTree_eq htm, Res.ok_bind, hroot, Mem.setRoot_eq htm,
      Mem.incrCount_eq h2]
    refine ⟨_, rfl, ?_, ?_, rfl, ?_, ?_, ?_⟩
    · simp [Tree.ins, Tree.keys]
    · intro j hj; simp [hj]
    · intro x _ _; simp
    · exact ⟨⟨_, by simpa using hp, rfl, rfl, rfl, fun _ => rfl⟩, trivial, trivial⟩
    · intro h; simp [Tree.keys] at h
  | node l a k w r =>
    simp only [Tree.rootPtr_node] at hroot
    obtain ⟨m', e1, e2, e3, e4, e5, e6⟩ := insertLoop_spec (ε := ε) hp (Nat.zero_lt_of_lt hf)
      (f := fuel) hr hb (Tree.rootPtr_node l a k w r) hfresh (Nat.le_of_lt hf)
    have h2 : m'.tree this = some tm := by rw [e2]; exact htm
    simp only [insert, Mem.getTree_eq htm, Res.ok_bind, hroot, e1]
    by_cases hk : key ∈ (Tree.node l a k w r).keys
    · simp only [hk, not_true_eq_false, decide_False, Bool.false_eq_true, if_false, if_true,
        Res.pure_eq]
      refine ⟨m', rfl, ?_, ?_, e3, e4, e5, fun _ => e6 hk⟩
      · rw [h2, Tree.ins_rootPtr, ← hroot]
      · intro j _; rw [e2]
    · simp only [hk, not_false_eq_true, decide_True, if_true, if_false, Mem.incrCount_eq h2]
      refine ⟨_, rfl, ?_, ?_, e3, ?_, ?_, ?_⟩
      · simp [Tree.ins_rootPtr, ← hroot]
      · intro j hj; simp [hj, e2]
      · intro x hx hxp; simpa using e4 x hx hxp
      · simpa using e5
      · intro h; exact absurd h (by simp)

/-- The expression `insert(new Node(key, v))` on a map that owns the tree `t`, when the
address handed out by `new` is not in use. -/
theorem insertNew_spec {pc : Bool} {m : Mem K V} {this : Nat} {t : Tree K V} {tm : TreeMap}
    (htm : m.tree this = some tm) (hroot : tm.root = t.rootPtr) (hr : Rep pc m.node none t)
    (hb : t.BST) (hfresh : m.node m.next = none) (key : K) (v : V)
    {fuel : Nat} (hf : t.height < fuel) :
    ∃ m', (insertNew m this key v fuel : Res ε (Mem K V)) = Res.ok m' ∧
      m'.tree this = some ⟨(t.ins m.next key v).rootPtr,
        if key ∈ t.keys then tm.count else tm.count + 1⟩ ∧
      (∀ j, j ≠ this → m'.tree j = m.tree j) ∧ m'.next = m.next + 1 ∧
      (∀ x, x ∉ t.addrs → x ≠ m.next → m'.node x = m.node x) ∧
      Rep pc m'.node none (t.ins m.next key v) ∧
      (key ∈ t.keys → m'.node m.next = none) := by
  have hp : m.next ∉ t.addrs := fun h => hr.mem_addrs_live h hfresh
  have hr0 : Rep pc (m.newNode key v).1.node none t := by
    refine Rep.congr ?_ hr
    intro x hx
    have : x ≠ m.next := fun e => hp (e ▸ hx)
    simp [Mem.newNode, this]
  obtain ⟨m', e1, e2, e3, e4, e5, e6, e7⟩ := insert_spec (ε := ε) (m := (m.newNode key v).1)
    (p := m.next) (v := v) htm hroot hr0 hb
    (show (m.newNode key v).1.node m.next = some ⟨(key, v), none, none, none⟩ by
      simp [Mem.newNode]) hp hf
  refine ⟨m', e1, e2, e3, e4, ?_, e6, e7⟩
  intro x hx hxp
  rw [e5 x hx hxp]
  simp [Mem.newNode, hxp]

end InsertionTop

/-! ## The relinking step `replace` -/

section Replace

set_option maxHeartbeats 1000000 in
/-- The function `replace(A, B)` when `B` is null or the only child of `A`: `B` takes the
slot of `A`, the parent link of `B` becomes that of `A`, and the links of `A` are
cleared. -/
theorem replace_splice {m : Mem K V} (this : Nat) {A : Nat} {an : Node K V} {B : Option Nat}
    (hA : m.node A = some an)
    (hL : an.left = none ∨ an.left = B) (hR : an.right = none ∨ an.right = B)
    (hB : ∀ b, B = some b → b ≠ A ∧ m.node b ≠ none)
    (hS : match an.parent with
      | none => m.tree this ≠ none
      | some p => p ≠ A ∧ B ≠ some p ∧ m.node p ≠ none) :
    ∃ m', (replace m this A B : Res ε (Mem K V)) = Res.ok m' ∧ m'.next = m.next ∧
      m'.node A = some ⟨an.data, none, none, none⟩ ∧
      (∀ b bn, B = some b → m.node b = some bn →
        m'.node b = some { bn with parent := an.parent }) ∧
      (∀ x, x ≠ A → B ≠ some x → an.parent ≠ some x → m'.node x = m.node x) ∧
      (an.parent = none → ∀ tm, m.tree this = some tm →
        m'.tree this = some { tm with root := B } ∧ ∀ j, j ≠ this → m'.tree j = m.tree j) ∧
      (∀ p pn, an.parent = some p → m.node p = some pn → m'.tree = m.tree ∧
        m'.node p = some (if some A = pn.left then { pn with left := B }
          else { pn with right := B })) := by
  obtain ⟨anData, anL, anR, anP⟩ := an
  simp only at hL hR hS ⊢
  cases anP with
  | none =>
    simp only at hS
    obtain ⟨tm, htm⟩ := Option.ne_none_iff_exists'.1 hS
    cases B with
    | none =>
      have hL1 : anL = none := by rcases hL with h | h <;> exact h
      have hR1 : anR = none := by rcases hR with h | h <;> exact h
      subst hL1 hR1
      simp [replace, Mem.getNode, Mem.setParent, Mem.setLeft, Mem.setRight, hA,
          Mem.setRoot_eq htm]
      exact ⟨fun x hx => by simp [hx], fun tm1 h1 => by simp_all⟩
    | some b =>
      obtain ⟨hbA, hb⟩ := hB b rfl
      obtain ⟨bn, hbn⟩ := Option.ne_none_iff_exists'.1 hb
      have hAb : A ≠ b := Ne.symm hbA
      rcases hL with rfl | rfl <;> rcases hR with rfl | rfl <;>
      simp [replace, Mem.getNode, Mem.setParent, Mem.setLeft, Mem.setRight, hA,
          Mem.setRoot_eq htm, hbn, hAb, hbA] <;>
      exact ⟨fun b1 bn1 h1 h2 => by subst h1; simp_all,
        fun x hx hxb => by simp [hx, Ne.symm hxb], fun tm1 h1 => by simp_all⟩
  | some p =>
    simp only at hS
    obtain ⟨hpA, hpB, hp⟩ := hS
    obtain ⟨pn, hpn⟩ := Option.ne_none_iff_exists'.1 hp
    have hAp : A ≠ p := Ne.symm hpA
    cases B with
    | none =>
      have hL1 : anL = none := by rcases hL with h | h <;> exact h
      have hR1 : anR = none := by rcases hR with h | h <;> exact h
      subst hL1 hR1
      by_cases hsl : some A = pn.left <;>
      simp [replace, Mem.getNode, Mem.setParent, Mem.setLeft, Mem.setRight, hA,
          hpn, hsl, hAp, hpA] <;>
      exact ⟨fun x hx hxp => by simp [hx, Ne.symm hxp],
        fun p1 pn1 h1 h2 => by subst h1; simp_all⟩
    | some b =>
      obtain ⟨hbA, hb⟩ := hB b rfl
      obtain ⟨bn, hbn⟩ := Option.ne_none_iff_exists'.1 hb
      have hAb : A ≠ b := Ne.symm hbA
      have hbp : b ≠ p := fun e => hpB (by rw [e])
      have hpb : p ≠ b := Ne.symm hbp
      by_cases hsl : some A = pn.left <;>
      rcases hL with rfl | rfl <;> rcases hR with rfl | rfl <;>
      simp [replace, Mem.getNode, Mem.setParent, Mem.setLeft, Mem.setRight, hA,
          hpn, hsl, hAp, hpA, hbn, hAb, hbA, hbp, hpb] <;>
      exact ⟨fun b1 bn1 h1 h2 => by subst h1; simp_all,
        fun x hx hxb hxp => by simp [hx, Ne.symm hxp, Ne.symm hxb],
        fun p1 pn1 h1 h2 => by subst h1; simp_all⟩

set_option maxHeartbeats 1000000 in
/-- The function `replace(A, B)` when `B` is a detached node and `A` has a left child:
`B` takes the slot, the parent link and the children of `A`, the children get `B` as
their parent, and the links of `A` are cleared. -/
theorem replace_subst {m : Mem K V} (this : Nat) {A b cl : Nat} {an bn : Node K V}
    (hA : m.node A = some an) (hb : m.node b = some bn) (hbA : b ≠ A)
    (hbl : bn.left = none) (hbr : bn.right = none)
    (hl : an.left = some cl) (hcl : cl ≠ A ∧ cl ≠ b ∧ m.node cl ≠ none)
    (hR : ∀ c, an.right = some c → c ≠ A ∧ c ≠ b ∧ c ≠ cl ∧ m.node c ≠ none)
    (hS : match an.parent with
      | none => m.tree this ≠ none
      | some p => p ≠ A ∧ p ≠ b ∧ p ≠ cl ∧ an.right ≠ some p ∧ m.node p ≠ none) :
    ∃ m', (replace m this A (some b) : Res ε (Mem K V)) = Res.ok m' ∧ m'.next = m.next ∧
      m'.node A = some ⟨an.data, none, none, none⟩ ∧
      m'.node b = some ⟨bn.data, an.left, an.right, an.parent⟩ ∧
      (∀ c cn, (an.left = some c ∨ an.right = some c) → m.node c = some cn →
        m'.node c = some { cn with parent := some b }) ∧
      (∀ x, x ≠ A → x ≠ b → an.left ≠ some x → an.right ≠ some x → an.parent ≠ some x →
        m'.node x = m.node x) ∧
      (an.parent = none → ∀ tm, m.tree this = some tm →
        m'.tree this = some { tm with root := some b } ∧
        ∀ j, j ≠ this → m'.tree j = m.tree j) ∧
      (∀ p pn, an.parent = some p → m.node p = some pn → m'.tree = m.tree ∧
        m'.node p = some (if some A = pn.left then { pn with left := some b }
          else { pn with right := some b })) := by
  obtain ⟨anData, anL, anR, anP⟩ := an
  obtain ⟨bnData, bnL, bnR, bnP⟩ := bn
  simp only at hbl hbr hl hR hS ⊢
  subst hbl hbr hl
  obtain ⟨hclA, hclb, hcln⟩ := hcl
  obtain ⟨cln, hcln⟩ := Option.ne_none_iff_exists'.1 hcln
  have hAb : A ≠ b := Ne.symm hbA
  have hAcl : A ≠ cl := Ne.symm hclA
  have hbcl : b ≠ cl := Ne.symm hclb
  cases anP with
  | none =>
    simp only at hS
    obtain ⟨tm, htm⟩ := Option.ne_none_iff_exists'.1 hS
    cases anR with
    | none =>
      simp [replace, Mem.getNode, Mem.setParent, Mem.setLeft, Mem.setRight, hA,
          Mem.setRoot_eq htm, hb, hAb, hbA, hcln, hclA, hclb, hAcl, hbcl]
      exact ⟨fun c cn h1 h2 => by subst h1; simp_all,
        fun x h1 h2 h3 => by simp [h1, h2, Ne.symm h3], fun tm1 h1 => by simp_all⟩
    | some cr =>
      obtain ⟨hcrA, hcrb, hcrcl, hcrn⟩ := hR cr rfl
      obtain ⟨crn, hcrn⟩ := Option.ne_none_iff_exists'.1 hcrn
      have hAcr : A ≠ cr := Ne.symm hcrA
      have hbcr : b ≠ cr := Ne.symm hcrb
      have hclcr : cl ≠ cr := Ne.symm hcrcl
      simp [replace, Mem.getNode, Mem.setParent, Mem.setLeft, Mem.setRight, hA,
          Mem.setRoot_eq htm, hb, hAb, hbA, hcln, hclA, hclb, hAcl, hbcl, hcrn, hcrA, hcrb,
          hcrcl, hAcr, hbcr, hclcr]
      exact ⟨fun c cn h1 h2 => by rcases h1 with h1 | h1 <;> subst h1 <;> simp_all,
        fun x h1 h2 h3 h4 => by simp [h1, h2, Ne.symm h3, Ne.symm h4],
        fun tm1 h1 => by simp_all⟩
  | some p =>
    simp only at hS
    obtain ⟨hpA, hpb, hpcl, hpR, hp⟩ := hS
    obtain ⟨pn, hpn⟩ := Option.ne_none_iff_exists'.1 hp
    have hAp : A ≠ p := Ne.symm hpA
    have hbp : b ≠ p := Ne.symm hpb
    have hclp : cl ≠ p := Ne.symm hpcl
    cases anR with
    | none =>
      by_cases hsl : some A = pn.left <;>
      simp [replace, Mem.getNode, Mem.setParent, Mem.setLeft, Mem.setRight, hA,
          hb, hAb, hbA, hcln, hclA, hclb, hAcl, hbcl, hpn, hsl, hpA, hpb, hpcl, hAp, hbp,
          hclp] <;>
      exact ⟨fun c cn h1 h2 => by subst h1; simp_all,
        fun x h1 h2 h3 h4 => by simp [h1, h2, Ne.symm h3, Ne.symm h4],
        fun p1 pn1 h1 h2 => by subst h1; simp_all⟩
    | some cr =>
      obtain ⟨hcrA, hcrb, hcrcl, hcrn⟩ := hR cr rfl
      obtain ⟨crn, hcrn⟩ := Option.ne_none_iff_exists'.1 hcrn
      have hAcr : A ≠ cr := Ne.symm hcrA
      have hbcr : b ≠ cr := Ne.symm hcrb
      have hclcr : cl ≠ cr := Ne.symm hcrcl
      have hcrp : cr ≠ p := fun e => hpR (by rw [e])
      have hpcr : p ≠ cr := Ne.symm hcrp
      by_cases hsl : some A = pn.left <;>
      simp [replace, Mem.getNode, Mem.setParent, Mem.setLeft, Mem.setRight, hA,
          hb, hAb, hbA, hcln, hclA, hclb, hAcl, hbcl, hpn, hsl, hpA, hpb, hpcl, hAp, hbp,
          hclp, hcrn, hcrA, hcrb, hcrcl, hAcr, hbcr, hclcr, hcrp, hpcr] <;>
      exact ⟨fun c cn h1 h2 => by rcases h1 with h1 | h1 <;> subst h1 <;> simp_all,
        fun x h1 h2 h3 h4 h5 => by simp [h1, h2, Ne.symm h3, Ne.symm h4, Ne.symm h5],
        fun p1 pn1 h1 h2 => by subst h1; simp_all⟩

end Replace

/-! ## Tree contexts -/

section Contexts

theorem plug_append (c d : List (Frame K V)) (t : Tree K V) :
    plug (c ++ d) t = plug d (plug c t) := by
  induction c generalizing t with
  | nil => rfl
  | cons f c ih => simp [plug, ih]

/-- The in-order node sequence of a plugged context: the nodes of the subtree between the
nodes before and after it. -/
theorem plug_nodes (c : List (Frame K V)) :
    ∃ L R, ∀ X : Tree K V, (plug c X).nodes = L ++ X.nodes ++ R := by
  induction c with
  | nil => exact ⟨[], [], fun X => by simp [plug]⟩
  | cons f c ih =>
    obtain ⟨L, R, h⟩ := ih
    cases f with
    | left a k v r =>
      exact ⟨L, (a, k, v) :: r.nodes ++ R, fun X => by simp [plug, h, Frame.fill, Tree.nodes]⟩
    | right l a k v =>
      exact ⟨L ++ l.nodes ++ [(a, k, v)], R,
        fun X => by simp [plug, h, Frame.fill, Tree.nodes]⟩

theorem plug_addrs (c : List (Frame K V)) :
    ∃ L R, ∀ X : Tree K V, (plug c X).addrs = L ++ X.addrs ++ R := by
  obtain ⟨L, R, h⟩ := plug_nodes c
  exact ⟨L.map Prod.fst, R.map Prod.fst, fun X => by simp [Tree.addrs_eq_map, h]⟩

theorem plug_keys (c : List (Frame K V)) :
    ∃ L R, ∀ X : Tree K V, (plug c X).keys = L ++ X.keys ++ R := by
  obtain ⟨L, R, h⟩ := plug_nodes c
  refine ⟨L.map (Prod.fst ∘ Prod.snd), R.map (Prod.fst ∘ Prod.snd), fun X => ?_⟩
  simp [Tree.keys_eq_map, Tree.toList_eq_map, h]

theorem plug_nodup_sub {c : List (Frame K V)} {X : Tree K V} (h : (plug c X).addrs.Nodup) :
    X.addrs.Nodup := by
  obtain ⟨L, R, e⟩ := plug_addrs c
  rw [e X] at h
  exact (List.nodup_append.1 (List.nodup_append.1 h).1).2.1

theorem plug_sub_addrs (c : List (Frame K V)) (X : Tree K V) {x : Nat} (hx : x ∈ X.addrs) :
    x ∈ (plug c X).addrs := by
  obtain ⟨L, R, e⟩ := plug_addrs c
  rw [e X]
  simp [hx]

/-- Putting a subtree with fewer addresses into a context keeps the addresses distinct. -/
theorem plug_nodup_of_sub {c : List (Frame K V)} {X Y : Tree K V}
    (h : (plug c X).addrs.Nodup) (hY : Y.addrs.Nodup) (hsub : ∀ x ∈ Y.addrs, x ∈ X.addrs) :
    (plug c Y).addrs.Nodup := by
  obtain ⟨L, R, e⟩ := plug_addrs c
  rw [e X] at h
  rw [e Y]
  simp only [List.nodup_append, List.disjoint_append_left, List.disjoint_append_right] at h ⊢
  obtain ⟨⟨hL, hX, hLX⟩, hR, hLR, hXR⟩ := h
  exact ⟨⟨hL, hY, fun x hx hy => hLX hx (hsub x hy)⟩, hR, hLR,
    fun x hx hr => hXR (hsub x hx) hr⟩

/-- Every node of a tree is the root of a subtree in some context. -/
theorem exists_plug {t : Tree K V} {a : Nat} (ha : a ∈ t.addrs) :
    ∃ c l k v r, t = plug c (Tree.node l a k v r) := by
  induction t with
  | nil => simp [Tree.addrs] at ha
  | node l q k v r ihl ihr =>
    simp only [Tree.addrs, List.mem_append, List.mem_cons] at ha
    rcases ha with ha | rfl | ha
    · obtain ⟨c, l1, k1, v1, r1, e⟩ := ihl ha
      exact ⟨c ++ [Frame.left q k v r], l1, k1, v1, r1, by
        rw [plug_append, ← e]; rfl⟩
    · exact ⟨[], l, k, v, r, rfl⟩
    · obtain ⟨c, l1, k1, v1, r1, e⟩ := ihr ha
      exact ⟨c ++ [Frame.right l q k v], l1, k1, v1, r1, by
        rw [plug_append, ← e]; rfl⟩

/-- A subtree in a context is laid out in memory below the parent given by the context. -/
theorem Rep.of_plug {pc : Bool} {h : Nat → Option (Node K V)} {par : Option Nat}
    {c : List (Frame K V)} {S : Tree K V} (hr : Rep pc h par (plug c S)) :
    Rep pc h (ctxParent par c) S := by
  induction c generalizing S with
  | nil => exact hr
  | cons f c ih =>
    have := ih (S := f.fill S) hr
    cases f with
    | left a k v r => exact this.2.1
    | right l a k v => exact this.2.2

theorem Frame.fill_rootPtr (f : Frame K V) (X : Tree K V) : (f.fill X).rootPtr = some f.addr := by
  cases f <;> rfl

/-- Replacing a subtree by one with the same root pointer, in a memory that differs only
inside the subtree, keeps the surrounding tree laid out. -/
theorem Rep.plug_congr {pc : Bool} {h h' : Nat → Option (Node K V)} {par : Option Nat}
    {c : List (Frame K V)} {T U : Tree K V} (hr : Rep pc h par (plug c T))
    (hnd : (plug c T).addrs.Nodup) (hframe : ∀ x, x ∉ T.addrs → h' x = h x)
    (hr' : Rep pc h' (ctxParent par c) U) (hroot : U.rootPtr = T.rootPtr) :
    Rep pc h' par (plug c U) := by
  induction c generalizing T U with
  | nil => exact hr'
  | cons f c ih =>
    have hfill := Rep.of_plug (c := c) (S := f.fill T) hr
    have hnd1 : (f.fill T).addrs.Nodup := plug_nodup_sub (c := c) hnd
    refine ih (T := f.fill T) (U := f.fill U) hr hnd ?_ ?_ ?_
    · intro x hx
      refine hframe x (fun hxT => hx ?_)
      cases f <;> simp [Frame.fill, Tree.addrs, hxT]
    · cases f with
      | left a k v r =>
        obtain ⟨⟨nd, h1, h2, h3, h4, h5⟩, _, hrr⟩ := hfill
        simp only [Frame.fill, Tree.addrs, List.nodup_append, List.nodup_cons] at hnd1
        obtain ⟨_, ⟨har, _⟩, hdisj⟩ := hnd1
        have haT : a ∉ T.addrs := fun hh => hdisj hh (List.mem_cons_self _ _)
        refine ⟨⟨nd, by rw [hframe a haT]; exact h1, h2, by rw [hroot]; exact h3, h4, h5⟩,
          hr', Rep.congr (fun x hx => hframe x (fun hh => hdisj hh (List.mem_cons_of_mem _ hx)))
            hrr⟩
      | right l a k v =>
        obtain ⟨⟨nd, h1, h2, h3, h4, h5⟩, hl, _⟩ := hfill
        simp only [Frame.fill, Tree.addrs, List.nodup_append, List.nodup_cons] at hnd1
        obtain ⟨_, ⟨haT, _⟩, hdisj⟩ := hnd1
        refine ⟨⟨nd, by rw [hframe a haT]; exact h1, h2, h3, by rw [hroot]; exact h4, h5⟩,
          Rep.congr (fun x hx => hframe x (fun hh => hdisj hx (List.mem_cons_of_mem _ hh))) hl,
          hr'⟩
    · rw [Frame.fill_rootPtr, Frame.fill_rootPtr]

/-- Moving a laid-out subtree below another parent only concerns the parent link of its
root cell. -/
theorem Rep.reparent {pc : Bool} {h h' : Nat → Option (Node K V)} {par par' : Option Nat}
    {t : Tree K V} (hr : Rep pc h par t) (hnd : t.addrs.Nodup)
    (hroot : ∀ b nd, t.rootPtr = some b → h b = some nd →
      h' b = some { nd with parent := par' })
    (hframe : ∀ x, x ∈ t.addrs → t.rootPtr ≠ some x → h' x = h x) : Rep pc h' par' t := by
  cases t with
  | nil => trivial
  | node l b k v r =>
    obtain ⟨⟨nd, h1, h2, h3, h4, h5⟩, hl, hrr⟩ := hr
    simp only [Tree.addrs, List.nodup_append, List.nodup_cons] at hnd
    obtain ⟨_, ⟨hbr, _⟩, hdisj⟩ := hnd
    have hbl : b ∉ l.addrs := fun hh => hdisj hh (List.mem_cons_self _ _)
    refine ⟨⟨_, hroot b nd rfl h1, h2, h3, h4, fun _ => rfl⟩, ?_, ?_⟩
    · refine Rep.congr (fun x hx => hframe x (by simp [Tree.addrs, hx]) ?_) hl
      simp only [Tree.rootPtr_node, ne_eq, Option.some.injEq]
      rintro rfl; exact hbl hx
    · refine Rep.congr (fun x hx => hframe x (by simp [Tree.addrs, hx]) ?_) hrr
      simp only [Tree.rootPtr_node, ne_eq, Option.some.injEq]
      rintro rfl; exact hbr hx

end Contexts

/-! ## Removal: relinking at a node -/

section Relink

/-- Splicing out a node with at most one child `C`: `replace(a, root of C)` puts `C` in
the place of the subtree rooted at `a` and clears the links of `a`. -/
theorem splice_focus {m : Mem K V} (this : Nat) {l r C : Tree K V} {a : Nat} {k : K} {v : V}
    {par : Option Nat} (hr : Rep true m.node par (Tree.node l a k v r))
    (hnd : (Tree.node l a k v r).addrs.Nodup)
    (hL : l = Tree.nil ∨ l = C) (hR : r = Tree.nil ∨ r = C) (hC : C = l ∨ C = r)
    (hS0 : par = none → m.tree this ≠ none)
    (hS1 : ∀ p, par = some p → p ∉ (Tree.node l a k v r).addrs ∧ m.node p ≠ none) :
    ∃ m', (replace m this a C.rootPtr : Res ε (Mem K V)) = Res.ok m' ∧ m'.next = m.next ∧
      m'.node a = some ⟨(k, v), none, none, none⟩ ∧
      Rep true m'.node par C ∧
      (∀ x, x ∉ (Tree.node l a k v r).addrs → par ≠ some x → m'.node x = m.node x) ∧
      (par = none → ∀ tm, m.tree this = some tm →
        m'.tree this = some { tm with root := C.rootPtr } ∧
        ∀ j, j ≠ this → m'.tree j = m.tree j) ∧
      (∀ p pn, par = some p → m.node p = some pn → m'.tree = m.tree ∧
        m'.node p = some (if some a = pn.left then { pn with left := C.rootPtr }
          else { pn with right := C.rootPtr })) := by
  obtain ⟨⟨an, h1, h2, h3, h4, h5⟩, hl, hrr⟩ := hr
  have h5 := h5 rfl
  have hnd0 := hnd
  simp only [Tree.addrs, List.nodup_append, List.nodup_cons] at hnd
  obtain ⟨hndl, ⟨har, hndr⟩, hdisj⟩ := hnd
  have hal : a ∉ l.addrs := fun hh => hdisj hh (List.mem_cons_self _ _)
  have hCsub : ∀ x ∈ C.addrs, x ∈ (Tree.node l a k v r).addrs ∧ x ≠ a := by
    intro x hx
    rcases hC with rfl | rfl
    · exact ⟨by simp [Tree.addrs, hx], fun e => hal (e ▸ hx)⟩
    · exact ⟨by simp [Tree.addrs, hx], fun e => har (e ▸ hx)⟩
  have hCrep : Rep true m.node (some a) C := by
    rcases hC with rfl | rfl
    · exact hl
    · exact hrr
  have hCnd : C.addrs.Nodup := by
    rcases hC with rfl | rfl
    · exact hndl
    · exact hndr
  obtain ⟨m', e1, e2, e3, e4, e5, e6, e7⟩ := replace_splice (ε := ε) this
    (B := C.rootPtr) h1
    (by rcases hL with h | h
        · left; rw [h3, h]; rfl
        · right; rw [h3, h])
    (by rcases hR with h | h
        · left; rw [h4, h]; rfl
        · right; rw [h4, h])
    (by intro b hb
        have hb' := Tree.rootPtr_mem_addrs hb
        exact ⟨(hCsub b hb').2, hCrep.mem_addrs_live hb'⟩)
    (by rw [h5]
        cases par with
        | none => exact hS0 rfl
        | some p =>
          have hS := hS1 p rfl
          refine ⟨fun e => hS.1 (by simp [Tree.addrs, e]), fun e => ?_, hS.2⟩
          exact hS.1 (hCsub p (Tree.rootPtr_mem_addrs e)).1)
  refine ⟨m', e1, e2, by rw [e3, h2], ?_, ?_, ?_, ?_⟩
  · refine Rep.reparent hCrep hCnd ?_ ?_
    · intro b bn hb hbn
      rw [e4 b bn hb hbn, h5]
    · intro x hx hxr
      refine e5 x (hCsub x hx).2 (fun e => hxr e) ?_
      rw [h5]
      cases par with
      | none => simp
      | some p =>
        simp only [ne_eq, Option.some.injEq]
        rintro rfl
        exact (hS1 p rfl).1 (hCsub p hx).1
  · intro x hx hxp
    refine e5 x (fun e => hx (by simp [Tree.addrs, e])) ?_ (by rw [h5]; exact hxp)
    intro e
    exact hx (hCsub x (Tree.rootPtr_mem_addrs e)).1
  · intro hpar; exact e6 (by rw [h5, hpar])
  · intro p pn hpar hpn; exact e7 p pn (by rw [h5, hpar]) hpn

/-- A local change below the innermost frame of a context: when the subtree `S` is
replaced by `S'`, the slot of the frame's node is redirected and nothing else changes
outside `S`, the surrounding tree is laid out with `S'` in place of `S`. -/
theorem Rep.plug_update {h h' : Nat → Option (Node K V)} {par : Option Nat}
    {f : Frame K V} {c : List (Frame K V)} {S S' : Tree K V} {a : Nat}
    (hr : Rep true h par (plug (f :: c) S)) (hnd : (plug (f :: c) S).addrs.Nodup)
    (hS : S.rootPtr = some a)
    (hr' : Rep true h' (some f.addr) S')
    (hframe : ∀ x, x ∉ S.addrs → x ≠ f.addr → h' x = h x)
    (hslot : ∀ pn, h f.addr = some pn →
      h' f.addr = some (if some a = pn.left then { pn with left := S'.rootPtr }
        else { pn with right := S'.rootPtr })) :
    Rep true h' par (plug (f :: c) S') := by
  have hfill := Rep.of_plug (c := c) (S := f.fill S) hr
  have hnd1 : (f.fill S).addrs.Nodup := plug_nodup_sub (c := c) hnd
  have haS : a ∈ S.addrs := Tree.rootPtr_mem_addrs hS
  refine Rep.plug_congr (c := c) (T := f.fill S) (U := f.fill S') hr hnd ?_ ?_ ?_
  · intro x hx
    refine hframe x (fun hh => hx ?_) (fun e => hx ?_)
    · cases f <;> simp [Frame.fill, Tree.addrs, hh]
    · cases f <;> simp [Frame.fill, Frame.addr, Tree.addrs, e]
  · cases f with
    | left q k v r =>
      obtain ⟨⟨nd, h1, h2, h3, h4, h5⟩, _, hrr⟩ := hfill
      simp only [Frame.fill, Tree.addrs, List.nodup_append, List.nodup_cons] at hnd1
      obtain ⟨_, ⟨hqr, _⟩, hdisj⟩ := hnd1
      have hsl : some a = nd.left := by rw [h3, hS]
      have hq : h' q = some { nd with left := S'.rootPtr } := by
        have := hslot nd h1
        rwa [if_pos hsl] at this
      refine ⟨⟨{ nd with left := S'.rootPtr }, hq, h2, rfl, h4, h5⟩, hr', ?_⟩
      refine Rep.congr (fun x hx => hframe x
        (fun hh => hdisj hh (List.mem_cons_of_mem _ hx)) ?_) hrr
      rintro rfl; exact hqr hx
    | right l q k v =>
      obtain ⟨⟨nd, h1, h2, h3, h4, h5⟩, hl, _⟩ := hfill
      simp only [Frame.fill, Tree.addrs, List.nodup_append, List.nodup_cons] at hnd1
      obtain ⟨_, ⟨hqS, _⟩, hdisj⟩ := hnd1
      have hql : q ∉ l.addrs := fun hh => hdisj hh (List.mem_cons_self _ _)
      have hsl : ¬ some a = nd.left := by
        rw [h3]
        intro e
        exact hdisj (Tree.rootPtr_mem_addrs e.symm) (List.mem_cons_of_mem _ haS)
      have hq : h' q = some { nd with right := S'.rootPtr } := by
        have := hslot nd h1
        rwa [if_neg hsl] at this
      refine ⟨⟨{ nd with right := S'.rootPtr }, hq, h2, h3, rfl, h5⟩, ?_, hr'⟩
      refine Rep.congr (fun x hx => hframe x
        (fun hh => hdisj hx (List.mem_cons_of_mem _ hh)) ?_) hl
      rintro rfl; exact hql hx
  · rw [Frame.fill_rootPtr, Frame.fill_rootPtr]

/-- The leftmost node of a non-empty tree sits in a context; removing it puts its right
subtree into that context. -/
theorem Tree.min_ctx (r : Tree K V) (hne : r ≠ Tree.nil) :
    ∃ cr b kb vb rr, r = plug cr (Tree.node Tree.nil b kb vb rr) ∧ r.delMin = plug cr rr ∧
      r.min? = some (b, kb, vb) := by
  induction r with
  | nil => exact absurd rfl hne
  | node l c kc vc rr ihl _ =>
    cases l with
    | nil => exact ⟨[], c, kc, vc, rr, rfl, rfl, rfl⟩
    | node ll la lk lv lr =>
      obtain ⟨cr, b, kb, vb, rr1, e1, e2, e3⟩ := ihl (by simp)
      refine ⟨cr ++ [Frame.left c kc vc rr], b, kb, vb, rr1, ?_, ?_, ?_⟩
      · rw [plug_append, ← e1]; rfl
      · rw [plug_append, ← e2]; rfl
      · rw [Tree.min?, e3]

theorem Tree.min_nodes (r : Tree K V) (hne : r ≠ Tree.nil) :
    ∃ b kb vb, r.min? = some (b, kb, vb) ∧ r.nodes = (b, kb, vb) :: r.delMin.nodes := by
  induction r with
  | nil => exact absurd rfl hne
  | node l c kc vc rr ihl _ =>
    cases l with
    | nil => exact ⟨c, kc, vc, rfl, by simp [Tree.nodes, Tree.delMin]⟩
    | node ll la lk lv lr =>
      obtain ⟨b, kb, vb, e1, e2⟩ := ihl (by simp)
      refine ⟨b, kb, vb, by rw [Tree.min?, e1], ?_⟩
      rw [Tree.delMin, Tree.nodes, e2, Tree.nodes]
      simp

theorem Tree.delMin_height_le (r : Tree K V) : r.delMin.height ≤ r.height := by
  induction r with
  | nil => simp [Tree.delMin]
  | node l c kc vc rr ihl _ =>
    cases l with
    | nil => simp [Tree.delMin, Tree.height]
    | node ll la lk lv lr =>
      rw [Tree.delMin, Tree.height, Tree.height]
      omega

/-- The loop `while (node->left != nullptr) node = node->left` ends at the leftmost node. -/
theorem leftmost_eq {pc : Bool} {m : Mem K V} {par : Option Nat} {r : Tree K V} {c : Nat}
    (hr : Rep pc m.node par r) (hroot : r.rootPtr = some c) {f : Nat} (hf : r.height ≤ f + 1) :
    ∃ b kb vb, r.min? = some (b, kb, vb) ∧ (leftmost m f c : Res ε Nat) = Res.ok b := by
  induction r generalizing par c f with
  | nil => simp at hroot
  | node l q kq vq rr ihl _ =>
    simp only [Tree.rootPtr_node, Option.some.injEq] at hroot
    subst hroot
    obtain ⟨⟨nd, h1, h2, h3, h4, h5⟩, hl, _⟩ := hr
    cases l with
    | nil =>
      refine ⟨q, kq, vq, rfl, ?_⟩
      cases f <;> simp [leftmost, Mem.getNode_eq h1, h3]
    | node ll la lk lv lr =>
      simp only [Tree.height] at hf
      obtain ⟨g, rfl⟩ : ∃ g, f = g + 1 := ⟨f - 1, by
        have := Nat.le_max_left (max ll.height lr.height + 1) rr.height; omega⟩
      obtain ⟨b, kb, vb, e1, e2⟩ := ihl (c := la) (f := g) hl rfl (by
        simp only [Tree.height]
        have := Nat.le_max_left (max ll.height lr.height + 1) rr.height; omega)
      refine ⟨b, kb, vb, by rw [Tree.min?, e1], ?_⟩
      simp [leftmost, Mem.getNode_eq h1, h3, e2]

end Relink

section RelinkFocus

theorem Tree.delMin_addrs (r : Tree K V) (hne : r ≠ Tree.nil) :
    ∃ b kb vb, r.min? = some (b, kb, vb) ∧ r.addrs = b :: r.delMin.addrs := by
  obtain ⟨b, kb, vb, e1, e2⟩ := Tree.min_nodes r hne
  exact ⟨b, kb, vb, e1, by simp [Tree.addrs_eq_map, e2]⟩

/-- The relinking part of `remove(Node*)` at a node `a` with a left and a right subtree:
the leftmost node `b` of the right subtree is detached and takes the place of `a`. -/
theorem removeRelink_two {m : Mem K V} (this : Nat) {l r : Tree K V}
    {la ra a : Nat} {k : K} {v : V} {par : Option Nat}
    (hr : Rep true m.node par (Tree.node l a k v r))
    (hnd : (Tree.node l a k v r).addrs.Nodup)
    (hlroot : l.rootPtr = some la) (hrroot : r.rootPtr = some ra)
    (hS0 : par = none → m.tree this ≠ none)
    (hS1 : ∀ p, par = some p → p ∉ (Tree.node l a k v r).addrs ∧ m.node p ≠ none)
    {fuel : Nat} (hf : (Tree.node l a k v r).height ≤ fuel) :
    ∃ m' b kb vb, r.min? = some (b, kb, vb) ∧
      (removeRelink m this a fuel : Res ε (Mem K V × Option Nat)) = Res.ok (m', some b) ∧
      m'.next = m.next ∧
      m'.node a = some ⟨(k, v), none, none, none⟩ ∧
      Rep true m'.node par (Tree.node l b kb vb r.delMin) ∧
      (∀ x, x ∉ (Tree.node l a k v r).addrs → par ≠ some x → m'.node x = m.node x) ∧
      (par = none → ∀ tm, m.tree this = some tm →
        m'.tree this = some { tm with root := some b } ∧
        ∀ j, j ≠ this → m'.tree j = m.tree j) ∧
      (∀ p pn, par = some p → m.node p = some pn → m'.tree = m.tree ∧
        m'.node p = some (if some a = pn.left then { pn with left := some b }
          else { pn with right := some b })) := by
  have hrne : r ≠ Tree.nil := by
    intro e; rw [e] at hrroot; simp at hrroot
  obtain ⟨⟨an, h1, h2, h3, h4, h5⟩, hlrep, hrrep⟩ := hr
  have h5 := h5 rfl
  have hnd0 := hnd
  simp only [Tree.addrs, List.nodup_append, List.nodup_cons] at hnd
  obtain ⟨hndl, ⟨har, hndr⟩, hdisj⟩ := hnd
  have hal : a ∉ l.addrs := fun hh => hdisj hh (List.mem_cons_self _ _)
  have hlr : ∀ x, x ∈ l.addrs → x ∉ r.addrs :=
    fun x hx hx2 => hdisj hx (List.mem_cons_of_mem _ hx2)
  -- the leftmost node of the right subtree
  have hfr : r.height ≤ fuel + 1 := by
    simp only [Tree.height] at hf
    have := Nat.le_max_right l.height r.height; omega
  obtain ⟨b, kb, vb, hmin, hleft⟩ := leftmost_eq (ε := ε) hrrep hrroot hfr
  obtain ⟨cr, b1, kb1, vb1, rr0, er, edel, hmin1⟩ := Tree.min_ctx r hrne
  rw [hmin] at hmin1
  simp only [Option.some.injEq, Prod.mk.injEq] at hmin1
  obtain ⟨rfl, rfl, rfl⟩ := hmin1
  obtain ⟨b2, kb2, vb2, hmin2, haddrs⟩ := Tree.delMin_addrs r hrne
  rw [hmin] at hmin2
  simp only [Option.some.injEq, Prod.mk.injEq] at hmin2
  obtain ⟨rfl, rfl, rfl⟩ := hmin2
  have hbr : b ∈ r.addrs := by rw [haddrs]; exact List.mem_cons_self _ _
  have hbr' : b ∉ r.delMin.addrs := by
    rw [haddrs] at hndr; exact (List.nodup_cons.1 hndr).1
  have hr'sub : ∀ x, x ∈ r.delMin.addrs → x ∈ r.addrs := by
    intro x hx; rw [haddrs]; exact List.mem_cons_of_mem _ hx
  have hba : b ≠ a := fun e => har (e ▸ hbr)
  have hbl : b ∉ l.addrs := fun hh => hlr b hh hbr
  -- the whole subtree as a context around the leftmost node
  have hctx : ∃ f c, cr ++ [Frame.right l a k v] = f :: c := by
    cases cr with
    | nil => exact ⟨_, _, rfl⟩
    | cons f c => exact ⟨f, c ++ [Frame.right l a k v], rfl⟩
  obtain ⟨f, c, hfc⟩ := hctx
  have hSeq : ∀ X, plug (f :: c) X = Tree.node l a k v (plug cr X) := by
    intro X; rw [← hfc, plug_append]; rfl
  have hSb : Tree.node l a k v r = plug (f :: c) (Tree.node Tree.nil b kb vb rr0) := by
    rw [hSeq, ← er]
  have hrS : Rep true m.node par (plug (f :: c) (Tree.node Tree.nil b kb vb rr0)) := by
    rw [← hSb]; exact ⟨⟨an, h1, h2, h3, h4, fun _ => h5⟩, hlrep, hrrep⟩
  have hndS : (plug (f :: c) (Tree.node Tree.nil b kb vb rr0)).addrs.Nodup := by
    rw [← hSb]; exact hnd0
  have hbrep : Rep true m.node (some f.addr) (Tree.node Tree.nil b kb vb rr0) :=
    Rep.of_plug (c := f :: c) hrS
  have hfill : Rep true m.node (ctxParent par c) (f.fill (Tree.node Tree.nil b kb vb rr0)) :=
    Rep.of_plug (c := c) (S := f.fill (Tree.node Tree.nil b kb vb rr0)) hrS
  have hndfill : (f.fill (Tree.node Tree.nil b kb vb rr0)).addrs.Nodup :=
    plug_nodup_sub (c := c) hndS
  have hfS : f.addr ∈ (Tree.node l a k v r).addrs := by
    rw [hSb]
    refine plug_sub_addrs c _ ?_
    cases f <;> simp [Frame.fill, Frame.addr, Tree.addrs]
  have hfb : f.addr ∉ (Tree.node Tree.nil b kb vb rr0).addrs := by
    cases f with
    | left q kq vq rq =>
      simp only [Frame.fill, Tree.addrs, List.nodup_append, List.nodup_cons] at hndfill
      exact fun hh => hndfill.2.2 (by simpa [Tree.addrs] using hh) (List.mem_cons_self _ _)
    | right lq q kq vq =>
      simp only [Frame.fill, Tree.addrs, List.nodup_append, List.nodup_cons] at hndfill
      exact fun hh => hndfill.2.1.1 (by simpa [Tree.addrs] using hh)
  have hflive : m.node f.addr ≠ none :=
    hfill.mem_addrs_live (by cases f <;> simp [Frame.fill, Frame.addr, Tree.addrs])
  obtain ⟨pnf, hpnf⟩ := Option.ne_none_iff_exists'.1 hflive
  have hbsubS : ∀ x, x ∈ (Tree.node Tree.nil b kb vb rr0).addrs →
      x ∈ (Tree.node l a k v r).addrs := by
    intro x hx; rw [hSb]; exact plug_sub_addrs _ _ hx
  obtain ⟨⟨bn, hb1, hb2, hb3, hb4, hb5⟩, _, hrr0⟩ := hbrep
  -- first call: detach the leftmost node
  obtain ⟨m1, e1, e2, e3, e4, e5, _, e7⟩ := splice_focus (ε := ε) this
    (C := rr0)
    (show Rep true m.node (some f.addr) (Tree.node Tree.nil b kb vb rr0) from
      ⟨⟨bn, hb1, hb2, hb3, hb4, hb5⟩, trivial, hrr0⟩)
    (plug_nodup_sub (c := f :: c) hndS) (Or.inl rfl) (Or.inr rfl) (Or.inr rfl)
    (fun e => by simp at e)
    (fun p hp => by
      simp only [Option.some.injEq] at hp
      subst hp
      exact ⟨hfb, hflive⟩)
  obtain ⟨e7t, e7n⟩ := e7 f.addr pnf rfl hpnf
  have hrep1 : Rep true m1.node par (Tree.node l a k v r.delMin) := by
    have := Rep.plug_update (a := b) hrS hndS rfl e4
      (fun x hx hxf => e5 x hx (by simpa using Ne.symm hxf))
      (fun pn hpn => by
        rw [hpnf] at hpn; cases hpn; exact e7n)
    rw [hSeq, ← edel] at this
    exact this
  -- second call: put the leftmost node in the place of `a`
  obtain ⟨⟨an1, g1, g2, g3, g4, g5⟩, hlrep1, hrrep1⟩ := hrep1
  have g5 := g5 rfl
  have hm1p : ∀ p, p ∉ (Tree.node l a k v r).addrs → m1.node p = m.node p := by
    intro p hp
    exact e5 p (fun hh => hp (hbsubS p hh)) (by
      simp only [ne_eq, Option.some.injEq]
      rintro rfl; exact hp hfS)
  obtain ⟨m2, d1, d2, d3, d4, d5, d6, d7, d8⟩ := replace_subst (ε := ε) this
    g1 e3 hba rfl rfl (show an1.left = some la by rw [g3, hlroot])
    ⟨fun e => hal (e ▸ Tree.rootPtr_mem_addrs hlroot),
      fun e => hbl (e ▸ Tree.rootPtr_mem_addrs hlroot),
      hlrep1.mem_addrs_live (Tree.rootPtr_mem_addrs hlroot)⟩
    (by
      intro x hx
      rw [g4] at hx
      have hx' := Tree.rootPtr_mem_addrs hx
      exact ⟨fun e => har (e ▸ hr'sub x hx'), fun e => hbr' (e ▸ hx'),
        fun e => hlr la (Tree.rootPtr_mem_addrs hlroot) (e ▸ hr'sub x hx'),
        hrrep1.mem_addrs_live hx'⟩)
    (by
      rw [g5]
      cases par with
      | none => simp only; rw [e7t]; exact hS0 rfl
      | some p =>
        simp only
        obtain ⟨hpS, hplive⟩ := hS1 p rfl
        simp only [Tree.addrs, List.mem_append, List.mem_cons, not_or] at hpS
        refine ⟨hpS.2.1, fun e => hpS.2.2 (e ▸ hbr),
          fun e => hpS.1 (e ▸ Tree.rootPtr_mem_addrs hlroot), ?_, ?_⟩
        · rw [g4]; intro e
          exact hpS.2.2 (hr'sub p (Tree.rootPtr_mem_addrs e))
        · rw [hm1p p (by simp [Tree.addrs, hpS])]; exact hplive)
  refine ⟨m2, b, kb, vb, hmin, ?_, ?_, ?_, ?_, ?_, ?_, ?_⟩
  · have hnl : an.left ≠ none := by rw [h3, hlroot]; simp
    have hnr : an.right ≠ none := by rw [h4, hrroot]; simp
    simp only [removeRelink, Mem.getNode_eq h1, Res.ok_bind, hnl, hnr, if_false]
    rw [h4, hrroot]
    simp only [hleft, Res.ok_bind, Mem.getNode_eq hb1, hb4, e1, d1, Res.pure_eq]
  · rw [d2, e2]
  · rw [d3, g2]
  · refine ⟨⟨_, d4, rfl, g3, g4, fun _ => g5⟩, ?_, ?_⟩
    · refine Rep.reparent hlrep1 hndl ?_ ?_
      · intro x nd hx hnd
        exact d5 x nd (Or.inl (by rw [g3, hx])) hnd
      · intro x hx hxr
        refine d6 x (fun e => hal (e ▸ hx)) (fun e => hbl (e ▸ hx)) (by rw [g3]; exact hxr) ?_ ?_
        · rw [g4]; intro e
          exact hlr x hx (hr'sub x (Tree.rootPtr_mem_addrs e))
        · rw [g5]; intro e
          exact (hS1 x e).1 (by simp [Tree.addrs, hx])
    · have hndr' : r.delMin.addrs.Nodup := by
        rw [haddrs] at hndr; exact (List.nodup_cons.1 hndr).2
      refine Rep.reparent hrrep1 hndr' ?_ ?_
      · intro x nd hx hnd
        exact d5 x nd (Or.inr (by rw [g4, hx])) hnd
      · intro x hx hxr
        refine d6 x (fun e => har (e ▸ hr'sub x hx)) (fun e => hbr' (e ▸ hx)) ?_
          (by rw [g4]; exact hxr) ?_
        · rw [g3, hlroot]; intro e
          simp only [Option.some.injEq] at e
          exact hlr la (Tree.rootPtr_mem_addrs hlroot) (e ▸ hr'sub x hx)
        · rw [g5]; intro e
          exact (hS1 x e).1 (by simp [Tree.addrs, hr'sub x hx])
  · intro x hx hxp
    have hx' := hx
    simp only [Tree.addrs, List.mem_append, List.mem_cons, not_or] at hx
    rw [d6 x hx.2.1 (fun e => hx.2.2 (e ▸ hbr)) ?_ ?_ (by rw [g5]; exact hxp), hm1p x hx']
    · rw [g3]; intro e; exact hx.1 (Tree.rootPtr_mem_addrs e)
    · rw [g4]; intro e; exact hx.2.2 (hr'sub x (Tree.rootPtr_mem_addrs e))
  · intro hpar tm htm
    have := d7 (by rw [g5, hpar]) tm (by rw [e7t]; exact htm)
    refine ⟨this.1, fun j hj => ?_⟩
    rw [this.2 j hj, e7t]
  · intro p pn hpar hpn
    have hpS : p ∉ (Tree.node l a k v r).addrs := (hS1 p hpar).1
    have := d8 p pn (by rw [g5, hpar]) (by rw [hm1p p hpS]; exact hpn)
    exact ⟨by rw [this.1, e7t], this.2⟩

end RelinkFocus

section RemoveNode

theorem Tree.delRoot_nodes (l : Tree K V) (a : Nat) (k : K) (v : V) (r : Tree K V) :
    (Tree.node l a k v r).delRoot.nodes = l.nodes ++ r.nodes := by
  cases l with
  | nil => simp [Tree.delRoot, Tree.nodes]
  | node ll la lk lv lr =>
    cases r with
    | nil => simp [Tree.delRoot, Tree.nodes]
    | node rl ra rk rv rr =>
      obtain ⟨b, kb, vb, e1, e2⟩ := Tree.min_nodes (Tree.node rl ra rk rv rr) (by simp)
      rw [Tree.delRoot, e1]
      simp only [Tree.nodes] at e2 ⊢
      rw [e2]

theorem Tree.delRoot_height_le (t : Tree K V) : t.delRoot.height ≤ t.height := by
  cases t with
  | nil => simp [Tree.delRoot]
  | node l a k v r =>
    cases l with
    | nil => simp [Tree.delRoot, Tree.height]
    | node ll la lk lv lr =>
      cases r with
      | nil => simp [Tree.delRoot, Tree.height]
      | node rl ra rk rv rr =>
        obtain ⟨b, kb, vb, e1, _⟩ := Tree.min_nodes (Tree.node rl ra rk rv rr) (by simp)
        have := Tree.delMin_height_le (Tree.node rl ra rk rv rr)
        rw [Tree.delRoot, e1]
        simp only [Tree.height] at this ⊢
        omega

theorem Frame.fill_height (f : Frame K V) (X : Tree K V) : X.height + 1 ≤ (f.fill X).height := by
  cases f <;> simp only [Frame.fill, Tree.height] <;> omega

theorem Frame.fill_height_mono (f : Frame K V) {X Y : Tree K V} (h : X.height ≤ Y.height) :
    (f.fill X).height ≤ (f.fill Y).height := by
  cases f <;> simp only [Frame.fill, Tree.height] <;> omega

theorem plug_height (c : List (Frame K V)) (X : Tree K V) :
    c.length + X.height ≤ (plug c X).height := by
  induction c generalizing X with
  | nil => simp [plug]
  | cons f c ih =>
    have h1 := ih (f.fill X)
    have h2 := f.fill_height X
    simp only [plug, List.length_cons]
    omega

theorem plug_height_mono (c : List (Frame K V)) {X Y : Tree K V} (h : X.height ≤ Y.height) :
    (plug c X).height ≤ (plug c Y).height := by
  induction c generalizing X Y with
  | nil => exact h
  | cons f c ih => exact ih (f.fill_height_mono h)

theorem plug_cons_rootPtr (f : Frame K V) (c : List (Frame K V)) (X Y : Tree K V) :
    (plug (f :: c) X).rootPtr = (plug (f :: c) Y).rootPtr := by
  induction c generalizing f X Y with
  | nil => simp [plug, Frame.fill_rootPtr]
  | cons g c ih => exact ih g (f.fill X) (f.fill Y)

/-- Facts about the innermost frame of a context whose tree is laid out in memory. -/
theorem Rep.frame_facts {pc : Bool} {h : Nat → Option (Node K V)} {par : Option Nat}
    {f : Frame K V} {c : List (Frame K V)} {S : Tree K V}
    (hr : Rep pc h par (plug (f :: c) S)) (hnd : (plug (f :: c) S).addrs.Nodup) :
    f.addr ∉ S.addrs ∧ h f.addr ≠ none ∧ f.addr ∈ (plug (f :: c) S).addrs := by
  have hfill : Rep pc h (ctxParent par c) (f.fill S) := Rep.of_plug (c := c) (S := f.fill S) hr
  have hndfill : (f.fill S).addrs.Nodup := plug_nodup_sub (c := c) hnd
  refine ⟨?_, ?_, ?_⟩
  · cases f with
    | left q kq vq rq =>
      simp only [Frame.fill, Tree.addrs, List.nodup_append, List.nodup_cons] at hndfill
      exact fun hh => hndfill.2.2 hh (List.mem_cons_self _ _)
    | right lq q kq vq =>
      simp only [Frame.fill, Tree.addrs, List.nodup_append, List.nodup_cons] at hndfill
      exact fun hh => hndfill.2.1.1 hh
  · exact hfill.mem_addrs_live (by cases f <;> simp [Frame.fill, Frame.addr, Tree.addrs])
  · refine plug_sub_addrs c _ ?_
    cases f <;> simp [Frame.fill, Frame.addr, Tree.addrs]

/-- The relinking part of `remove(Node*)` at the root `a` of a subtree: the subtree is
replaced by `delRoot` of it, in the slot that held `a`. -/
theorem removeRelink_focus {m : Mem K V} (this : Nat) {l r : Tree K V} {a : Nat} {k : K}
    {v : V} {par : Option Nat}
    (hr : Rep true m.node par (Tree.node l a k v r))
    (hnd : (Tree.node l a k v r).addrs.Nodup)
    (hS0 : par = none → m.tree this ≠ none)
    (hS1 : ∀ p, par = some p → p ∉ (Tree.node l a k v r).addrs ∧ m.node p ≠ none)
    {fuel : Nat} (hf : (Tree.node l a k v r).height ≤ fuel) :
    ∃ m', (removeRelink m this a fuel : Res ε (Mem K V × Option Nat)) =
        Res.ok (m', (Tree.node l a k v r).delRoot.rootPtr) ∧
      m'.next = m.next ∧
      m'.node a = some ⟨(k, v), none, none, none⟩ ∧
      Rep true m'.node par (Tree.node l a k v r).delRoot ∧
      (∀ x, x ∉ (Tree.node l a k v r).addrs → par ≠ some x → m'.node x = m.node x) ∧
      (par = none → ∀ tm, m.tree this = some tm →
        m'.tree this = some { tm with root := (Tree.node l a k v r).delRoot.rootPtr } ∧
        ∀ j, j ≠ this → m'.tree j = m.tree j) ∧
      (∀ p pn, par = some p → m.node p = some pn → m'.tree = m.tree ∧
        m'.node p = some (if some a = pn.left
          then { pn with left := (Tree.node l a k v r).delRoot.rootPtr }
          else { pn with right := (Tree.node l a k v r).delRoot.rootPtr })) := by
  have hr0 := hr
  obtain ⟨⟨an, h1, h2, h3, h4, h5⟩, _, _⟩ := hr
  cases l with
  | nil =>
    obtain ⟨m', e1, e2⟩ := splice_focus (ε := ε) this (C := r) hr0 hnd
      (Or.inl rfl) (Or.inr rfl) (Or.inr rfl) hS0 hS1
    refine ⟨m', ?_, e2⟩
    simp only [Tree.rootPtr_nil] at h3
    simp only [removeRelink, Mem.getNode_eq h1, Res.ok_bind, h3, if_true, h4, e1, Res.pure_eq,
      Tree.delRoot]
  | node ll la lk lv lr =>
    cases r with
    | nil =>
      obtain ⟨m', e1, e2⟩ := splice_focus (ε := ε) this
        (C := Tree.node ll la lk lv lr) hr0 hnd (Or.inr rfl) (Or.inl rfl) (Or.inl rfl) hS0 hS1
      refine ⟨m', ?_, e2⟩
      simp only [Tree.rootPtr_nil, Tree.rootPtr_node] at h3 h4 e1
      simp [removeRelink, Mem.getNode_eq h1, h3, h4, e1, Tree.delRoot]
    | node rl ra rk rv rr =>
      obtain ⟨m', b, kb, vb, e0, e1, e2⟩ := removeRelink_two (ε := ε) this hr0 hnd
        rfl rfl hS0 hS1 hf
      refine ⟨m', ?_⟩
      simp only [Tree.delRoot, e0, Tree.rootPtr_node]
      exact ⟨e1, e2⟩

/-- Climbing the parent links from a node of a laid-out tree reaches null. -/
theorem climbToNull_plug {m : Mem K V} (c : List (Frame K V)) :
    ∀ {S : Tree K V} {x : Nat} {fuel : Nat}, Rep true m.node none (plug c S) →
      S.rootPtr = some x → c.length + 1 ≤ fuel →
      (climbToNull m fuel (some x) : Res ε Unit) = Res.ok () := by
  induction c with
  | nil =>
    intro S x fuel hr hx hf
    cases S with
    | nil => simp at hx
    | node l a k v r =>
      simp only [Tree.rootPtr_node, Option.some.injEq] at hx
      subst hx
      obtain ⟨⟨nd, h1, _, _, _, h5⟩, _, _⟩ := hr
      obtain ⟨g, rfl⟩ : ∃ g, fuel = g + 1 := ⟨fuel - 1, by simp at hf; omega⟩
      simp only [climbToNull, Mem.getNode_eq h1, Res.ok_bind, h5 rfl]
  | cons f c ih =>
    intro S x fuel hr hx hf
    have hS := Rep.of_plug (c := f :: c) hr
    cases S with
    | nil => simp at hx
    | node l a k v r =>
      simp only [Tree.rootPtr_node, Option.some.injEq] at hx
      subst hx
      obtain ⟨⟨nd, h1, _, _, _, h5⟩, _, _⟩ := hS
      obtain ⟨g, rfl⟩ : ∃ g, fuel = g + 1 := ⟨fuel - 1, by simp at hf; omega⟩
      simp only [climbToNull, Mem.getNode_eq h1, Res.ok_bind, h5 rfl, ctxParent]
      exact ih (S := f.fill (Tree.node l a k v r)) hr (Frame.fill_rootPtr _ _)
        (by simp only [List.length_cons] at hf; omega)

theorem climbToNull_eq {m : Mem K V} {t : Tree K V} (hr : Rep true m.node none t)
    {p : Option Nat} (hp : ∀ x, p = some x → x ∈ t.addrs) {fuel : Nat} (hf : t.height ≤ fuel) :
    (climbToNull m fuel p : Res ε Unit) = Res.ok () := by
  cases p with
  | none => cases fuel <;> rfl
  | some x =>
    obtain ⟨c, l, k, v, r, e⟩ := exists_plug (hp x rfl)
    subst e
    refine climbToNull_plug c hr rfl ?_
    have := plug_height c (Tree.node l x k v r)
    simp only [Tree.height] at this
    omega

end RemoveNode

section RemoveNodeTop

/-- Removing the root of a subtree in a context removes exactly its node from the
in-order sequence. -/
theorem plug_delRoot_nodes (c : List (Frame K V)) (l : Tree K V) (a : Nat) (k : K) (v : V)
    (r : Tree K V) :
    ∃ L R, (plug c (Tree.node l a k v r)).nodes = L ++ (a, k, v) :: R ∧
      (plug c (Tree.node l a k v r).delRoot).nodes = L ++ R := by
  obtain ⟨L0, R0, h⟩ := plug_nodes c
  refine ⟨L0 ++ l.nodes, r.nodes ++ R0, ?_, ?_⟩
  · rw [h]; simp [Tree.nodes]
  · rw [h, Tree.delRoot_nodes]; simp

/-- The relinking part of `remove(Node*)` on a map that owns the tree `plug c S`, at the
root `a` of the subtree `S`. -/
theorem removeRelink_spec {m : Mem K V} {this : Nat} {tm : TreeMap} {c : List (Frame K V)}
    {l r : Tree K V} {a : Nat} {k : K} {v : V}
    (htm : m.tree this = some tm)
    (hroot : tm.root = (plug c (Tree.node l a k v r)).rootPtr)
    (hr : Rep true m.node none (plug c (Tree.node l a k v r)))
    (hnd : (plug c (Tree.node l a k v r)).addrs.Nodup)
    {fuel : Nat} (hf : (plug c (Tree.node l a k v r)).height ≤ fuel) :
    ∃ m', (removeRelink m this a fuel : Res ε (Mem K V × Option Nat)) =
        Res.ok (m', (Tree.node l a k v r).delRoot.rootPtr) ∧
      m'.next = m.next ∧
      m'.node a = some ⟨(k, v), none, none, none⟩ ∧
      Rep true m'.node none (plug c (Tree.node l a k v r).delRoot) ∧
      m'.tree this = some { tm with root := (plug c (Tree.node l a k v r).delRoot).rootPtr } ∧
      (∀ j, j ≠ this → m'.tree j = m.tree j) ∧
      (∀ x, x ∉ (plug c (Tree.node l a k v r)).addrs → m'.node x = m.node x) := by
  have hfS : (Tree.node l a k v r).height ≤ fuel := by
    have := plug_height c (Tree.node l a k v r); omega
  cases c with
  | nil =>
    obtain ⟨m', e1, e2, e3, e4, e5, e6, _⟩ := removeRelink_focus (ε := ε) this
      (show Rep true m.node none _ from hr) hnd (fun _ => by simp [htm]) (fun p hp => by simp at hp) hfS
    obtain ⟨e6a, e6b⟩ := e6 rfl tm htm
    exact ⟨m', e1, e2, e3, e4, e6a, e6b, fun x hx => e5 x hx (by simp)⟩
  | cons f c =>
    obtain ⟨hfa, hflive, hfmem⟩ := Rep.frame_facts hr hnd
    obtain ⟨pn, hpn⟩ := Option.ne_none_iff_exists'.1 hflive
    obtain ⟨m', e1, e2, e3, e4, e5, _, e7⟩ := removeRelink_focus (ε := ε) this
      (show Rep true m.node (some f.addr) _ from Rep.of_plug (c := f :: c) hr)
      (plug_nodup_sub (c := f :: c) hnd)
      (fun e => by simp at e)
      (fun p hp => by
        simp only [Option.some.injEq] at hp
        subst hp
        exact ⟨hfa, hflive⟩) hfS
    obtain ⟨e7t, e7n⟩ := e7 f.addr pn rfl hpn
    refine ⟨m', e1, e2, e3, ?_, ?_, ?_, ?_⟩
    · exact Rep.plug_update (a := a) hr hnd rfl e4
        (fun x hx hxf => e5 x hx (by simpa using Ne.symm hxf))
        (fun pn1 hpn1 => by rw [hpn] at hpn1; cases hpn1; exact e7n)
    · rw [e7t, htm, plug_cons_rootPtr f c _ (Tree.node l a k v r), ← hroot]
    · intro j _; rw [e7t]
    · intro x hx
      refine e5 x (fun hh => hx (plug_sub_addrs _ _ hh)) ?_
      simp only [ne_eq, Option.some.injEq]
      rintro rfl
      exact hx hfmem

/-- The function `remove(Node* node)` on a map that owns the tree `plug c S`, for the node
`a` at the root of the subtree `S`: the map owns `plug c S.delRoot` afterwards, the count
is one less, and the cell of `a` is released. -/
theorem removeNode_spec {m : Mem K V} {this : Nat} {tm : TreeMap} {c : List (Frame K V)}
    {l r : Tree K V} {a : Nat} {k : K} {v : V}
    (htm : m.tree this = some tm)
    (hroot : tm.root = (plug c (Tree.node l a k v r)).rootPtr)
    (hr : Rep true m.node none (plug c (Tree.node l a k v r)))
    (hnd : (plug c (Tree.node l a k v r)).addrs.Nodup)
    (hcount : tm.count ≠ 0)
    {fuel : Nat} (hf : (plug c (Tree.node l a k v r)).height ≤ fuel) :
    ∃ m', (removeNode m this a fuel : Res ε (Mem K V)) = Res.ok m' ∧
      m'.next = m.next ∧ m'.node a = none ∧
      Rep true m'.node none (plug c (Tree.node l a k v r).delRoot) ∧
      m'.tree this = some ⟨(plug c (Tree.node l a k v r).delRoot).rootPtr, tm.count - 1⟩ ∧
      (∀ j, j ≠ this → m'.tree j = m.tree j) ∧
      (∀ x, x ∉ (plug c (Tree.node l a k v r)).addrs → m'.node x = m.node x) := by
  obtain ⟨m1, e1, e2, e3, e4, e5, e6, e7⟩ := removeRelink_spec (ε := ε) htm hroot hr hnd hf
  -- the node removed is not part of the new tree
  obtain ⟨L, R, hn1, hn2⟩ := plug_delRoot_nodes c l a k v r
  have ha' : a ∉ (plug c (Tree.node l a k v r).delRoot).addrs := by
    rw [Tree.addrs_eq_map, hn1] at hnd
    rw [Tree.addrs_eq_map, hn2]
    simp only [List.map_append, List.map_cons, List.nodup_append, List.nodup_cons,
      List.disjoint_cons_right] at hnd
    simp only [List.map_append, List.mem_append, not_or]
    exact ⟨hnd.2.2.1, hnd.2.1.1⟩
  have hsub : ∀ x, x ∈ (Tree.node l a k v r).delRoot.addrs →
      x ∈ (plug c (Tree.node l a k v r).delRoot).addrs := fun x hx => plug_sub_addrs _ _ hx
  have hh : (plug c (Tree.node l a k v r).delRoot).height ≤ fuel :=
    le_trans (plug_height_mono c (Tree.delRoot_height_le _)) hf
  have hclimb : (climbToNull m1 fuel (Tree.node l a k v r).delRoot.rootPtr : Res ε Unit) =
      Res.ok () :=
    climbToNull_eq e4 (fun x hx => hsub x (Tree.rootPtr_mem_addrs hx)) hh
  have hpos : 0 < fuel := by
    have := plug_height c (Tree.node l a k v r)
    simp only [Tree.height] at this
    omega
  have hdel : (Mem.delete fuel (m1.setTree this
      { root := (plug c (Tree.node l a k v r).delRoot).rootPtr, count := tm.count - 1 })
      (some a) : Res ε (Mem K V)) = Res.ok ((m1.setTree this
      { root := (plug c (Tree.node l a k v r).delRoot).rootPtr,
        count := tm.count - 1 }).freeNode a) :=
    Mem.delete_leaf (by simpa using e3) rfl rfl fuel hpos
  refine ⟨(m1.setTree this
      { root := (plug c (Tree.node l a k v r).delRoot).rootPtr,
        count := tm.count - 1 }).freeNode a, ?_, ?_, ?_, ?_, ?_, ?_, ?_⟩
  · simp only [removeNode, e1, Res.ok_bind, hclimb, Mem.decrCount_eq e5 hcount]
    exact hdel
  · simp [e2]
  · simp
  · refine Rep.congr ?_ e4
    intro x hx
    have : x ≠ a := fun e => ha' (e ▸ hx)
    simp [this]
  · simp
  · intro j hj; simp [hj, e6 j hj]
  · intro x hx
    have hxa : x ≠ a := by
      rintro rfl
      exact hx (plug_sub_addrs _ _ (by simp [Tree.addrs]))
    simp [hxa, e7 x hx]

end RemoveNodeTop

/-! ## The scenario is laid out as expected -/

section Scenario

theorem exampleMem_tree : exampleMem.tree 0 = some ⟨some 0, 7⟩ := by decide

theorem exampleMem_rep : Rep true exampleMem.node none exampleTree := by
  refine ⟨⟨⟨(5, 50), some 1, some 2, none⟩, rfl, rfl, rfl, rfl, fun _ => rfl⟩,
    ⟨⟨⟨(3, 30), some 3, some 4, some 0⟩, rfl, rfl, rfl, rfl, fun _ => rfl⟩,
      ⟨⟨⟨(1, 10), none, none, some 1⟩, rfl, rfl, rfl, rfl, fun _ => rfl⟩, trivial,
        trivial⟩,
      ⟨⟨⟨(4, 40), none, none, some 1⟩, rfl, rfl, rfl, rfl, fun _ => rfl⟩, trivial,
        trivial⟩⟩,
    ⟨⟨⟨(8, 80), some 5, some 6, some 0⟩, rfl, rfl, rfl, rfl, fun _ => rfl⟩,
      ⟨⟨⟨(7, 70), none, none, some 2⟩, rfl, rfl, rfl, rfl, fun _ => rfl⟩, trivial,
        trivial⟩,
      ⟨⟨⟨(9, 90), none, none, some 2⟩, rfl, rfl, rfl, rfl, fun _ => rfl⟩, trivial,
        trivial⟩⟩⟩

theorem exampleMem_mapRep (pc : Bool) : MapRep pc exampleMem 0 exampleTree := by
  refine ⟨⟨some 0, 7⟩, exampleMem_tree, rfl, ?_⟩
  cases pc
  · exact exampleMem_rep.weaken
  · exact exampleMem_rep

theorem exampleTree_BST : exampleTree.BST := by
  simp [exampleTree, Tree.BST, Tree.keys]

theorem exampleMem_fresh : exampleMem.node exampleMem.next = none := rfl

end Scenario

/-! ## Lookup, insertion and removal of a key -/

theorem getSize_eq {m : Mem K V} {this : Nat} {tm : TreeMap} (h : m.tree this = some tm) :
    (getSize m this : Res ε Nat) = Res.ok tm.count := by
  simp [getSize, Mem.getTree_eq h]

theorem getSize_ok_iff {m : Mem K V} {this : Nat} {c : Nat} :
    (getSize m this : Res ε Nat) = Res.ok c ↔ ∃ tm, m.tree this = some tm ∧ tm.count = c := by
  unfold getSize Mem.getTree
  cases h : m.tree this with
  | none => simp
  | some tm => simp

section PublicOps
variable [LinearOrder K]

theorem find_eq {pc : Bool} {m : Mem K V} {this : Nat} {t : Tree K V}
    (hrep : MapRep pc m this t) (key : K) {fuel : Nat} (hf : t.height ≤ fuel) :
    (find m this key fuel : Res ε ConstIterator) = Res.ok ⟨some this, t.findAddr key⟩ := by
  obtain ⟨tm, htm, hroot, hr⟩ := hrep
  simp [find, findNode, Mem.getTree_eq htm, hroot, findNodeLoop_eq hr key hf]

/-- C4 (lookup correctness).  On a map whose nodes form a binary search tree `t`,
`find(key)` returns normally (it never raises, and as a `const` function it has no
memory to return); when `key` is stored with the value `v`, the iterator is bound to
this map and positioned at a node of the tree that holds `(key, v)`, so dereferencing
it gives `(key, v)`; and the iterator is `end()` exactly when `key` is not stored. -/
theorem find_correct {m : Mem K V} {this : Nat} {t : Tree K V}
    (hrep : MapRep false m this t) (hb : t.BST) (key : K) {fuel : Nat}
    (hf : t.height ≤ fuel) :
    ∃ it, (find m this key fuel : Res (Mem K V) ConstIterator) = Res.ok it ∧
      (∀ v, (key, v) ∈ t.toList →
        ∃ a, it = ⟨some this, some a⟩ ∧ (a, key, v) ∈ t.nodes ∧
          it.deref m = Res.ok (key, v)) ∧
      (it = cend this ↔ key ∉ t.keys) := by
  refine ⟨⟨some this, t.findAddr key⟩, find_eq hrep key hf, ?_, ?_⟩
  · intro v hv
    obtain ⟨a, ha⟩ := Tree.mem_toList_iff.1 hv
    have hfa : t.findAddr key = some a := (Tree.findAddr_eq_some hb).2 ⟨v, ha⟩
    obtain ⟨tm, htm, hroot, hr⟩ := hrep
    obtain ⟨nd, h1, h2⟩ := hr.cell_of_mem ha
    refine ⟨a, by rw [hfa], ha, ?_⟩
    simp [ConstIterator.deref, hfa, Mem.getNode_eq h1, h2]
  · rw [← Tree.findAddr_eq_none hb]
    simp [cend]

/-- Witness of C4 on the scenario map: the key 7 is stored there. -/
theorem find_correct_witness :
    ∃ it, (find exampleMem 0 7 3 : Res (Mem Nat Nat) ConstIterator) = Res.ok it ∧
      (∀ v, (7, v) ∈ exampleTree.toList →
        ∃ a, it = ⟨some 0, some a⟩ ∧ (a, 7, v) ∈ exampleTree.nodes ∧
          it.deref exampleMem = Res.ok (7, v)) ∧
      (it = cend 0 ↔ 7 ∉ exampleTree.keys) :=
  find_correct (exampleMem_mapRep false) exampleTree_BST 7 (by decide)

/-- C3 (insert-or-ignore).  On a map whose nodes form a binary search tree `t`,
`insert(new Node(key, v))` returns normally and leaves a map whose nodes form a binary
search tree `t'`.  When `key` was absent, the in-order sequence of `t'` is that of `t`
with `(key, v)` added between the smaller and the greater keys, and `getSize()` is one
larger, provided that the larger count fits into a `size_t` (`count++` does not wrap);
when `key` was present, the in-order sequence (so the value stored for `key` too) and
`getSize()` are unchanged.  Parent consistency (`pc`) is preserved as well. -/
theorem insert_or_ignore {pc : Bool} {m : Mem K V} {this : Nat} {t : Tree K V}
    (hrep : MapRep pc m this t) (hb : t.BST) (hfresh : m.node m.next = none)
    (key : K) (v : V) {fuel : Nat} (hf : t.height < fuel) :
    ∃ m' t', (insertNew m this key v fuel : Res (Mem K V) (Mem K V)) = Res.ok m' ∧
      MapRep pc m' this t' ∧ t'.BST ∧
      (key ∉ t.keys →
        (∃ l1 l2, t.toList = l1 ++ l2 ∧ t'.toList = l1 ++ (key, v) :: l2 ∧
          (∀ x ∈ l1, x.1 < key) ∧ (∀ x ∈ l2, key < x.1)) ∧
        ∀ c, (getSize m this : Res (Mem K V) Nat) = Res.ok c → c + 1 < 2 ^ 64 →
          (getSize m' this : Res (Mem K V) Nat) = Res.ok (c + 1)) ∧
      (key ∈ t.keys → t'.toList = t.toList ∧
        ∀ c, (getSize m this : Res (Mem K V) Nat) = Res.ok c →
          (getSize m' this : Res (Mem K V) Nat) = Res.ok c) := by
  obtain ⟨tm, htm, hroot, hr⟩ := hrep
  obtain ⟨m', e1, e2, _, _, _, e6, _⟩ :=
    insertNew_spec (ε := Mem K V) htm hroot hr hb hfresh key v hf
  refine ⟨m', t.ins m.next key v, e1, ⟨_, e2, rfl, e6⟩, Tree.ins_BST hb _ _ _, ?_, ?_⟩
  · intro hk
    refine ⟨?_, ?_⟩
    · obtain ⟨l1, l2, h1, h2, h3, h4⟩ := Tree.ins_nodes hb hk m.next v
      refine ⟨l1.map Prod.snd, l2.map Prod.snd, ?_, ?_, ?_, ?_⟩
      · simp [Tree.toList_eq_map, h1]
      · simp [Tree.toList_eq_map, h2]
      · intro x hx
        obtain ⟨y, hy, rfl⟩ := List.mem_map.1 hx
        exact h3 y hy
      · intro x hx
        obtain ⟨y, hy, rfl⟩ := List.mem_map.1 hx
        exact h4 y hy
    · intro c hc _
      rw [getSize_eq htm] at hc
      cases hc
      rw [getSize_eq e2]
      simp [hk]
  · intro hk
    refine ⟨by rw [Tree.ins_of_mem hb hk], ?_⟩
    intro c hc
    rw [getSize_eq htm] at hc
    cases hc
    rw [getSize_eq e2]
    simp [hk]

/-- Witness of C3 on the scenario map: inserting the absent key 6 makes the size 8. -/
theorem insert_or_ignore_witness :
    ((insertNew exampleMem 0 6 60 4 : Res Unit (Mem Nat Nat)) >>=
      fun m' => getSize m' 0).toOption = some 8 ∧
    ∃ m' t', (insertNew exampleMem 0 6 60 4 : Res (Mem Nat Nat) (Mem Nat Nat)) = Res.ok m' ∧
      MapRep true m' 0 t' ∧ t'.BST ∧
      (6 ∉ exampleTree.keys →
        (∃ l1 l2, exampleTree.toList = l1 ++ l2 ∧ t'.toList = l1 ++ (6, 60) :: l2 ∧
          (∀ x ∈ l1, x.1 < 6) ∧ (∀ x ∈ l2, 6 < x.1)) ∧
        ∀ c, (getSize exampleMem 0 : Res (Mem Nat Nat) Nat) = Res.ok c → c + 1 < 2 ^ 64 →
          (getSize m' 0 : Res (Mem Nat Nat) Nat) = Res.ok (c + 1)) ∧
      (6 ∈ exampleTree.keys → t'.toList = exampleTree.toList ∧
        ∀ c, (getSize exampleMem 0 : Res (Mem Nat Nat) Nat) = Res.ok c →
          (getSize m' 0 : Res (Mem Nat Nat) Nat) = Res.ok c) :=
  ⟨by decide,
    insert_or_ignore (exampleMem_mapRep true) exampleTree_BST exampleMem_fresh 6 60 (by decide)⟩

end PublicOps

/-! ## Removal by iterator and by key -/

section Removal

theorem Tree.keys_eq_nodes_map (t : Tree K V) : t.keys = t.nodes.map (fun x => x.2.1) := by
  induction t with
  | nil => rfl
  | node l a k v r ihl ihr => simp [Tree.nodes, Tree.keys, ihl, ihr]

theorem Tree.size_eq_length_nodes (t : Tree K V) : t.size = t.nodes.length := by
  induction t with
  | nil => rfl
  | node l a k v r ihl ihr => simp [Tree.nodes, Tree.size, ihl, ihr]; omega

/-- In a tree with pairwise distinct addresses a node is determined by its address. -/
theorem Tree.node_unique {t : Tree K V} (hnd : t.addrs.Nodup) {a : Nat} {k k' : K} {v v' : V}
    (h1 : (a, k, v) ∈ t.nodes) (h2 : (a, k', v') ∈ t.nodes) : k = k' ∧ v = v' := by
  rw [Tree.addrs_eq_map] at hnd
  have := List.inj_on_of_nodup_map hnd h1 h2 rfl
  simp only [Prod.mk.injEq, true_and] at this
  exact this

/-- What remains true of the abstract tree when one node leaves the in-order sequence. -/
theorem Tree.facts_of_nodes_split [LinearOrder K] {t t' : Tree K V} (hb : t.BST)
    {L R : List (Nat × K × V)} {x : Nat × K × V}
    (h1 : t.nodes = L ++ x :: R) (h2 : t'.nodes = L ++ R) :
    t'.BST ∧ x.2.1 ∉ t'.keys ∧ t'.size + 1 = t.size := by
  have hs := Tree.BST.sorted hb
  rw [Tree.keys_eq_nodes_map, h1] at hs
  simp only [List.map_append, List.map_cons, List.Sorted, List.pairwise_append,
    List.pairwise_cons] at hs
  obtain ⟨hL, ⟨hxR, hR⟩, hLR⟩ := hs
  refine ⟨Tree.BST.of_sorted ?_, ?_, ?_⟩
  · rw [Tree.keys_eq_nodes_map, h2]
    simp only [List.map_append, List.Sorted, List.pairwise_append]
    exact ⟨hL, hR, fun a ha b hb => hLR a ha b (List.mem_cons_of_mem _ hb)⟩
  · rw [Tree.keys_eq_nodes_map, h2]
    simp only [List.map_append, List.mem_append, not_or]
    exact ⟨fun h => lt_irrefl _ (hLR _ h _ (List.mem_cons_self _ _)),
      fun h => lt_irrefl _ (hxR _ h)⟩
  · rw [Tree.size_eq_length_nodes, Tree.size_eq_length_nodes, h1, h2]
    simp
    omega

/-- The function `remove(const const_iterator&)` for an iterator of this map positioned
at the node `a`: the node leaves the tree and its cell is released. -/
theorem removeIt_spec [LinearOrder K] {m : Mem K V} {this : Nat} {tm : TreeMap} {t : Tree K V}
    (htm : m.tree this = some tm) (hroot : tm.root = t.rootPtr)
    (hr : Rep true m.node none t) (hb : t.BST) (hcount : tm.count ≠ 0)
    {a : Nat} {k : K} {v : V} (ha : (a, k, v) ∈ t.nodes)
    {fuel : Nat} (hf : t.height ≤ fuel) :
    ∃ m' t', removeIt m this ⟨some this, some a⟩ fuel = Res.ok m' ∧
      m'.next = m.next ∧ m'.node a = none ∧
      Rep true m'.node none t' ∧
      m'.tree this = some ⟨t'.rootPtr, tm.count - 1⟩ ∧
      (∀ j, j ≠ this → m'.tree j = m.tree j) ∧
      (∀ x, x ∉ t.addrs → m'.node x = m.node x) ∧
      (∃ L R, t.nodes = L ++ (a, k, v) :: R ∧ t'.nodes = L ++ R) ∧
      t'.height ≤ t.height := by
  have hnd := hr.nodup_addrs hb
  obtain ⟨c, l, k1, v1, r, e⟩ := exists_plug (Tree.mem_addrs_of_mem_nodes ha)
  subst e
  obtain ⟨L, R, hn1, hn2⟩ := plug_delRoot_nodes c l a k1 v1 r
  have hkv : k = k1 ∧ v = v1 := Tree.node_unique hnd ha (by rw [hn1]; simp)
  obtain ⟨rfl, rfl⟩ := hkv
  obtain ⟨m', e1, e2⟩ := removeNode_spec (ε := Mem K V) htm hroot hr hnd hcount hf
  refine ⟨m', plug c (Tree.node l a k v r).delRoot, ?_, e2.1, e2.2.1, e2.2.2.1, e2.2.2.2.1,
    e2.2.2.2.2.1, e2.2.2.2.2.2, ⟨L, R, hn1, hn2⟩, plug_height_mono c (Tree.delRoot_height_le _)⟩
  simp [removeIt, cend, e1]

/-- The function `remove(const key_type&)` for a key stored at the node `a`. -/
theorem removeKey_spec [LinearOrder K] {m : Mem K V} {this : Nat} {tm : TreeMap}
    {t : Tree K V} (htm : m.tree this = some tm) (hroot : tm.root = t.rootPtr)
    (hr : Rep true m.node none t) (hb : t.BST) (hcount : tm.count ≠ 0)
    {a : Nat} {k : K} {v : V} (ha : (a, k, v) ∈ t.nodes)
    {fuel : Nat} (hf : t.height ≤ fuel) :
    ∃ m' t', removeKey m this k fuel = Res.ok m' ∧
      m'.next = m.next ∧ m'.node a = none ∧
      Rep true m'.node none t' ∧
      m'.tree this = some ⟨t'.rootPtr, tm.count - 1⟩ ∧
      (∀ j, j ≠ this → m'.tree j = m.tree j) ∧
      (∀ x, x ∉ t.addrs → m'.node x = m.node x) ∧
      (∃ L R, t.nodes = L ++ (a, k, v) :: R ∧ t'.nodes = L ++ R) ∧
      t'.height ≤ t.height := by
  have hfind : (find m this k fuel : Res (Mem K V) ConstIterator) =
      Res.ok ⟨some this, some a⟩ := by
    rw [find_eq ⟨tm, htm, hroot, hr⟩ k hf, (Tree.findAddr_eq_some hb).2 ⟨v, ha⟩]
  obtain ⟨m', t', e1, e2⟩ := removeIt_spec htm hroot hr hb hcount ha hf
  refine ⟨m', t', ?_, e2⟩
  simp [removeKey, hfind, e1]

/-- C2 (removal of a present key).  On a map whose nodes form a binary search tree `t`
with consistent parent links and whose stored count is the number of nodes, `remove(key)`
for a stored `key` returns normally, whatever the number of children of the node, and
leaves a map with the same invariants whose in-order sequence of pairs is the previous
one with exactly the entry of `key` taken out; `getSize()` is smaller by one, and
`find(key)` is `end()` afterwards. -/
theorem remove_present [LinearOrder K] {m : Mem K V} {this : Nat} {t : Tree K V}
    (hrep : MapRep true m this t) (hb : t.BST)
    (hcount : (getSize m this : Res (Mem K V) Nat) = Res.ok t.size)
    {key : K} (hk : key ∈ t.keys) {fuel : Nat} (hf : t.height ≤ fuel) :
    ∃ m' t', removeKey m this key fuel = Res.ok m' ∧
      MapRep true m' this t' ∧ t'.BST ∧
      (∃ l1 v l2, t.toList = l1 ++ (key, v) :: l2 ∧ t'.toList = l1 ++ l2) ∧
      (getSize m' this : Res (Mem K V) Nat) = Res.ok (t.size - 1) ∧
      t'.size + 1 = t.size ∧
      (find m' this key fuel : Res (Mem K V) ConstIterator) = Res.ok (cend this) := by
  obtain ⟨tm, htm, hroot, hr⟩ := hrep
  obtain ⟨a, v, ha⟩ := Tree.mem_keys_iff.1 hk
  rw [getSize_eq htm] at hcount
  simp only [Res.ok.injEq] at hcount
  have hpos : tm.count ≠ 0 := by
    rw [hcount, Tree.size_eq_length_nodes]
    intro h0
    rw [List.length_eq_zero.1 h0] at ha
    simp at ha
  obtain ⟨m', t', e1, _, _, e4, e5, _, _, ⟨L, R, hn1, hn2⟩, e9⟩ :=
    removeKey_spec htm hroot hr hb hpos ha hf
  obtain ⟨hb', hk', hsz⟩ := Tree.facts_of_nodes_split hb hn1 hn2
  have hrep' : MapRep true m' this t' := ⟨_, e5, rfl, e4⟩
  refine ⟨m', t', e1, hrep', hb', ?_, ?_, hsz, ?_⟩
  · exact ⟨L.map Prod.snd, v, R.map Prod.snd, by simp [Tree.toList_eq_map, hn1],
      by simp [Tree.toList_eq_map, hn2]⟩
  · rw [getSize_eq e5, hcount]
  · rw [find_eq hrep' key (le_trans e9 hf), (Tree.findAddr_eq_none hb').2 hk']
    rfl

/-- Witness of C2 on the scenario map: `remove(5)` removes the root, a node with two
children; the traversal is then 1, 3, 4, 7, 8, 9 and the size 6. -/
theorem remove_present_witness :
    (∃ m' t', removeKey exampleMem 0 5 3 = Res.ok m' ∧
      MapRep true m' 0 t' ∧ t'.BST ∧
      (∃ l1 v l2, exampleTree.toList = l1 ++ (5, v) :: l2 ∧ t'.toList = l1 ++ l2) ∧
      (getSize m' 0 : Res (Mem Nat Nat) Nat) = Res.ok (exampleTree.size - 1) ∧
      t'.size + 1 = exampleTree.size ∧
      (find m' 0 5 3 : Res (Mem Nat Nat) ConstIterator) = Res.ok (cend 0)) ∧
    (removeKey exampleMem 0 5 3).toOption.map (fun m1 => traverse m1 0 7) =
      some (Res.ok [(1, 10), (3, 30), (4, 40), (7, 70), (8, 80), (9, 90)]) ∧
    (removeKey exampleMem 0 5 3).toOption.map (fun m' => (getSize m' 0 : Res Unit Nat)) =
      some (Res.ok 6) :=
  ⟨remove_present (exampleMem_mapRep true) exampleTree_BST rfl (by decide) (by decide),
    by decide, by decide⟩

end Removal

/-! ## Iterator steps -/

section IteratorSteps

theorem plug_nodes_eq (c : List (Frame K V)) (X : Tree K V) :
    (plug c X).nodes = ctxBefore c ++ X.nodes ++ ctxAfter c := by
  induction c generalizing X with
  | nil => simp [plug, ctxBefore, ctxAfter]
  | cons f c ih =>
    cases f with
    | left a k v r => simp [plug, ih, Frame.fill, Tree.nodes, ctxBefore, ctxAfter]
    | right l a k v => simp [plug, ih, Frame.fill, Tree.nodes, ctxBefore, ctxAfter]

/-- A list with pairwise distinct first components splits in one way around an element. -/
theorem split_unique {α β : Type} {L L' R R' : List (α × β)} {x : α × β}
    (hnd : ((L ++ x :: R).map Prod.fst).Nodup) (h : L ++ x :: R = L' ++ x :: R') :
    L = L' ∧ R = R' := by
  induction L generalizing L' with
  | nil =>
    cases L' with
    | nil => simpa using h
    | cons y L' =>
      simp only [List.nil_append, List.cons_append, List.cons.injEq] at h
      obtain ⟨rfl, h2⟩ := h
      rw [h2] at hnd
      simp at hnd
  | cons y L ih =>
    cases L' with
    | nil =>
      simp only [List.nil_append, List.cons_append, List.cons.injEq] at h
      obtain ⟨rfl, h2⟩ := h
      simp at hnd
    | cons z L' =>
      simp only [List.cons_append, List.cons.injEq] at h
      obtain ⟨rfl, h2⟩ := h
      simp only [List.cons_append, List.map_cons, List.nodup_cons] at hnd
      obtain ⟨e1, e2⟩ := ih hnd.2 h2
      exact ⟨by rw [e1], e2⟩

/-- The climbing loop of `operator++`, started at the root of a subtree in a context,
ends at the first node after the subtree, or at null when there is none. -/
theorem incrClimb_plug {m : Mem K V} (c : List (Frame K V)) :
    ∀ {S : Tree K V} {x : Nat} {fuel : Nat}, Rep true m.node none (plug c S) →
      (plug c S).addrs.Nodup → S.rootPtr = some x → c.length + 1 ≤ fuel →
      (incrClimb m fuel x : Res ε (Option Nat)) =
        Res.ok ((ctxAfter c).head?.map Prod.fst) := by
  induction c with
  | nil =>
    intro S x fuel hr _ hx hf
    cases S with
    | nil => simp at hx
    | node l a k v r =>
      simp only [Tree.rootPtr_node, Option.some.injEq] at hx
      subst hx
      obtain ⟨⟨nd, h1, _, _, _, h5⟩, _, _⟩ := hr
      obtain ⟨g, rfl⟩ : ∃ g, fuel = g + 1 := ⟨fuel - 1, by simp at hf; omega⟩
      simp [incrClimb, Mem.getNode_eq h1, h5 rfl, ctxAfter]
  | cons f c ih =>
    intro S x fuel hr hnd hx hf
    have hS := Rep.of_plug (c := f :: c) hr
    have hfill := Rep.of_plug (c := c) (S := f.fill S) hr
    have hndfill : (f.fill S).addrs.Nodup := plug_nodup_sub (c := c) hnd
    have hxS : x ∈ S.addrs := Tree.rootPtr_mem_addrs hx
    cases S with
    | nil => simp at hx
    | node l a k v r =>
      simp only [Tree.rootPtr_node, Option.some.injEq] at hx
      subst hx
      obtain ⟨⟨nd, h1, _, _, _, h5⟩, _, _⟩ := hS
      obtain ⟨g, rfl⟩ : ∃ g, fuel = g + 1 := ⟨fuel - 1, by simp at hf; omega⟩
      cases f with
      | left q kq vq rq =>
        obtain ⟨⟨qn, g1, _, g3, _, _⟩, _, _⟩ := hfill
        simp [incrClimb, Mem.getNode_eq h1, h5 rfl, ctxParent, Frame.addr, Mem.getNode_eq g1,
          g3, ctxAfter]
      | right lq q kq vq =>
        obtain ⟨⟨qn, g1, _, g3, _, _⟩, _, _⟩ := hfill
        simp only [Frame.fill, Tree.addrs, List.nodup_append, List.nodup_cons] at hndfill
        have hne : qn.left ≠ some a := by
          rw [g3]; intro e
          exact hndfill.2.2 (Tree.rootPtr_mem_addrs e) (List.mem_cons_of_mem _ hxS)
        simp only [incrClimb, Mem.getNode_eq h1, Res.ok_bind, h5 rfl, ctxParent, Frame.addr,
          Mem.getNode_eq g1, hne, if_false, ctxAfter]
        exact ih (S := Frame.fill (Frame.right lq q kq vq) (Tree.node l a k v r)) hr hnd rfl
          (by simp only [List.length_cons] at hf; omega)

/-- The climbing loop of `operator--`, started at the root of a subtree in a context,
ends at the last node before the subtree; when there is none, the exception is thrown
with the iterator at the root of the whole tree. -/
theorem decrClimb_plug {m : Mem K V} (tree : Option Nat) (c : List (Frame K V)) :
    ∀ {S : Tree K V} {x : Nat} {fuel : Nat}, Rep true m.node none (plug c S) →
      (plug c S).addrs.Nodup → S.rootPtr = some x → c.length + 1 ≤ fuel →
      decrClimb m tree fuel x =
        match (ctxBefore c).getLast? with
        | some q => Res.ok (some q.1)
        | none => Res.thrown OutOfRange.opDecr ⟨tree, (plug c S).rootPtr⟩ := by
  induction c with
  | nil =>
    intro S x fuel hr _ hx hf
    cases S with
    | nil => simp at hx
    | node l a k v r =>
      simp only [Tree.rootPtr_node, Option.some.injEq] at hx
      subst hx
      obtain ⟨⟨nd, h1, _, _, _, h5⟩, _, _⟩ := hr
      obtain ⟨g, rfl⟩ : ∃ g, fuel = g + 1 := ⟨fuel - 1, by simp at hf; omega⟩
      simp [decrClimb, Mem.getNode_eq h1, h5 rfl, ctxBefore, plug]
  | cons f c ih =>
    intro S x fuel hr hnd hx hf
    have hS := Rep.of_plug (c := f :: c) hr
    have hfill := Rep.of_plug (c := c) (S := f.fill S) hr
    have hndfill : (f.fill S).addrs.Nodup := plug_nodup_sub (c := c) hnd
    have hxS : x ∈ S.addrs := Tree.rootPtr_mem_addrs hx
    cases S with
    | nil => simp at hx
    | node l a k v r =>
      simp only [Tree.rootPtr_node, Option.some.injEq] at hx
      subst hx
      obtain ⟨⟨nd, h1, _, _, _, h5⟩, _, _⟩ := hS
      obtain ⟨g, rfl⟩ : ∃ g, fuel = g + 1 := ⟨fuel - 1, by simp at hf; omega⟩
      cases f with
      | right lq q kq vq =>
        obtain ⟨⟨qn, g1, _, _, g4, _⟩, _, _⟩ := hfill
        simp [decrClimb, Mem.getNode_eq h1, h5 rfl, ctxParent, Frame.addr, Mem.getNode_eq g1,
          g4, ctxBefore, Frame.fill]
      | left q kq vq rq =>
        obtain ⟨⟨qn, g1, _, _, g4, _⟩, _, _⟩ := hfill
        simp only [Frame.fill, Tree.addrs, List.nodup_append, List.nodup_cons] at hndfill
        have hne : qn.right ≠ some a := by
          rw [g4]; intro e
          exact hndfill.2.2 hxS (List.mem_cons_of_mem _ (Tree.rootPtr_mem_addrs e))
        simp only [decrClimb, Mem.getNode_eq h1, Res.ok_bind, h5 rfl, ctxParent, Frame.addr,
          Mem.getNode_eq g1, hne, if_false, ctxBefore]
        exact ih (S := Frame.fill (Frame.left q kq vq rq) (Tree.node l a k v r)) hr hnd rfl
          (by simp only [List.length_cons] at hf; omega)

end IteratorSteps

section IteratorNodes

theorem Tree.min?_eq_head (t : Tree K V) : t.min? = t.nodes.head? := by
  induction t with
  | nil => rfl
  | node l a k v r ihl _ =>
    cases l with
    | nil => simp [Tree.min?, Tree.nodes]
    | node ll la lk lv lr =>
      rw [Tree.min?, ihl]
      show (Tree.node ll la lk lv lr).nodes.head? =
        ((Tree.node ll la lk lv lr).nodes ++ (a, k, v) :: r.nodes).head?
      rw [List.head?_append_of_ne_nil]
      simp [Tree.nodes]

theorem Tree.max?_eq_getLast (t : Tree K V) : t.max? = t.nodes.getLast? := by
  induction t with
  | nil => rfl
  | node l a k v r _ ihr =>
    cases r with
    | nil => simp [Tree.max?, Tree.nodes]
    | node rl ra rk rv rr =>
      rw [Tree.max?, ihr]
      show (Tree.node rl ra rk rv rr).nodes.getLast? =
        (l.nodes ++ (a, k, v) :: (Tree.node rl ra rk rv rr).nodes).getLast?
      have hne : (Tree.node rl ra rk rv rr).nodes ≠ [] := by simp [Tree.nodes]
      obtain ⟨y, ys, hy⟩ := List.exists_cons_of_ne_nil hne
      rw [hy, List.getLast?_append_of_ne_nil _ (by simp), List.getLast?_cons_cons]

/-- The loop `while (node->right != nullptr) node = node->right` ends at the rightmost
node. -/
theorem rightmost_eq {pc : Bool} {m : Mem K V} {par : Option Nat} {r : Tree K V} {c : Nat}
    (hr : Rep pc m.node par r) (hroot : r.rootPtr = some c) {f : Nat} (hf : r.height ≤ f + 1) :
    ∃ b kb vb, r.max? = some (b, kb, vb) ∧ (rightmost m f c : Res ε Nat) = Res.ok b := by
  induction r generalizing par c f with
  | nil => simp at hroot
  | node l q kq vq rr _ ihr =>
    simp only [Tree.rootPtr_node, Option.some.injEq] at hroot
    subst hroot
    obtain ⟨⟨nd, h1, h2, h3, h4, h5⟩, _, hrr⟩ := hr
    cases rr with
    | nil =>
      refine ⟨q, kq, vq, rfl, ?_⟩
      cases f <;> simp [rightmost, Mem.getNode_eq h1, h4]
    | node rl ra rk rv rr2 =>
      simp only [Tree.height] at hf
      obtain ⟨g, rfl⟩ : ∃ g, f = g + 1 := ⟨f - 1, by
        have := Nat.le_max_right l.height (max rl.height rr2.height + 1); omega⟩
      obtain ⟨b, kb, vb, e1, e2⟩ := ihr (c := ra) (f := g) hrr rfl (by
        simp only [Tree.height]
        have := Nat.le_max_right l.height (max rl.height rr2.height + 1); omega)
      refine ⟨b, kb, vb, by rw [Tree.max?, e1], ?_⟩
      simp [rightmost, Mem.getNode_eq h1, h4, e2]

/-- The step `++` from the node `a` of a laid-out tree lands on the next node of the
in-order sequence, or at the end position after the last node. -/
theorem incr_nodes {m : Mem K V} (this : Nat) {t : Tree K V}
    (hr : Rep true m.node none t) (hnd : t.addrs.Nodup)
    {L R : List (Nat × K × V)} {a : Nat} {k : K} {v : V}
    (hsplit : t.nodes = L ++ (a, k, v) :: R) {fuel : Nat} (hf : t.height ≤ fuel) :
    ConstIterator.incr m ⟨some this, some a⟩ fuel =
      Res.ok ⟨some this, R.head?.map Prod.fst⟩ := by
  have ha : a ∈ t.addrs := by rw [Tree.addrs_eq_map, hsplit]; simp
  obtain ⟨c, l, k1, v1, r, e⟩ := exists_plug ha
  subst e
  have hn := plug_nodes_eq c (Tree.node l a k1 v1 r)
  have hkv : k = k1 ∧ v = v1 :=
    Tree.node_unique hnd (show (a, k, v) ∈ _ by rw [hsplit]; simp)
      (show (a, k1, v1) ∈ _ by rw [hn]; simp [Tree.nodes])
  obtain ⟨rfl, rfl⟩ := hkv
  have hR : R = r.nodes ++ ctxAfter c := by
    have h2 : L ++ (a, k, v) :: R = (ctxBefore c ++ l.nodes) ++ (a, k, v) :: (r.nodes ++ ctxAfter c) := by
      rw [← hsplit, hn]; simp [Tree.nodes]
    exact (split_unique (by rw [← hsplit, ← Tree.addrs_eq_map]; exact hnd) h2).2
  have hS := Rep.of_plug (c := c) hr
  obtain ⟨⟨nd, h1, _, _, h4, _⟩, _, hrr⟩ := hS
  have hh := plug_height c (Tree.node l a k v r)
  simp only [Tree.height] at hh
  cases r with
  | nil =>
    simp only [Tree.rootPtr_nil] at h4
    have := incrClimb_plug (ε := ConstIterator) c hr hnd (Tree.rootPtr_node l a k v Tree.nil)
      (show c.length + 1 ≤ fuel by omega)
    simp [ConstIterator.incr, Mem.getNode_eq h1, h4, this, hR, Tree.nodes]
  | node rl ra rk rv rr =>
    simp only [Tree.rootPtr_node] at h4
    obtain ⟨b, kb, vb, e1, e2⟩ := leftmost_eq (ε := ConstIterator) (f := fuel) hrr
      (Tree.rootPtr_node rl ra rk rv rr) (by
        have := Nat.le_max_right l.height (Tree.node rl ra rk rv rr).height; omega)
    rw [Tree.min?_eq_head] at e1
    have hhead : R.head? = some (b, kb, vb) := by
      rw [hR, List.head?_append_of_ne_nil _ (by simp [Tree.nodes]), e1]
    simp [ConstIterator.incr, Mem.getNode_eq h1, h4, e2, hhead]

/-- The step `--` from the node `a` of a laid-out tree lands on the previous node of the
in-order sequence; from the first node it throws, and the iterator is left at the root
of the tree. -/
theorem decr_nodes {m : Mem K V} {this : Nat} {tm : TreeMap} {t : Tree K V}
    (htm : m.tree this = some tm) (hroot : tm.root = t.rootPtr)
    (hr : Rep true m.node none t) (hnd : t.addrs.Nodup)
    {L R : List (Nat × K × V)} {a : Nat} {k : K} {v : V}
    (hsplit : t.nodes = L ++ (a, k, v) :: R) {fuel : Nat} (hf : t.height ≤ fuel) :
    ConstIterator.decr m ⟨some this, some a⟩ fuel =
      match L.getLast? with
      | some q => Res.ok ⟨some this, some q.1⟩
      | none => Res.thrown OutOfRange.opDecr ⟨some this, t.rootPtr⟩ := by
  have ha : a ∈ t.addrs := by rw [Tree.addrs_eq_map, hsplit]; simp
  obtain ⟨c, l, k1, v1, r, e⟩ := exists_plug ha
  subst e
  have hn := plug_nodes_eq c (Tree.node l a k1 v1 r)
  have hkv : k = k1 ∧ v = v1 :=
    Tree.node_unique hnd (show (a, k, v) ∈ _ by rw [hsplit]; simp)
      (show (a, k1, v1) ∈ _ by rw [hn]; simp [Tree.nodes])
  obtain ⟨rfl, rfl⟩ := hkv
  have hL : L = ctxBefore c ++ l.nodes := by
    have h2 : L ++ (a, k, v) :: R = (ctxBefore c ++ l.nodes) ++ (a, k, v) :: (r.nodes ++ ctxAfter c) := by
      rw [← hsplit, hn]; simp [Tree.nodes]
    exact (split_unique (by rw [← hsplit, ← Tree.addrs_eq_map]; exact hnd) h2).1
  have hS := Rep.of_plug (c := c) hr
  obtain ⟨⟨nd, h1, _, h3, _, _⟩, hlrep, _⟩ := hS
  have hh := plug_height c (Tree.node l a k v r)
  simp only [Tree.height] at hh
  obtain ⟨x, hx⟩ : ∃ x, tm.root = some x := by
    rw [hroot]
    obtain ⟨y, hy⟩ := List.exists_mem_of_ne_nil _ (List.ne_nil_of_mem ha)
    cases hp : (plug c (Tree.node l a k v r)) with
    | nil => rw [hp] at ha; simp [Tree.addrs] at ha
    | node _ q _ _ _ => exact ⟨q, rfl⟩
  cases l with
  | nil =>
    simp only [Tree.rootPtr_nil] at h3
    have := decrClimb_plug (some this) c hr hnd (Tree.rootPtr_node Tree.nil a k v r)
      (show c.length + 1 ≤ fuel by omega)
    simp only [ConstIterator.decr, Mem.getTree_eq htm, Res.ok_bind, hx, Mem.getNode_eq h1, h3,
      this, hL, Tree.nodes, List.append_nil]
    cases (ctxBefore c).getLast? <;> rfl
  | node ll la lk lv lr =>
    simp only [Tree.rootPtr_node] at h3
    obtain ⟨b, kb, vb, e1, e2⟩ := rightmost_eq (ε := ConstIterator) (f := fuel) hlrep
      (Tree.rootPtr_node ll la lk lv lr) (by
        have := Nat.le_max_left (Tree.node ll la lk lv lr).height r.height; omega)
    rw [Tree.max?_eq_getLast] at e1
    have hlast : L.getLast? = some (b, kb, vb) := by
      rw [hL, List.getLast?_append_of_ne_nil _ (by simp [Tree.nodes]), e1]
    simp [ConstIterator.decr, Mem.getTree_eq htm, hx, Mem.getNode_eq h1, h3, e2, hlast]

/-- The step `--` from the end position of a non-empty laid-out tree lands on the last
node of the in-order sequence. -/
theorem decr_end {m : Mem K V} {this : Nat} {tm : TreeMap} {t : Tree K V}
    (htm : m.tree this = some tm) (hroot : tm.root = t.rootPtr)
    (hr : Rep true m.node none t) (hne : t ≠ Tree.nil)
    {fuel : Nat} (hf : t.height ≤ fuel) :
    ∃ b kb vb, t.nodes.getLast? = some (b, kb, vb) ∧
      ConstIterator.decr m (cend this) fuel = Res.ok ⟨some this, some b⟩ := by
  cases t with
  | nil => exact absurd rfl hne
  | node l a k v r =>
    obtain ⟨b, kb, vb, e1, e2⟩ := rightmost_eq (ε := ConstIterator) (f := fuel) hr
      (Tree.rootPtr_node l a k v r) (by omega)
    rw [Tree.max?_eq_getLast] at e1
    refine ⟨b, kb, vb, e1, ?_⟩
    simp only [Tree.rootPtr_node] at hroot
    simp [ConstIterator.decr, cend, Mem.getTree_eq htm, hroot, e2]

end IteratorNodes

/-! ## Successor and predecessor in terms of keys -/

theorem cbegin_eq {pc : Bool} {m : Mem K V} {this : Nat} {t : Tree K V}
    (hrep : MapRep pc m this t) {fuel : Nat} (hf : t.height ≤ fuel) :
    (cbegin m this fuel : Res ε ConstIterator) =
      Res.ok ⟨some this, t.nodes.head?.map Prod.fst⟩ := by
  obtain ⟨tm, htm, hroot, hr⟩ := hrep
  cases t with
  | nil =>
    simp only [Tree.rootPtr_nil] at hroot
    simp [cbegin, Mem.getTree_eq htm, hroot, minNode, Tree.nodes]
  | node l a k v r =>
    obtain ⟨b, kb, vb, e1, e2⟩ := leftmost_eq (ε := ε) (f := fuel) hr
      (Tree.rootPtr_node l a k v r) (by omega)
    rw [Tree.min?_eq_head] at e1
    simp only [Tree.rootPtr_node] at hroot
    simp [cbegin, Mem.getTree_eq htm, hroot, minNode, e2, e1]

section IteratorKeys
variable [LinearOrder K]

/-- In the in-order node sequence of a BST the keys before a node are smaller and the
keys after it are greater, and each part is increasing. -/
theorem Tree.split_keys {t : Tree K V} (hb : t.BST) {L R : List (Nat × K × V)}
    {x : Nat × K × V} (h : t.nodes = L ++ x :: R) :
    (∀ y ∈ L, y.2.1 < x.2.1) ∧ (∀ y ∈ R, x.2.1 < y.2.1) ∧
    (L.map (fun y => y.2.1)).Sorted (· < ·) ∧ (R.map (fun y => y.2.1)).Sorted (· < ·) := by
  have hs := Tree.BST.sorted hb
  rw [Tree.keys_eq_nodes_map, h] at hs
  simp only [List.map_append, List.map_cons, List.Sorted, List.pairwise_append,
    List.pairwise_cons, List.mem_map, forall_exists_index, and_imp,
    forall_apply_eq_imp_iff₂, List.mem_cons, forall_eq_or_imp] at hs
  obtain ⟨hL, ⟨hxR, hR⟩, hLR⟩ := hs
  exact ⟨fun y hy => (hLR y hy).1, hxR, hL, hR⟩

/-- C7 (successor step).  On a map whose nodes form a binary search tree with consistent
parent links, `++` on an iterator positioned at a stored node with key `k` returns
normally: the iterator is then at the end position, and `k` is the largest key, or it is
at the node whose key is the least key greater than `k`.  On the end iterator and on an
iterator that is not bound to a tree, `++` throws `std::out_of_range`. -/
theorem incr_successor {m : Mem K V} {this : Nat} {t : Tree K V}
    (hrep : MapRep true m this t) (hb : t.BST) {a : Nat} {k : K} {v : V}
    (ha : (a, k, v) ∈ t.nodes) {fuel : Nat} (hf : t.height ≤ fuel) :
    (∃ it, ConstIterator.incr m ⟨some this, some a⟩ fuel = Res.ok it ∧
      ((it = cend this ∧ ∀ x ∈ t.keys, x ≤ k) ∨
        ∃ b kb vb, it = ⟨some this, some b⟩ ∧ (b, kb, vb) ∈ t.nodes ∧ k < kb ∧
          ∀ x ∈ t.keys, k < x → kb ≤ x)) ∧
    ConstIterator.incr m (cend this) fuel = Res.thrown OutOfRange.opIncr (cend this) ∧
    (∀ n, ConstIterator.incr m ⟨none, n⟩ fuel = Res.thrown OutOfRange.opIncr ⟨none, n⟩) := by
  obtain ⟨tm, htm, hroot, hr⟩ := hrep
  have hnd := hr.nodup_addrs hb
  obtain ⟨L, R, hsplit⟩ := List.append_of_mem ha
  obtain ⟨hL, hR, _, hRs⟩ := Tree.split_keys hb hsplit
  have hkeys : ∀ x ∈ t.keys, (∃ y ∈ L, y.2.1 = x) ∨ x = k ∨ ∃ y ∈ R, y.2.1 = x := by
    intro x hx
    rw [Tree.keys_eq_nodes_map, hsplit] at hx
    simp only [List.map_append, List.map_cons, List.mem_append, List.mem_map, List.mem_cons]
      at hx
    rcases hx with ⟨y, hy, e⟩ | e | ⟨y, hy, e⟩
    · exact Or.inl ⟨y, hy, e⟩
    · exact Or.inr (Or.inl e)
    · exact Or.inr (Or.inr ⟨y, hy, e⟩)
  refine ⟨⟨_, incr_nodes this hr hnd hsplit hf, ?_⟩, rfl, fun n => ?_⟩
  · cases R with
    | nil =>
      left
      refine ⟨rfl, fun x hx => ?_⟩
      rcases hkeys x hx with ⟨y, hy, rfl⟩ | rfl | ⟨y, hy, _⟩
      · exact le_of_lt (hL y hy)
      · exact le_refl _
      · simp at hy
    | cons y R' =>
      right
      obtain ⟨b, kb, vb⟩ := y
      refine ⟨b, kb, vb, rfl, by rw [hsplit]; simp, hR _ (List.mem_cons_self _ _), ?_⟩
      intro x hx hkx
      rcases hkeys x hx with ⟨z, hz, rfl⟩ | rfl | ⟨z, hz, rfl⟩
      · exact absurd (hL z hz) (not_lt_of_gt hkx)
      · exact absurd hkx (lt_irrefl _)
      · rcases List.mem_cons.1 hz with rfl | hz'
        · exact le_refl _
        · simp only [List.map_cons, List.Sorted, List.pairwise_cons, List.mem_map,
            forall_exists_index, and_imp, forall_apply_eq_imp_iff₂] at hRs
          exact le_of_lt (hRs.1 z hz')
  · cases n <;> rfl

/-- Witness of C7 on the scenario map: from the node of key 4 (address 4) the step goes
to the node of key 5. -/
theorem incr_successor_witness :
    (∃ it, ConstIterator.incr exampleMem ⟨some 0, some 4⟩ 3 = Res.ok it ∧
      ((it = cend 0 ∧ ∀ x ∈ exampleTree.keys, x ≤ 4) ∨
        ∃ b kb vb, it = ⟨some 0, some b⟩ ∧ (b, kb, vb) ∈ exampleTree.nodes ∧ 4 < kb ∧
          ∀ x ∈ exampleTree.keys, 4 < x → kb ≤ x)) ∧
    ConstIterator.incr exampleMem (cend 0) 3 = Res.thrown OutOfRange.opIncr (cend 0) ∧
    (∀ n, ConstIterator.incr exampleMem ⟨none, n⟩ 3 =
      Res.thrown OutOfRange.opIncr ⟨none, n⟩) :=
  incr_successor (exampleMem_mapRep true) exampleTree_BST (v := 40)
    (by simp [exampleTree, Tree.nodes]) (by decide)

/-- C8 (predecessor step and end round trip).  On a non-empty map whose nodes form a
binary search tree with consistent parent links, `--` on `end()` moves to the node
holding the largest key; `--` on an iterator at a node whose key `k` is not the smallest
moves to the node holding the greatest key smaller than `k`; and one step back from
`end()` followed by one step forward is `end()` again. -/
theorem decr_predecessor {m : Mem K V} {this : Nat} {t : Tree K V}
    (hrep : MapRep true m this t) (hb : t.BST) (hne : t ≠ Tree.nil) {fuel : Nat}
    (hf : t.height ≤ fuel) :
    (∃ b kb vb, ConstIterator.decr m (cend this) fuel = Res.ok ⟨some this, some b⟩ ∧
      (b, kb, vb) ∈ t.nodes ∧ ∀ x ∈ t.keys, x ≤ kb) ∧
    (∀ a k v, (a, k, v) ∈ t.nodes → (∃ x ∈ t.keys, x < k) →
      ∃ b kb vb, ConstIterator.decr m ⟨some this, some a⟩ fuel = Res.ok ⟨some this, some b⟩ ∧
        (b, kb, vb) ∈ t.nodes ∧ kb < k ∧ ∀ x ∈ t.keys, x < k → x ≤ kb) ∧
    (∃ it, ConstIterator.decr m (cend this) fuel = Res.ok it ∧
      ConstIterator.incr m it fuel = Res.ok (cend this)) := by
  obtain ⟨tm, htm, hroot, hr⟩ := hrep
  have hnd := hr.nodup_addrs hb
  obtain ⟨b, kb, vb, hlast, hdecr⟩ := decr_end htm hroot hr hne hf
  obtain ⟨L0, hL0⟩ : ∃ L0, t.nodes = L0 ++ [(b, kb, vb)] :=
    List.getLast?_eq_some_iff.1 hlast
  obtain ⟨hLb, _, _, _⟩ := Tree.split_keys hb hL0
  have hmax : ∀ x ∈ t.keys, x ≤ kb := by
    intro x hx
    rw [Tree.keys_eq_nodes_map, hL0] at hx
    simp only [List.map_append, List.map_cons, List.map_nil, List.mem_append, List.mem_map,
      List.mem_singleton] at hx
    rcases hx with ⟨y, hy, rfl⟩ | rfl
    · exact le_of_lt (hLb y hy)
    · exact le_refl _
  refine ⟨⟨b, kb, vb, hdecr, by rw [hL0]; simp, hmax⟩, ?_, ?_⟩
  · intro a k v ha ⟨x, hx, hxk⟩
    obtain ⟨L, R, hsplit⟩ := List.append_of_mem ha
    obtain ⟨hL, hR, hLs, _⟩ := Tree.split_keys hb hsplit
    have hkeys : ∀ x ∈ t.keys, (∃ y ∈ L, y.2.1 = x) ∨ x = k ∨ ∃ y ∈ R, y.2.1 = x := by
      intro x hx
      rw [Tree.keys_eq_nodes_map, hsplit] at hx
      simp only [List.map_append, List.map_cons, List.mem_append, List.mem_map, List.mem_cons]
        at hx
      rcases hx with ⟨y, hy, e⟩ | e | ⟨y, hy, e⟩
      · exact Or.inl ⟨y, hy, e⟩
      · exact Or.inr (Or.inl e)
      · exact Or.inr (Or.inr ⟨y, hy, e⟩)
    have hLne : L ≠ [] := by
      rintro rfl
      rcases hkeys x hx with ⟨y, hy, _⟩ | rfl | ⟨y, hy, rfl⟩
      · simp at hy
      · exact lt_irrefl _ hxk
      · exact lt_irrefl _ (lt_trans (hR y hy) hxk)
    have hd := decr_nodes htm hroot hr hnd hsplit hf
    obtain ⟨⟨p, kp, vp⟩, hp⟩ : ∃ q, L.getLast? = some q :=
      ⟨L.getLast hLne, List.getLast?_eq_getLast _ hLne⟩
    obtain ⟨L1, hLsplit⟩ := List.getLast?_eq_some_iff.1 hp
    rw [hp] at hd
    refine ⟨p, kp, vp, hd, ?_, hL (p, kp, vp) (by rw [hLsplit]; simp), ?_⟩
    · rw [hsplit, hLsplit]; simp
    · intro y hy hyk
      rcases hkeys y hy with ⟨z, hz, rfl⟩ | rfl | ⟨z, hz, rfl⟩
      · rw [hLsplit] at hz hLs
        simp only [List.map_append, List.map_cons, List.map_nil, List.Sorted,
          List.pairwise_append, List.mem_map, List.mem_singleton, forall_exists_index,
          and_imp, forall_apply_eq_imp_iff₂, forall_eq] at hLs
        rcases List.mem_append.1 hz with hz' | hz'
        · exact le_of_lt (hLs.2.2 z hz')
        · simp only [List.mem_singleton] at hz'
          rw [hz']
      · exact absurd hyk (lt_irrefl _)
      · exact absurd (lt_trans (hR z hz) hyk) (lt_irrefl _)
  · refine ⟨_, hdecr, ?_⟩
    have hstep := incr_nodes this hr hnd (L := L0) (R := []) (by simpa using hL0) hf
    simpa [cend] using hstep

/-- Witness of C8 on the scenario map. -/
theorem decr_predecessor_witness :
    (∃ b kb vb, ConstIterator.decr exampleMem (cend 0) 3 = Res.ok ⟨some 0, some b⟩ ∧
      (b, kb, vb) ∈ exampleTree.nodes ∧ ∀ x ∈ exampleTree.keys, x ≤ kb) ∧
    (∀ a k v, (a, k, v) ∈ exampleTree.nodes → (∃ x ∈ exampleTree.keys, x < k) →
      ∃ b kb vb, ConstIterator.decr exampleMem ⟨some 0, some a⟩ 3 =
          Res.ok ⟨some 0, some b⟩ ∧
        (b, kb, vb) ∈ exampleTree.nodes ∧ kb < k ∧ ∀ x ∈ exampleTree.keys, x < k → x ≤ kb) ∧
    (∃ it, ConstIterator.decr exampleMem (cend 0) 3 = Res.ok it ∧
      ConstIterator.incr exampleMem it 3 = Res.ok (cend 0)) :=
  decr_predecessor (exampleMem_mapRep true) exampleTree_BST (by simp [exampleTree])
    (by decide)

/-- C9 (failure condition of the backward step).  On a map whose nodes form a binary
search tree with consistent parent links, for an iterator that is unbound, at `end()` of
this map or at a stored node of it, `--` throws `std::out_of_range` if and only if the
iterator is unbound, or the map is empty, or the iterator is `begin()`; in every other
case it returns normally.  `begin()` is the end position of an empty map and otherwise
the node with the smallest key. -/
theorem decr_throws_iff {m : Mem K V} {this : Nat} {t : Tree K V}
    (hrep : MapRep true m this t) (hb : t.BST) (it : ConstIterator)
    (hit : it.tree = none ∨ it = cend this ∨ ∃ a ∈ t.addrs, it = ⟨some this, some a⟩)
    {fuel : Nat} (hf : t.height ≤ fuel) :
    ((∃ s, it.decr m fuel = Res.thrown OutOfRange.opDecr s) ↔
      (it.tree = none ∨ t = Tree.nil ∨
        (cbegin m this fuel : Res Unit ConstIterator) = Res.ok it)) ∧
    ((∃ s, it.decr m fuel = Res.thrown OutOfRange.opDecr s) ∨
      ∃ it', it.decr m fuel = Res.ok it') ∧
    ((cbegin m this fuel : Res Unit ConstIterator) = Res.ok it ↔
      ((t = Tree.nil ∧ it = cend this) ∨
        ∃ a k v, it = ⟨some this, some a⟩ ∧ (a, k, v) ∈ t.nodes ∧ ∀ x ∈ t.keys, k ≤ x)) := by
  have hbegin := cbegin_eq (ε := Unit) hrep hf
  obtain ⟨tm, htm, hroot, hr⟩ := hrep
  have hnd := hr.nodup_addrs hb
  -- the position of `begin()`
  have hthird : (cbegin m this fuel : Res Unit ConstIterator) = Res.ok it ↔
      ((t = Tree.nil ∧ it = cend this) ∨
        ∃ a k v, it = ⟨some this, some a⟩ ∧ (a, k, v) ∈ t.nodes ∧ ∀ x ∈ t.keys, k ≤ x) := by
    rw [hbegin]
    cases hn : t.nodes with
    | nil =>
      have ht : t = Tree.nil := by
        cases t with
        | nil => rfl
        | node l a k v r => simp [Tree.nodes] at hn
      simp only [List.head?_nil, Option.map_none', Res.ok.injEq]
      constructor
      · intro e; exact Or.inl ⟨ht, e.symm⟩
      · rintro (⟨_, e⟩ | ⟨a, k, v, _, hmem, _⟩)
        · exact e.symm
        · simp at hmem
    | cons y R =>
      obtain ⟨a, k, v⟩ := y
      have hsplit : t.nodes = [] ++ (a, k, v) :: R := by simpa using hn
      obtain ⟨_, hR, _, _⟩ := Tree.split_keys hb hsplit
      have hmin : ∀ x ∈ t.keys, k ≤ x := by
        intro x hx
        rw [Tree.keys_eq_nodes_map, hn] at hx
        simp only [List.map_cons, List.mem_cons, List.mem_map] at hx
        rcases hx with rfl | ⟨z, hz, rfl⟩
        · exact le_refl _
        · exact le_of_lt (hR z hz)
      simp only [List.head?_cons, Option.map_some', Res.ok.injEq]
      constructor
      · intro e
        exact Or.inr ⟨a, k, v, e.symm, by simp, hmin⟩
      · rintro (⟨ht, _⟩ | ⟨a1, k1, v1, e, hmem, hmin1⟩)
        · rw [ht] at hn; simp [Tree.nodes] at hn
        · have hk1 : k1 ∈ t.keys := Tree.mem_keys_of_mem_nodes (a := a1) (v := v1)
            (by rw [hn]; exact hmem)
          have hk : k ∈ t.keys := Tree.mem_keys_of_mem_nodes (a := a) (v := v)
            (by rw [hn]; simp)
          have hkk : k1 = k := le_antisymm (hmin1 k hk) (hmin k1 hk1)
          subst hkk
          rcases List.mem_cons.1 hmem with h1 | h1
          · simp only [Prod.mk.injEq] at h1
            rw [e, h1.1]
          · exact absurd (hR _ h1) (lt_irrefl _)
  refine ⟨?_, ?_, hthird⟩
  · rcases hit with h | rfl | ⟨a, ha, rfl⟩
    · have : it.decr m fuel = Res.thrown OutOfRange.opDecr it := by
        simp [ConstIterator.decr, h]
      exact ⟨fun _ => Or.inl h, fun _ => ⟨it, this⟩⟩
    · by_cases ht : t = Tree.nil
      · subst ht
        simp only [Tree.rootPtr_nil] at hroot
        have : (cend this).decr m fuel = Res.thrown OutOfRange.opDecr (cend this) := by
          simp [ConstIterator.decr, cend, Mem.getTree_eq htm, hroot]
        exact ⟨fun _ => Or.inr (Or.inl rfl), fun _ => ⟨_, this⟩⟩
      · obtain ⟨b, kb, vb, hlast, hdecr⟩ := decr_end htm hroot hr ht hf
        rw [hdecr]
        constructor
        · rintro ⟨s, hs⟩; cases hs
        · rintro (h | h | h)
          · simp [cend] at h
          · exact absurd h ht
          · rw [hthird] at h
            rcases h with ⟨h1, _⟩ | ⟨a, k, v, h1, _⟩
            · exact absurd h1 ht
            · simp [cend] at h1
    · obtain ⟨k, v, hmem⟩ := Tree.mem_addrs_iff.1 ha
      obtain ⟨L, R, hsplit⟩ := List.append_of_mem hmem
      have hd := decr_nodes htm hroot hr hnd hsplit hf
      have htne : t ≠ Tree.nil := by
        rintro rfl; simp [Tree.addrs] at ha
      rw [hbegin, hd]
      cases L with
      | nil =>
        simp only [List.getLast?_nil]
        refine ⟨fun _ => Or.inr (Or.inr ?_), fun _ => ⟨_, rfl⟩⟩
        rw [hsplit]; rfl
      | cons y L1 =>
        obtain ⟨q, hq⟩ : ∃ q, (y :: L1).getLast? = some q :=
          ⟨_, List.getLast?_eq_getLast _ (by simp)⟩
        rw [hq]
        constructor
        · rintro ⟨s, hs⟩; cases hs
        · rintro (h | h | h)
          · simp at h
          · exact absurd h htne
          · exfalso
            rw [hsplit] at h
            simp only [List.cons_append, List.head?_cons, Option.map_some', Res.ok.injEq,
              ConstIterator.mk.injEq, true_and, Option.some.injEq] at h
            rw [Tree.addrs_eq_map, hsplit] at hnd
            simp only [List.cons_append, List.map_cons, List.map_append, List.nodup_cons,
              List.mem_append, List.mem_map, List.mem_cons, not_or] at hnd
            exact hnd.1.2.1 h
  · rcases hit with h | rfl | ⟨a, ha, rfl⟩
    · left; exact ⟨it, by simp [ConstIterator.decr, h]⟩
    · by_cases ht : t = Tree.nil
      · subst ht
        simp only [Tree.rootPtr_nil] at hroot
        left
        exact ⟨cend this, by simp [ConstIterator.decr, cend, Mem.getTree_eq htm, hroot]⟩
      · obtain ⟨b, kb, vb, _, hdecr⟩ := decr_end htm hroot hr ht hf
        right; exact ⟨_, hdecr⟩
    · obtain ⟨k, v, hmem⟩ := Tree.mem_addrs_iff.1 ha
      obtain ⟨L, R, hsplit⟩ := List.append_of_mem hmem
      have hd := decr_nodes htm hroot hr hnd hsplit hf
      rw [hd]
      cases L.getLast? with
      | none => left; exact ⟨_, rfl⟩
      | some q => right; exact ⟨_, rfl⟩

/-- Witness of C9 on the scenario map, for the iterator at the node of key 1. -/
theorem decr_throws_iff_witness :
    ((∃ s, ConstIterator.decr exampleMem ⟨some 0, some 3⟩ 3 =
        Res.thrown OutOfRange.opDecr s) ↔
      ((⟨some 0, some 3⟩ : ConstIterator).tree = none ∨ exampleTree = Tree.nil ∨
        (cbegin exampleMem 0 3 : Res Unit ConstIterator) = Res.ok ⟨some 0, some 3⟩)) ∧
    ((∃ s, ConstIterator.decr exampleMem ⟨some 0, some 3⟩ 3 =
        Res.thrown OutOfRange.opDecr s) ∨
      ∃ it', ConstIterator.decr exampleMem ⟨some 0, some 3⟩ 3 = Res.ok it') ∧
    ((cbegin exampleMem 0 3 : Res Unit ConstIterator) = Res.ok ⟨some 0, some 3⟩ ↔
      ((exampleTree = Tree.nil ∧ (⟨some 0, some 3⟩ : ConstIterator) = cend 0) ∨
        ∃ a k v, (⟨some 0, some 3⟩ : ConstIterator) = ⟨some 0, some a⟩ ∧
          (a, k, v) ∈ exampleTree.nodes ∧ ∀ x ∈ exampleTree.keys, k ≤ x)) :=
  decr_throws_iff (exampleMem_mapRep true) exampleTree_BST ⟨some 0, some 3⟩
    (Or.inr (Or.inr ⟨3, by simp [exampleTree, Tree.addrs], rfl⟩)) (by decide)

/-- C6, the behaviour of the code on the scenario map: `begin()` is the node of key 1 at
address 3; `--` on it throws `std::out_of_range`, and the iterator is left at the root
(address 0, key 5) instead of the node of key 1, because the climbing loop of
`operator--` assigns to the member `node` before it throws. -/
theorem decr_begin_moves_iterator :
    (cbegin exampleMem 0 3 : Res ConstIterator ConstIterator) = Res.ok ⟨some 0, some 3⟩ ∧
    ConstIterator.deref exampleMem ⟨some 0, some 3⟩ = Res.ok (1, 10) ∧
    ConstIterator.decr exampleMem ⟨some 0, some 3⟩ 3 =
      Res.thrown OutOfRange.opDecr ⟨some 0, some 0⟩ ∧
    ConstIterator.deref exampleMem ⟨some 0, some 0⟩ = Res.ok (5, 50) := by
  decide

end IteratorKeys

/-! ## The invariant of the whole memory -/

section Global
variable [LinearOrder K]

theorem Tree.ins_size {t : Tree K V} (hb : t.BST) (p : Nat) (key : K) (v : V) :
    (t.ins p key v).size = if key ∈ t.keys then t.size else t.size + 1 := by
  by_cases hk : key ∈ t.keys
  · rw [Tree.ins_of_mem hb hk, if_pos hk]
  · obtain ⟨l1, l2, h1, h2, _⟩ := Tree.ins_nodes hb hk p v
    rw [if_neg hk, Tree.size_eq_length_nodes, Tree.size_eq_length_nodes, h1, h2]
    simp
    omega

/-- The nodes of the trees of the invariant are live cells below the allocator's next
address. -/
theorem GInvW.live {m : Mem K V} {T : Nat → Tree K V} (hg : GInvW m T) {j x : Nat}
    (hx : x ∈ (T j).addrs) : m.node x ≠ none ∧ x < m.next := by
  obtain ⟨h1, _, h3, h4⟩ := hg
  cases htj : m.tree j with
  | none => rw [h3 j htj] at hx; simp [Tree.addrs] at hx
  | some tm =>
    have hlive := (h1 j tm htj).2.1.mem_addrs_live hx
    refine ⟨hlive, ?_⟩
    by_contra hlt
    exact hlive (h4 x (not_lt.1 hlt))

/-- A change of one map, which touches only its own nodes and fresh cells, keeps the
invariant of the whole memory. -/
theorem GInvW.update {m m' : Mem K V} {T : Nat → Tree K V} (hg : GInvW m T)
    {this : Nat} {tm' : TreeMap} {t' : Tree K V}
    (htm' : m'.tree this = some tm') (hroot : tm'.root = t'.rootPtr)
    (hrep : Rep true m'.node none t') (hb : t'.BST) (hcount : tm'.count = t'.size)
    (hothers : ∀ j, j ≠ this → m'.tree j = m.tree j)
    (haddrs : ∀ x ∈ t'.addrs, x ∈ (T this).addrs ∨ m.next ≤ x)
    (hframe : ∀ x, x ∉ (T this).addrs → x < m.next → m'.node x = m.node x)
    (hnext : ∀ a, m'.next ≤ a → m'.node a = none) :
    GInvW m' (Function.update T this t') := by
  have hg0 := hg
  obtain ⟨h1, h2, h3, h4⟩ := hg
  refine ⟨?_, ?_, ?_, hnext⟩
  · intro i tm hi
    by_cases hit : i = this
    · subst hit
      rw [htm'] at hi
      cases hi
      simp only [Function.update_same]
      exact ⟨hroot, hrep, hb, hcount⟩
    · rw [hothers i hit] at hi
      obtain ⟨e1, e2, e3, e4⟩ := h1 i tm hi
      simp only [Function.update_noteq hit]
      refine ⟨e1, Rep.congr ?_ e2, e3, e4⟩
      intro x hx
      exact hframe x (h2 i this hit x hx) (hg0.live hx).2
  · intro i j hij x hx
    by_cases hit : i = this
    · subst hit
      have hj : j ≠ i := Ne.symm hij
      simp only [Function.update_same] at hx
      simp only [Function.update_noteq hj]
      rcases haddrs x hx with h | h
      · exact h2 i j hij x h
      · intro hxj
        exact absurd (hg0.live hxj).2 (not_lt.2 h)
    · simp only [Function.update_noteq hit] at hx
      by_cases hjt : j = this
      · subst hjt
        simp only [Function.update_same]
        intro hxj
        rcases haddrs x hxj with h | h
        · exact h2 i j hij x hx h
        · exact absurd (hg0.live hx).2 (not_lt.2 h)
      · simp only [Function.update_noteq hjt]
        exact h2 i j hij x hx
  · intro i hi
    by_cases hit : i = this
    · subst hit; rw [htm'] at hi; cases hi
    · rw [hothers i hit] at hi
      simp only [Function.update_noteq hit]
      exact h3 i hi

theorem GInvW.empty : GInvW (Mem.empty : Mem K V) (fun _ => Tree.nil) := by
  refine ⟨?_, ?_, ?_, ?_⟩
  · intro i tm h; simp [Mem.empty] at h
  · intro i j _ x hx; simp [Tree.addrs] at hx
  · intro i _; rfl
  · intro a _; rfl

/-- The default constructor at an unused object address keeps the invariant. -/
theorem GInvW.ctor {m : Mem K V} {T : Nat → Tree K V} (hg : GInvW m T) {this : Nat}
    (hnew : m.tree this = none) : GInvW (ctor m this) T := by
  have hT : T this = Tree.nil := hg.2.2.1 this hnew
  have hu := GInvW.update hg
    (show (Aisdi.ctor m this).tree this = some ⟨none, 0⟩ by simp [Aisdi.ctor])
    (show (⟨none, 0⟩ : TreeMap).root = (Tree.nil : Tree K V).rootPtr from rfl)
    trivial trivial rfl
    (fun j hj => by simp [Aisdi.ctor, hj]) (fun x hx => by simp [Tree.addrs] at hx)
    (fun x _ _ => rfl) (fun a ha => hg.2.2.2 a ha)
  rw [← hT, Function.update_eq_self] at hu
  exact hu

/-- The expression `insert(new Node(key, v))` keeps the invariant; the tree of the map
gets the new leaf. -/
theorem GInvW.insertNew {m : Mem K V} {T : Nat → Tree K V} (hg : GInvW m T) {this : Nat}
    {tm : TreeMap} (htm : m.tree this = some tm) (key : K) (v : V) {fuel : Nat}
    (hf : (T this).height < fuel) :
    ∃ m', (insertNew m this key v fuel : Res ε (Mem K V)) = Res.ok m' ∧
      GInvW m' (Function.update T this ((T this).ins m.next key v)) ∧
      m'.next = m.next + 1 ∧
      (∀ x, x ∉ (T this).addrs → x ≠ m.next → m'.node x = m.node x) ∧
      (∃ tm1, m'.tree this = some tm1) := by
  obtain ⟨e1, e2, e3, e4⟩ := hg.1 this tm htm
  obtain ⟨m', d1, d2, d3, d4, d5, d6, _⟩ :=
    insertNew_spec (ε := ε) htm e1 e2 e3 (hg.2.2.2 _ (le_refl _)) key v hf
  refine ⟨m', d1, ?_, d4, d5, ⟨_, d2⟩⟩
  refine GInvW.update hg d2 rfl d6 (Tree.ins_BST e3 _ _ _) ?_ d3 ?_ ?_ ?_
  · rw [Tree.ins_size e3, e4]
  · intro x hx
    rcases Tree.ins_addrs_subset _ _ _ _ x hx with rfl | h
    · exact Or.inr (le_refl _)
    · exact Or.inl h
  · intro x hx hlt
    exact d5 x hx (Nat.ne_of_lt hlt)
  · intro a ha
    rw [d4] at ha
    have hlt : m.next < a := ha
    rw [d5 a (fun h => absurd (hg.live h).2 (by omega)) (Nat.ne_of_gt hlt)]
    exact hg.2.2.2 a (Nat.le_of_lt hlt)

end Global

section GlobalOps
variable [LinearOrder K]

theorem Returns.exists_ge {α : Type} {run : Nat → Res ε α} {r : Res ε α} (h : Returns run r)
    (bound : Nat) : ∃ f, bound ≤ f ∧ run f = r := by
  obtain ⟨f0, hf0⟩ := h
  exact ⟨max f0 bound, le_max_right _ _, hf0 _ (le_max_left _ _)⟩

theorem Returns.of_forall_ge {α : Type} {run : Nat → Res ε α} {r : Res ε α} (bound : Nat)
    (h : ∀ f, bound ≤ f → run f = r) : Returns run r := ⟨bound, h⟩

theorem Tree.ins_keys_iff {t : Tree K V} (hb : t.BST) (p : Nat) (key : K) (v : V) (x : K) :
    x ∈ (t.ins p key v).keys ↔ x = key ∨ x ∈ t.keys := by
  by_cases hk : key ∈ t.keys
  · rw [Tree.ins_of_mem hb hk]
    constructor
    · exact Or.inr
    · rintro (rfl | h)
      · exact hk
      · exact h
  · obtain ⟨l1, l2, h1, h2, _⟩ := Tree.ins_nodes hb hk p v
    rw [Tree.keys_eq_nodes_map, Tree.keys_eq_nodes_map, h1, h2]
    simp only [List.map_append, List.map_cons, List.mem_append, List.mem_cons]
    constructor
    · rintro (h | h | h)
      · exact Or.inr (Or.inl h)
      · exact Or.inl h
      · exact Or.inr (Or.inr h)
    · rintro (h | h | h)
      · exact Or.inr (Or.inl h)
      · exact Or.inl h
      · exact Or.inr (Or.inr h)

/-- The loop of the initializer-list constructor keeps the invariant; the keys of the map
are then its former keys and the keys of the list. -/
theorem GInvW.ctorListLoop (this : Nat) (list : List (K × V)) :
    ∀ {m : Mem K V} {T : Nat → Tree K V} {tm : TreeMap} {fuel : Nat}, GInvW m T →
      m.tree this = some tm → (T this).height + list.length < fuel →
      ∃ m' t', (ctorListLoop this fuel m list : Res ε (Mem K V)) = Res.ok m' ∧
        GInvW m' (Function.update T this t') ∧
        (∀ x, x ∈ t'.keys ↔ x ∈ (T this).keys ∨ x ∈ list.map Prod.fst) := by
  induction list with
  | nil =>
    intro m T tm fuel hg htm hf
    exact ⟨m, T this, rfl, by rw [Function.update_eq_self]; exact hg, by simp⟩
  | cons x rest ih =>
    intro m T tm fuel hg htm hf
    simp only [List.length_cons] at hf
    obtain ⟨m1, e1, e2, _, _, ⟨tm1, htm1⟩⟩ := GInvW.insertNew (ε := ε) hg htm x.1 x.2
      (show (T this).height < fuel by omega)
    have hh : ((Function.update T this ((T this).ins m.next x.1 x.2)) this).height
        + rest.length < fuel := by
      simp only [Function.update_same]
      have hle := Tree.ins_height_le (T this) m.next x.1 x.2
      omega
    obtain ⟨m', t', d1, d2, d3⟩ := ih e2 htm1 hh
    refine ⟨m', t', ?_, ?_, ?_⟩
    · simp only [Aisdi.ctorListLoop, e1, Res.ok_bind, d1]
    · simpa using d2
    · intro y
      rw [d3 y]
      simp only [Function.update_same, List.map_cons, List.mem_cons]
      rw [Tree.ins_keys_iff (hg.1 this tm htm).2.2.1]
      tauto

/-- The initializer-list constructor at an unused object address keeps the invariant. -/
theorem GInvW.ctorList {m : Mem K V} {T : Nat → Tree K V} (hg : GInvW m T) {this : Nat}
    (hnew : m.tree this = none) (list : List (K × V)) {fuel : Nat} (hf : list.length < fuel) :
    ∃ m' t', (ctorList m this list fuel : Res ε (Mem K V)) = Res.ok m' ∧
      GInvW m' (Function.update T this t') ∧
      (∀ x, x ∈ t'.keys ↔ x ∈ list.map Prod.fst) := by
  have hT : T this = Tree.nil := hg.2.2.1 this hnew
  obtain ⟨m', t', e1, e2, e3⟩ := GInvW.ctorListLoop (ε := ε) this list
    (GInvW.ctor hg hnew)
    (show (Aisdi.ctor m this).tree this = some ⟨none, 0⟩ by simp [Aisdi.ctor])
    (show (T this).height + list.length < fuel by rw [hT]; simpa [Tree.height] using hf)
  refine ⟨m', t', e1, e2, fun x => ?_⟩
  rw [e3 x, hT]
  simp [Tree.keys]

/-- The function `operator[]` keeps the invariant: a stored key leaves the memory as it
is, an absent key is inserted with the default value. -/
theorem GInvW.opIndex [Inhabited V] {m : Mem K V} {T : Nat → Tree K V} (hg : GInvW m T)
    {this : Nat} {tm : TreeMap} (htm : m.tree this = some tm) (key : K) {fuel : Nat}
    (hf : (T this).height < fuel) :
    ∃ m' a, opIndex m this key fuel = Res.ok (m', a) ∧
      ((key ∈ (T this).keys ∧ m' = m ∧ (T this).findAddr key = some a) ∨
        (key ∉ (T this).keys ∧ a = m.next ∧
          GInvW m' (Function.update T this ((T this).ins m.next key default)))) := by
  obtain ⟨e1, e2, e3, e4⟩ := hg.1 this tm htm
  have hfind : (findNode m this key fuel : Res (Mem K V) (Option Nat)) =
      Res.ok ((T this).findAddr key) := by
    simp [findNode, Mem.getTree_eq htm, e1, findNodeLoop_eq e2 key (Nat.le_of_lt hf)]
  cases hfa : (T this).findAddr key with
  | some a =>
    have hk : key ∈ (T this).keys := by
      by_contra hk
      rw [(Tree.findAddr_eq_none e3).2 hk] at hfa
      cases hfa
    exact ⟨m, a, by simp [Aisdi.opIndex, hfind, hfa], Or.inl ⟨hk, rfl, rfl⟩⟩
  | none =>
    have hk : key ∉ (T this).keys := (Tree.findAddr_eq_none e3).1 hfa
    obtain ⟨m', d1, d2, _, _, _⟩ := GInvW.insertNew (ε := Mem K V) hg htm key default hf
    refine ⟨m', m.next, ?_, Or.inr ⟨hk, rfl, d2⟩⟩
    simp only [Aisdi.opIndex, hfind, hfa, Res.ok_bind]
    simp only [Aisdi.insertNew] at d1
    rw [d1]
    rfl

/-- Removal by an iterator positioned at a stored node keeps the invariant. -/
theorem GInvW.removeIt {m : Mem K V} {T : Nat → Tree K V} (hg : GInvW m T)
    {this : Nat} {tm : TreeMap} (htm : m.tree this = some tm) {a : Nat} {k : K} {v : V}
    (ha : (a, k, v) ∈ (T this).nodes) {fuel : Nat} (hf : (T this).height ≤ fuel) :
    ∃ m' t', removeIt m this ⟨some this, some a⟩ fuel = Res.ok m' ∧
      GInvW m' (Function.update T this t') ∧
      (∃ L R, (T this).nodes = L ++ (a, k, v) :: R ∧ t'.nodes = L ++ R) := by
  obtain ⟨e1, e2, e3, e4⟩ := hg.1 this tm htm
  have hpos : tm.count ≠ 0 := by
    rw [e4, Tree.size_eq_length_nodes]
    intro h0
    rw [List.length_eq_zero.1 h0] at ha
    simp at ha
  obtain ⟨m', t', d1, d2, d3, d4, d5, d6, d7, ⟨L, R, hn1, hn2⟩, _⟩ :=
    removeIt_spec htm e1 e2 e3 hpos ha hf
  obtain ⟨hb', _, hsz⟩ := Tree.facts_of_nodes_split e3 hn1 hn2
  refine ⟨m', t', d1, ?_, ⟨L, R, hn1, hn2⟩⟩
  refine GInvW.update hg d5 rfl d4 hb' ?_ d6 ?_ ?_ ?_
  · show tm.count - 1 = t'.size
    rw [e4]; omega
  · intro x hx
    left
    rw [Tree.addrs_eq_map, hn2] at hx
    rw [Tree.addrs_eq_map, hn1]
    simp only [List.map_append, List.mem_append, List.map_cons, List.mem_cons] at hx ⊢
    tauto
  · intro x hx _
    exact d7 x hx
  · intro x hx
    rw [d2] at hx
    rw [d7 x (fun h => absurd (hg.live h).2 (by omega))]
    exact hg.2.2.2 x hx

/-- Removal by key returns normally only for a stored key, and keeps the invariant. -/
theorem GInvW.removeKey {m m' : Mem K V} {T : Nat → Tree K V} (hg : GInvW m T)
    {this : Nat} {key : K} {fuel : Nat} (hf : (T this).height ≤ fuel)
    (hrun : removeKey m this key fuel = Res.ok m') :
    ∃ t' a v, GInvW m' (Function.update T this t') ∧
      (∃ L R, (T this).nodes = L ++ (a, key, v) :: R ∧ t'.nodes = L ++ R) := by
  cases htm : m.tree this with
  | none => simp [Aisdi.removeKey, find, findNode, Mem.getTree, htm] at hrun
  | some tm =>
    obtain ⟨e1, e2, e3, e4⟩ := hg.1 this tm htm
    have hfind := find_eq (ε := Mem K V) ⟨tm, htm, e1, e2⟩ key hf
    cases hfa : (T this).findAddr key with
    | none =>
      simp [Aisdi.removeKey, hfind, hfa, Aisdi.removeIt, cend] at hrun
    | some a =>
      obtain ⟨v, ha⟩ := (Tree.findAddr_eq_some e3).1 hfa
      obtain ⟨m1, t', d1, d2, d3⟩ := GInvW.removeIt hg htm ha hf
      simp only [Aisdi.removeKey, hfind, hfa, Res.ok_bind, d1, Res.ok.injEq] at hrun
      subst hrun
      exact ⟨t', a, v, d2, d3⟩

end GlobalOps

/-! ## Destruction and assignment -/

section Assignment

/-- The statement `delete p` for the root of a laid-out tree releases exactly the cells
of the tree. -/
theorem Mem.delete_tree {pc : Bool} {t : Tree K V} :
    ∀ {m : Mem K V} {par : Option Nat} {fuel : Nat}, Rep pc m.node par t → t.addrs.Nodup →
      t.height ≤ fuel →
      ∃ m', (Mem.delete fuel m t.rootPtr : Res ε (Mem K V)) = Res.ok m' ∧
        m'.tree = m.tree ∧ m'.next = m.next ∧
        (∀ x, x ∈ t.addrs → m'.node x = none) ∧
        (∀ x, x ∉ t.addrs → m'.node x = m.node x) := by
  induction t with
  | nil =>
    intro m par fuel _ _ _
    exact ⟨m, by cases fuel <;> rfl, rfl, rfl, fun x hx => by simp [Tree.addrs] at hx,
      fun x _ => rfl⟩
  | node l a k v r ihl ihr =>
    intro m par fuel hr hnd hf
    obtain ⟨⟨nd, h1, h2, h3, h4, h5⟩, hl, hrr⟩ := hr
    simp only [Tree.addrs, List.nodup_append, List.nodup_cons] at hnd
    obtain ⟨hndl, ⟨har, hndr⟩, hdisj⟩ := hnd
    have hal : a ∉ l.addrs := fun hh => hdisj hh (List.mem_cons_self _ _)
    simp only [Tree.height] at hf
    obtain ⟨f, rfl⟩ : ∃ g, fuel = g + 1 := ⟨fuel - 1, by omega⟩
    obtain ⟨m1, e1, e2, e3, e4, e5⟩ := @ihl m (some a) f hl hndl
      (by have := le_max_left l.height r.height; omega)
    have hrr1 : Rep pc m1.node (some a) r :=
      Rep.congr (fun x hx => e5 x (fun hh => hdisj hh (List.mem_cons_of_mem _ hx))) hrr
    obtain ⟨m2, d1, d2, d3, d4, d5⟩ := @ihr m1 (some a) f hrr1 hndr
      (by have := le_max_right l.height r.height; omega)
    refine ⟨m2.freeNode a, ?_, ?_, ?_, ?_, ?_⟩
    · simp only [Tree.rootPtr_node, Mem.delete, Mem.getNode_eq h1, Res.ok_bind, h3, h4, e1, d1,
        Res.pure_eq]
    · simp [d2, e2]
    · simp [d3, e3]
    · intro x hx
      simp only [Tree.addrs, List.mem_append, List.mem_cons] at hx
      by_cases hxa : x = a
      · simp [hxa]
      · simp only [Mem.freeNode_node, hxa, if_false]
        rcases hx with hx | hx | hx
        · by_cases hxr : x ∈ r.addrs
          · exact d4 x hxr
          · rw [d5 x hxr]; exact e4 x hx
        · exact absurd hx hxa
        · exact d4 x hx
    · intro x hx
      simp only [Tree.addrs, List.mem_append, List.mem_cons, not_or] at hx
      simp only [Mem.freeNode_node, hx.2.1, if_false]
      rw [d5 x hx.2.2, e5 x hx.1]

end Assignment

section AssignmentOrd
variable [LinearOrder K]

/-- The function `erase` releases the nodes of the map and leaves it empty. -/
theorem GInvW.erase {m : Mem K V} {T : Nat → Tree K V} (hg : GInvW m T) {this : Nat}
    {tm : TreeMap} (htm : m.tree this = some tm) {fuel : Nat} (hf : (T this).height ≤ fuel) :
    ∃ m', (erase m this fuel : Res ε (Mem K V)) = Res.ok m' ∧
      GInvW m' (Function.update T this Tree.nil) ∧ m'.next = m.next ∧
      m'.tree this = some ⟨none, 0⟩ ∧
      (∀ j, j ≠ this → m'.tree j = m.tree j) ∧
      (∀ x, x ∈ (T this).addrs → m'.node x = none) ∧
      (∀ x, x ∉ (T this).addrs → m'.node x = m.node x) := by
  obtain ⟨e1, e2, e3, e4⟩ := hg.1 this tm htm
  obtain ⟨m1, d1, d2, d3, d4, d5⟩ := Mem.delete_tree (ε := ε) e2 (e2.nodup_addrs e3) hf
  have h1 : m1.tree this = some tm := by rw [d2]; exact htm
  have h2 : (m1.setTree this { tm with root := none }).tree this =
      some { tm with root := none } := by simp
  refine ⟨(m1.setTree this { tm with root := none }).setTree this ⟨none, 0⟩, ?_, ?_, ?_, ?_,
    ?_, ?_, ?_⟩
  · simp only [Aisdi.erase, Mem.getTree_eq htm, Res.ok_bind, e1, d1, Mem.setRoot_eq h1,
      Mem.setCount_eq h2]
  · refine GInvW.update hg
      (show ((m1.setTree this { tm with root := none }).setTree this ⟨none, 0⟩).tree this =
        some ⟨none, 0⟩ by simp)
      (show (⟨none, 0⟩ : TreeMap).root = (Tree.nil : Tree K V).rootPtr from rfl)
      trivial trivial rfl ?_ ?_ ?_ ?_
    · intro j hj; simp [hj, d2]
    · intro x hx; simp [Tree.addrs] at hx
    · intro x hx _; simpa using d5 x hx
    · intro a ha
      simp only [Mem.setTree_next, Mem.setTree_node] at ha ⊢
      rw [d3] at ha
      by_cases hx : a ∈ (T this).addrs
      · exact d4 a hx
      · rw [d5 a hx]; exact hg.2.2.2 a ha
  · simp [d3]
  · simp
  · intro j hj; simp [hj, d2]
  · intro x hx; simpa using d4 x hx
  · intro x hx; simpa using d5 x hx

theorem Tree.ins_toList_max {t : Tree K V} (hb : t.BST) {key : K}
    (hmax : ∀ x ∈ t.keys, x < key) (p : Nat) (v : V) :
    (t.ins p key v).toList = t.toList ++ [(key, v)] := by
  have hk : key ∉ t.keys := fun h => lt_irrefl _ (hmax key h)
  obtain ⟨l1, l2, h1, h2, _, h4⟩ := Tree.ins_nodes hb hk p v
  have hl2 : l2 = [] := by
    cases l2 with
    | nil => rfl
    | cons y l2 =>
      exfalso
      have hy : y.2.1 ∈ t.keys := by
        rw [Tree.keys_eq_nodes_map, h1]; simp
      exact lt_irrefl _ (lt_trans (h4 y (List.mem_cons_self _ _)) (hmax _ hy))
  subst hl2
  rw [Tree.toList_eq_map, Tree.toList_eq_map, h1, h2]
  simp

/-- The loop of the copy assignment, with the iterator at the first node of the part `R`
of the in-order sequence of `other` that is still to be copied: the entries of `R` are
inserted into the map `this`, and `other` is not changed. -/
theorem GInvW.assignLoop {this other : Nat} (hne : this ≠ other) (P : Tree K V → Prop)
    (hP : ∀ (t : Tree K V) (p : Nat) (k : K) (v : V), P t → t.BST →
      (∀ x ∈ t.keys, x < k) → P (t.ins p k v))
    (R : List (Nat × K × V)) :
    ∀ {m : Mem K V} {T : Nat → Tree K V} {tm tmo : TreeMap} {L : List (Nat × K × V)}
      {n fuel : Nat}, GInvW m T → m.tree this = some tm → m.tree other = some tmo →
      (T other).nodes = L ++ R → R.length ≤ n → (T this).height + R.length < fuel →
      (T other).height ≤ fuel → (∀ x ∈ (T this).keys, ∀ y ∈ R, x < y.2.1) → P (T this) →
      ∃ m' t', assignLoop this other fuel n m ⟨some other, R.head?.map Prod.fst⟩ = Res.ok m' ∧
        GInvW m' (Function.update T this t') ∧
        t'.toList = (T this).toList ++ R.map Prod.snd ∧ P t' ∧
        (∃ tm', m'.tree this = some tm') ∧ (∀ j, j ≠ this → m'.tree j = m.tree j) := by
  induction R with
  | nil =>
    intro m T tm tmo L n fuel hg htm htmo hsplit hn hf hfo hlt hPT
    refine ⟨m, T this, ?_, by rw [Function.update_eq_self]; exact hg, by simp, hPT,
      ⟨tm, htm⟩, fun _ _ => rfl⟩
    cases n <;> simp [Aisdi.assignLoop, cend]
  | cons y R ih =>
    intro m T tm tmo L n fuel hg htm htmo hsplit hn hf hfo hlt hPT
    obtain ⟨a, k, v⟩ := y
    simp only [List.length_cons] at hn hf
    obtain ⟨n, rfl⟩ : ∃ g, n = g + 1 := ⟨n - 1, by omega⟩
    obtain ⟨o1, o2, o3, o4⟩ := hg.1 other tmo htmo
    obtain ⟨t1, t2, t3, t4⟩ := hg.1 this tm htm
    have hmem : (a, k, v) ∈ (T other).nodes := by rw [hsplit]; simp
    obtain ⟨nd, c1, c2⟩ := o2.cell_of_mem hmem
    -- the insertion
    obtain ⟨m1, e1, e2, _, _, ⟨tm1, htm1⟩⟩ := GInvW.insertNew (ε := Mem K V) hg htm k v
      (show (T this).height < fuel by omega)
    have hother : (Function.update T this ((T this).ins m.next k v)) other = T other :=
      Function.update_noteq (Ne.symm hne) _ _
    obtain ⟨tmo1, htmo1⟩ : ∃ tmo1, m1.tree other = some tmo1 := by
      cases h : m1.tree other with
      | none =>
        have hnil := e2.2.2.1 other h
        rw [hother] at hnil
        rw [hnil] at hmem
        simp [Tree.nodes] at hmem
      | some x => exact ⟨x, rfl⟩
    obtain ⟨p1, p2, p3, _⟩ := e2.1 other tmo1 htmo1
    rw [hother] at p1 p2 p3
    -- the step of the iterator
    have hincr := incr_nodes other p2 (p2.nodup_addrs p3) hsplit hfo
    -- the rest of the loop
    have hkmax : ∀ x ∈ (T this).keys, x < k := fun x hx => hlt x hx _ (List.mem_cons_self _ _)
    obtain ⟨_, hRk, _, _⟩ := Tree.split_keys o3 hsplit
    obtain ⟨m', t', d1, d2, d3, d4, d5, d6⟩ := @ih m1 _ tm1 tmo1 (L ++ [(a, k, v)]) n fuel
      e2 htm1 htmo1 (by rw [hother, hsplit]; simp) (by omega)
      (by
        simp only [Function.update_same]
        have hle := Tree.ins_height_le (T this) m.next k v
        omega)
      (by rw [hother]; exact hfo)
      (by
        simp only [Function.update_same]
        intro x hx z hz
        rcases (Tree.ins_keys_iff t3 m.next k v x).1 hx with rfl | hx'
        · exact hRk z hz
        · exact hlt x hx' z (List.mem_cons_of_mem _ hz))
      (by
        simp only [Function.update_same]
        exact hP _ _ _ _ hPT t3 hkmax)
    have hothers : ∀ j, j ≠ this → m1.tree j = m.tree j := by
      obtain ⟨m2, q1, _, q3, _⟩ := insertNew_spec (ε := Mem K V) htm t1 t2 t3
        (hg.2.2.2 m.next (le_refl _)) k v (show (T this).height < fuel by omega)
      rw [e1] at q1
      cases q1
      exact q3
    refine ⟨m', t', ?_, by simpa using d2, ?_, d4, d5, fun j hj => by rw [d6 j hj, hothers j hj]⟩
    · rw [Aisdi.assignLoop]
      simp only [cend, ConstIterator.mk.injEq, true_and, List.head?_cons, Option.map_some',
        if_false, ConstIterator.deref, Mem.getNode_eq c1, Res.ok_bind, Res.pure_eq,
        Res.inMem_ok, c2, e1, hincr]
      exact d1
    · rw [d3]
      simp only [Function.update_same]
      rw [Tree.ins_toList_max t3 hkmax]
      simp

end AssignmentOrd

section AssignmentTop
variable [LinearOrder K]

/-- The copy assignment from another map keeps the invariant; the map owns a copy of the
in-order sequence of the other map afterwards. -/
theorem GInvW.assign {m : Mem K V} {T : Nat → Tree K V} (hg : GInvW m T) {this other : Nat}
    (hne : this ≠ other) {tm tmo : TreeMap} (htm : m.tree this = some tm)
    (htmo : m.tree other = some tmo) {fuel : Nat} (hf : (T this).height ≤ fuel)
    (hf2 : (T other).size < fuel) (hf3 : (T other).height ≤ fuel) (P : Tree K V → Prop)
    (hP : ∀ (t : Tree K V) (p : Nat) (k : K) (v : V), P t → t.BST →
      (∀ x ∈ t.keys, x < k) → P (t.ins p k v))
    (hnil : P Tree.nil) :
    ∃ m' t', assign m this other fuel = Res.ok m' ∧
      GInvW m' (Function.update T this t') ∧ t'.toList = (T other).toList ∧ P t' ∧
      (∃ tm', m'.tree this = some tm') ∧ (∀ j, j ≠ this → m'.tree j = m.tree j) := by
  obtain ⟨m1, e1, e2, _, e4, e5, _, _⟩ := GInvW.erase (ε := Mem K V) hg htm hf
  have hother : (Function.update T this Tree.nil) other = T other :=
    Function.update_noteq (Ne.symm hne) _ _
  have htmo1 : m1.tree other = some tmo := by rw [e5 other (Ne.symm hne)]; exact htmo
  obtain ⟨p1, p2, p3, _⟩ := e2.1 other tmo htmo1
  rw [hother] at p1 p2 p3
  have hbegin := cbegin_eq (ε := Mem K V)
    (show MapRep true m1 other (T other) from ⟨tmo, htmo1, p1, p2⟩) hf3
  have hlen : (T other).nodes.length = (T other).size := (Tree.size_eq_length_nodes _).symm
  have hthis : (Function.update T this Tree.nil) this = Tree.nil := Function.update_same _ _ _
  obtain ⟨m', t', d1, d2, d3, d4, d5, d6⟩ := @GInvW.assignLoop K V _ this other hne P hP
    (T other).nodes m1 _ _ tmo [] fuel fuel e2 e4 htmo1 (by rw [hother]; simp)
    (by rw [hlen]; omega)
    (by rw [hthis, hlen]; simp only [Tree.height]; omega)
    (by rw [hother]; exact hf3)
    (by rw [hthis]; simp [Tree.keys])
    (by rw [hthis]; exact hnil)
  refine ⟨m', t', ?_, by simpa using d2, ?_, d4, d5, fun j hj => by rw [d6 j hj, e5 j hj]⟩
  · simp only [Aisdi.assign, hne, ne_eq, not_false_eq_true, if_true, e1, Res.ok_bind, hbegin]
    exact d1
  · rw [d3, hthis]
    simp [Tree.toList, Tree.toList_eq_map]

/-- The move assignment from another map keeps the invariant: the map takes over the tree
of the other map, which is left empty. -/
theorem GInvW.moveAssign {m : Mem K V} {T : Nat → Tree K V} (hg : GInvW m T)
    {this other : Nat} (hne : this ≠ other) {tm tmo : TreeMap} (htm : m.tree this = some tm)
    (htmo : m.tree other = some tmo) {fuel : Nat} (hf : (T this).height ≤ fuel) :
    ∃ m', moveAssign m this other fuel = Res.ok m' ∧
      GInvW m' (Function.update (Function.update T this (T other)) other Tree.nil) := by
  obtain ⟨m1, e1, e2, e3, e4, e5, _, _⟩ := GInvW.erase (ε := Mem K V) hg htm hf
  have hon : other ≠ this := Ne.symm hne
  have hother : (Function.update T this Tree.nil) other = T other :=
    Function.update_noteq hon _ _
  have htmo1 : m1.tree other = some tmo := by rw [e5 other hon]; exact htmo
  obtain ⟨p1, p2, p3, p4⟩ := e2.1 other tmo htmo1
  rw [hother] at p1 p2 p3 p4
  refine ⟨(((m1.setTree this ⟨tmo.root, 0⟩).setTree this ⟨tmo.root, tmo.count⟩).setTree other
    ⟨none, tmo.count⟩).setTree other ⟨none, 0⟩, ?_, ?_⟩
  · have h1 : (m1.setTree this ⟨tmo.root, 0⟩).tree other = some tmo := by simp [hon, htmo1]
    have h2 : (m1.setTree this ⟨tmo.root, 0⟩).tree this = some ⟨tmo.root, 0⟩ := by simp
    have h3 : ((m1.setTree this ⟨tmo.root, 0⟩).setTree this ⟨tmo.root, tmo.count⟩).tree other =
        some tmo := by simp [hon, htmo1]
    have h4 : (((m1.setTree this ⟨tmo.root, 0⟩).setTree this ⟨tmo.root, tmo.count⟩).setTree
        other ⟨none, tmo.count⟩).tree other = some ⟨none, tmo.count⟩ := by simp
    simp only [Aisdi.moveAssign, hne, ne_eq, not_false_eq_true, if_true, e1, Res.ok_bind,
      Mem.getTree_eq htmo1, Mem.setRoot_eq e4, Mem.getTree_eq h1, Mem.setCount_eq h2,
      Mem.setRoot_eq h3, Mem.setCount_eq h4]
  · have hg1 := e2
    obtain ⟨g1, g2, g3, g4⟩ := e2
    refine ⟨?_, ?_, ?_, ?_⟩
    · intro i tmi hi
      by_cases hio : i = other
      · subst hio
        simp only [Mem.setTree_tree, if_true, Option.some.injEq] at hi
        subst hi
        simp only [Function.update_same]
        exact ⟨rfl, trivial, trivial, rfl⟩
      · by_cases hit : i = this
        · subst hit
          simp only [Mem.setTree_tree, hio, if_false, if_true, Option.some.injEq] at hi
          subst hi
          simp only [Function.update_noteq hio, Function.update_same]
          exact ⟨p1, p2, p3, p4⟩
        · simp only [Mem.setTree_tree, hio, hit, if_false] at hi
          obtain ⟨q1, q2, q3, q4⟩ := g1 i tmi hi
          simp only [Function.update_noteq hit] at q1 q2 q3 q4
          simp only [Function.update_noteq hio, Function.update_noteq hit]
          exact ⟨q1, q2, q3, q4⟩
    · intro i j hij x hx
      have key : ∀ i, (Function.update (Function.update T this (T other)) other Tree.nil) i =
          if i = other then Tree.nil else if i = this then T other else T i := by
        intro i
        simp only [Function.update_apply]
      rw [key] at hx ⊢
      by_cases hio : i = other
      · simp [hio, Tree.addrs] at hx
      · simp only [hio, if_false] at hx
        by_cases hjo : j = other
        · simp [hjo, Tree.addrs]
        · simp only [hjo, if_false]
          by_cases hit : i = this
          · simp only [hit, if_true] at hx
            have hjt : j ≠ this := fun e => hij (by rw [hit, e])
            simp only [hjt, if_false]
            exact hg.2.1 other j (Ne.symm hjo) x hx
          · simp only [hit, if_false] at hx
            by_cases hjt : j = this
            · simp only [hjt, if_true]
              exact hg.2.1 i other hio x hx
            · simp only [hjt, if_false]
              exact hg.2.1 i j hij x hx
    · intro i hi
      by_cases hio : i = other
      · subst hio; simp at hi
      · by_cases hit : i = this
        · subst hit; simp [hio] at hi
        · simp only [Mem.setTree_tree, hio, hit, if_false] at hi
          have := g3 i hi
          simp only [Function.update_noteq hit] at this
          simp only [Function.update_noteq hio, Function.update_noteq hit]
          exact this
    · intro a ha
      exact g4 a ha

end AssignmentTop

/-! ## Every reachable state satisfies the invariant -/

theorem erase_undefined {m : Mem K V} {this : Nat} (h : m.tree this = none) (fuel : Nat) :
    (erase m this fuel : Res ε (Mem K V)) = Res.undefined := by
  simp [erase, Mem.getTree, h]

section ReachableInv
variable [LinearOrder K]

theorem find_undefined {m : Mem K V} {this : Nat} (h : m.tree this = none) (key : K)
    (fuel : Nat) : (find m this key fuel : Res ε ConstIterator) = Res.undefined := by
  simp [find, findNode, Mem.getTree, h]

variable [Inhabited V]

theorem opIndex_undefined {m : Mem K V} {this : Nat} (h : m.tree this = none) (key : K)
    (fuel : Nat) : opIndex m this key fuel = Res.undefined := by
  simp [opIndex, findNode, Mem.getTree, h]

/-- One step of `Reachable`, from a state with the invariant: the state reached has the
invariant for suitable trees. -/
theorem Reachable.ginv {asg : Bool} {m : Mem K V} (h : Reachable asg m) :
    ∃ T, GInvW m T := by
  induction h with
  | empty => exact ⟨_, GInvW.empty⟩
  | ctor _ hnew ih =>
    obtain ⟨T, hg⟩ := ih
    exact ⟨T, hg.ctor hnew⟩
  | @ctorList m m' this list _ hnew hrun ih =>
    obtain ⟨T, hg⟩ := ih
    obtain ⟨f, hf, hres⟩ := hrun.exists_ge (list.length + 1)
    obtain ⟨m1, t', e1, e2, _⟩ := GInvW.ctorList (ε := Mem K V) hg hnew list
      (show list.length < f by omega)
    rw [e1] at hres
    cases hres
    exact ⟨_, e2⟩
  | @opIndex m m' this key a _ hrun ih =>
    obtain ⟨T, hg⟩ := ih
    obtain ⟨f, hf, hres⟩ := hrun.exists_ge ((T this).height + 1)
    cases htm : m.tree this with
    | none => rw [opIndex_undefined htm] at hres; cases hres
    | some tm =>
      obtain ⟨m1, a1, e1, e2⟩ := GInvW.opIndex hg htm key (show (T this).height < f by omega)
      rw [e1] at hres
      cases hres
      rcases e2 with ⟨_, rfl, _⟩ | ⟨_, _, hg'⟩
      · exact ⟨T, hg⟩
      · exact ⟨_, hg'⟩
  | @removeKey m m' this key _ hrun ih =>
    obtain ⟨T, hg⟩ := ih
    obtain ⟨f, hf, hres⟩ := hrun.exists_ge (T this).height
    obtain ⟨t', _, _, e1, _⟩ := GInvW.removeKey hg hf hres
    exact ⟨_, e1⟩
  | @removeIt m m' this key it _ hfind hrun ih =>
    obtain ⟨T, hg⟩ := ih
    obtain ⟨f1, hf1, hres1⟩ := hfind.exists_ge (T this).height
    obtain ⟨f, hf, hres⟩ := hrun.exists_ge (T this).height
    cases htm : m.tree this with
    | none => rw [find_undefined htm] at hres1; cases hres1
    | some tm =>
      obtain ⟨e1, e2, e3, _⟩ := hg.1 this tm htm
      rw [find_eq ⟨tm, htm, e1, e2⟩ key hf1] at hres1
      cases hres1
      cases hfa : (T this).findAddr key with
      | none => simp [Aisdi.removeIt, cend, hfa] at hres
      | some a =>
        obtain ⟨v, ha⟩ := (Tree.findAddr_eq_some e3).1 hfa
        obtain ⟨m1, t', d1, d2, _⟩ := GInvW.removeIt hg htm ha hf
        rw [hfa, d1] at hres
        cases hres
        exact ⟨_, d2⟩
  | @assign m m' this other _ _ hrun ih =>
    obtain ⟨T, hg⟩ := ih
    obtain ⟨f, hf, hres⟩ := hrun.exists_ge ((T this).height + (T other).size + 1 +
      (T other).height)
    by_cases hne : this = other
    · simp only [Aisdi.assign, hne, ne_eq, not_true_eq_false, if_false, Res.pure_eq,
        Res.ok.injEq] at hres
      subst hres
      exact ⟨T, hg⟩
    · cases htm : m.tree this with
      | none =>
        simp [Aisdi.assign, hne, erase_undefined htm] at hres
      | some tm =>
        cases htmo : m.tree other with
        | none =>
          obtain ⟨m1, e1, _, _, _, e5, _, _⟩ := GInvW.erase (ε := Mem K V) hg htm
            (show (T this).height ≤ f by omega)
          have : m1.tree other = none := by rw [e5 other (Ne.symm hne)]; exact htmo
          simp [Aisdi.assign, hne, e1, cbegin, Mem.getTree, this] at hres
        | some tmo =>
          obtain ⟨m1, t', e1, e2, _⟩ := GInvW.assign hg hne htm htmo
            (show (T this).height ≤ f by omega) (show (T other).size < f by omega)
            (show (T other).height ≤ f by omega) (fun _ => True) (fun _ _ _ _ _ _ _ => trivial)
            trivial
          rw [e1] at hres
          cases hres
          exact ⟨_, e2⟩
  | @moveAssign m m' this other _ _ hrun ih =>
    obtain ⟨T, hg⟩ := ih
    obtain ⟨f, hf, hres⟩ := hrun.exists_ge (T this).height
    by_cases hne : this = other
    · simp only [Aisdi.moveAssign, hne, ne_eq, not_true_eq_false, if_false, Res.pure_eq,
        Res.ok.injEq] at hres
      subst hres
      exact ⟨T, hg⟩
    · cases htm : m.tree this with
      | none =>
        simp [Aisdi.moveAssign, hne, erase_undefined htm] at hres
      | some tm =>
        cases htmo : m.tree other with
        | none =>
          obtain ⟨m1, e1, _, _, _, e5, _, _⟩ := GInvW.erase (ε := Mem K V) hg htm hf
          have : m1.tree other = none := by rw [e5 other (Ne.symm hne)]; exact htmo
          simp [Aisdi.moveAssign, hne, e1, Mem.getTree, this] at hres
        | some tmo =>
          obtain ⟨m1, e1, e2⟩ := GInvW.moveAssign hg hne htm htmo hf
          rw [e1] at hres
          cases hres
          exact ⟨_, e2⟩

end ReachableInv

/-! ## More fuel does not change an outcome -/

section FuelMonotone

/-- Sequencing keeps outcomes that are stable under more fuel. -/
theorem Res.bind_mono {α β : Type} {x y : Res ε α} {g h : α → Res ε β} {r : Res ε β}
    (hx : ∀ s, x = s → s ≠ Res.timeout → y = s)
    (hg : ∀ a s, g a = s → s ≠ Res.timeout → h a = s)
    (hr : (x >>= g) = r) (hne : r ≠ Res.timeout) : (y >>= h) = r := by
  cases x with
  | ok a =>
    rw [hx _ rfl (by simp)]
    exact hg a r hr hne
  | thrown e s =>
    rw [hx _ rfl (by simp)]
    exact hr
  | undefined =>
    rw [hx _ rfl (by simp)]
    exact hr
  | timeout =>
    subst hr
    exact absurd rfl hne

theorem Mem.delete_mono : ∀ (f g : Nat) (m : Mem K V) (p : Option Nat) (r : Res ε (Mem K V)),
    f ≤ g → Mem.delete f m p = r → r ≠ Res.timeout → Mem.delete g m p = r := by
  intro f
  induction f with
  | zero =>
    intro g m p r _ h hne
    cases p with
    | none => cases g <;> simpa [Mem.delete] using h
    | some a =>
      subst h
      exact absurd rfl hne
  | succ f ih =>
    intro g m p r hle h hne
    obtain ⟨g, rfl⟩ : ∃ k, g = k + 1 := ⟨g - 1, by omega⟩
    cases p with
    | none => simpa [Mem.delete] using h
    | some a =>
      rw [Mem.delete] at h ⊢
      refine Res.bind_mono (fun s hs _ => hs) (fun nd s hs hs2 => ?_) h hne
      refine Res.bind_mono (fun s hs hs2 => ih g m _ s (by omega) hs hs2) (fun m1 s hs hs2 => ?_)
        hs hs2
      exact Res.bind_mono (fun s hs hs2 => ih g m1 _ s (by omega) hs hs2)
        (fun m2 s hs _ => hs) hs hs2

end FuelMonotone

section FuelMonotoneOrd
variable [LinearOrder K]

theorem findNodeLoop_mono (m : Mem K V) (key : K) :
    ∀ (f g : Nat) (p : Option Nat) (r : Res ε (Option Nat)),
    f ≤ g → findNodeLoop m key f p = r → r ≠ Res.timeout → findNodeLoop m key g p = r := by
  intro f
  induction f with
  | zero =>
    intro g p r _ h hne
    cases p with
    | none => cases g <;> simpa [findNodeLoop] using h
    | some a =>
      subst h
      exact absurd rfl hne
  | succ f ih =>
    intro g p r hle h hne
    obtain ⟨g, rfl⟩ : ∃ k, g = k + 1 := ⟨g - 1, by omega⟩
    cases p with
    | none => simpa [findNodeLoop] using h
    | some a =>
      rw [findNodeLoop] at h ⊢
      refine Res.bind_mono (fun s hs _ => hs) (fun nd s hs hs2 => ?_) h hne
      dsimp only at hs ⊢
      split_ifs at hs ⊢
      · exact ih g _ s (by omega) hs hs2
      · exact ih g _ s (by omega) hs hs2
      · exact hs

theorem findNode_mono (m : Mem K V) (this : Nat) (key : K) {f g : Nat} (hle : f ≤ g)
    {r : Res ε (Option Nat)} (h : findNode m this key f = r) (hne : r ≠ Res.timeout) :
    findNode m this key g = r := by
  rw [findNode] at h ⊢
  exact Res.bind_mono (fun s hs _ => hs)
    (fun t s hs hs2 => findNodeLoop_mono m key f g _ s hle hs hs2) h hne

theorem insertLoop_mono (m : Mem K V) (newNode : Nat) {fuel fuel2 : Nat} (hfuel : fuel ≤ fuel2) :
    ∀ (f g : Nat) (cur : Nat) (r : Res ε (Mem K V × Bool)),
    f ≤ g → insertLoop fuel m newNode f cur = r → r ≠ Res.timeout →
      insertLoop fuel2 m newNode g cur = r := by
  intro f
  induction f with
  | zero =>
    intro g cur r _ h hne
    subst h
    exact absurd rfl hne
  | succ f ih =>
    intro g cur r hle h hne
    obtain ⟨g, rfl⟩ : ∃ k, g = k + 1 := ⟨g - 1, by omega⟩
    rw [insertLoop] at h ⊢
    refine Res.bind_mono (fun s hs _ => hs) (fun nn s hs hs2 => ?_) h hne
    refine Res.bind_mono (fun s hs _ => hs) (fun cn s hs hs2 => ?_) hs hs2
    dsimp only at hs ⊢
    split_ifs at hs ⊢
    · cases hright : cn.right with
      | none => simpa [hright] using hs
      | some q =>
        simp only [hright] at hs ⊢
        exact ih g q s (by omega) hs hs2
    · cases hleft : cn.left with
      | none => simpa [hleft] using hs
      | some q =>
        simp only [hleft] at hs ⊢
        exact ih g q s (by omega) hs hs2
    · exact Res.bind_mono (fun s hs hs2 => Mem.delete_mono fuel fuel2 m _ s hfuel hs hs2)
        (fun _ s hs _ => hs) hs hs2

theorem insert_mono (m : Mem K V) (this newNode : Nat) {f g : Nat} (hle : f ≤ g)
    {r : Res ε (Mem K V)} (h : insert m this newNode f = r) (hne : r ≠ Res.timeout) :
    insert m this newNode g = r := by
  rw [insert] at h ⊢
  refine Res.bind_mono (fun s hs _ => hs) (fun t s hs hs2 => ?_) h hne
  cases hroot : t.root with
  | none => simpa [hroot] using hs
  | some q =>
    simp only [hroot] at hs ⊢
    exact Res.bind_mono (fun s hs hs2 => insertLoop_mono m newNode hle f g q s hle hs hs2)
      (fun _ s hs _ => hs) hs hs2

theorem insertNew_mono (m : Mem K V) (this : Nat) (key : K) (v : V) {f g : Nat} (hle : f ≤ g)
    {r : Res ε (Mem K V)} (h : insertNew m this key v f = r) (hne : r ≠ Res.timeout) :
    insertNew m this key v g = r :=
  insert_mono _ this _ hle h hne

theorem ctorListLoop_mono (this : Nat) {f g : Nat} (hle : f ≤ g) :
    ∀ (list : List (K × V)) (m : Mem K V) (r : Res ε (Mem K V)),
    ctorListLoop this f m list = r → r ≠ Res.timeout → ctorListLoop this g m list = r := by
  intro list
  induction list with
  | nil =>
    intro m r h _
    simpa [ctorListLoop] using h
  | cons x rest ih =>
    intro m r h hne
    rw [ctorListLoop] at h ⊢
    exact Res.bind_mono (fun s hs hs2 => insertNew_mono m this _ _ hle hs hs2)
      (fun m1 s hs hs2 => ih m1 s hs hs2) h hne

theorem ctorList_mono (m : Mem K V) (this : Nat) (list : List (K × V)) {f g : Nat}
    (hle : f ≤ g) {r : Res ε (Mem K V)} (h : ctorList m this list f = r)
    (hne : r ≠ Res.timeout) : ctorList m this list g = r :=
  ctorListLoop_mono this hle list _ r h hne

theorem opIndex_mono [Inhabited V] (m : Mem K V) (this : Nat) (key : K) {f g : Nat}
    (hle : f ≤ g) {r : Res (Mem K V) (Mem K V × Nat)} (h : opIndex m this key f = r)
    (hne : r ≠ Res.timeout) : opIndex m this key g = r := by
  rw [opIndex] at h ⊢
  refine Res.bind_mono (fun s hs hs2 => findNode_mono m this key hle hs hs2)
    (fun c s hs hs2 => ?_) h hne
  cases c with
  | some c => exact hs
  | none =>
    exact Res.bind_mono (fun s hs hs2 => insert_mono _ this _ hle hs hs2)
      (fun _ s hs _ => hs) hs hs2

end FuelMonotoneOrd

section FuelMonotoneMore

theorem erase_mono (m : Mem K V) (this : Nat) {f g : Nat} (hle : f ≤ g)
    {r : Res ε (Mem K V)} (h : erase m this f = r) (hne : r ≠ Res.timeout) :
    erase m this g = r := by
  rw [erase] at h ⊢
  refine Res.bind_mono (fun s hs _ => hs) (fun t s hs hs2 => ?_) h hne
  exact Res.bind_mono (fun s hs hs2 => Mem.delete_mono f g m _ s hle hs hs2)
    (fun _ s hs _ => hs) hs hs2

theorem moveAssign_mono (m : Mem K V) (this other : Nat) {f g : Nat} (hle : f ≤ g)
    {r : Res (Mem K V) (Mem K V)} (h : moveAssign m this other f = r)
    (hne : r ≠ Res.timeout) : moveAssign m this other g = r := by
  rw [moveAssign] at h ⊢
  split_ifs at h ⊢
  · exact Res.bind_mono (fun s hs hs2 => erase_mono m this hle hs hs2)
      (fun _ s hs _ => hs) h hne
  · exact h

/-- An outcome other than a timeout, at some fuel, is the outcome of the call. -/
theorem Returns.of_mono {α : Type} {run : Nat → Res ε α} {r : Res ε α}
    (hmono : ∀ f g, f ≤ g → run f = r → r ≠ Res.timeout → run g = r)
    (f : Nat) (h : run f = r) (hne : r ≠ Res.timeout) : Returns run r :=
  ⟨f, fun g hg => hmono f g hg h hne⟩

end FuelMonotoneMore

/-! ## Forward traversal -/

section Traversal

theorem deref_nodes {pc : Bool} {m : Mem K V} {t : Tree K V} (hr : Rep pc m.node none t)
    (this : Nat) {a : Nat} {k : K} {v : V} (ha : (a, k, v) ∈ t.nodes) :
    ConstIterator.deref m ⟨some this, some a⟩ = Res.ok (k, v) := by
  obtain ⟨nd, c1, c2⟩ := hr.cell_of_mem ha
  simp [ConstIterator.deref, Mem.getNode_eq c1, c2]

/-- The client loop from a position of the in-order sequence returns the entries from
that position on. -/
theorem traverseFrom_nodes {m : Mem K V} (this : Nat) {t : Tree K V}
    (hr : Rep true m.node none t) (hnd : t.addrs.Nodup) {fuel : Nat} (hf : t.height ≤ fuel)
    (R : List (Nat × K × V)) :
    ∀ (L : List (Nat × K × V)) (n : Nat), t.nodes = L ++ R → R.length ≤ n →
      traverseFrom m this fuel n ⟨some this, R.head?.map Prod.fst⟩ =
        Res.ok (R.map Prod.snd) := by
  induction R with
  | nil =>
    intro L n _ _
    cases n <;> simp [traverseFrom, cend]
  | cons y R ih =>
    intro L n hsplit hn
    obtain ⟨a, k, v⟩ := y
    simp only [List.length_cons] at hn
    obtain ⟨n, rfl⟩ : ∃ g, n = g + 1 := ⟨n - 1, by omega⟩
    have hmem : (a, k, v) ∈ t.nodes := by rw [hsplit]; simp
    have hincr := incr_nodes this hr hnd hsplit hf
    have hrest := ih (L ++ [(a, k, v)]) n (by rw [hsplit]; simp) (by omega)
    rw [traverseFrom]
    simp only [cend, ConstIterator.mk.injEq, true_and, List.head?_cons, Option.map_some',
      if_false, deref_nodes hr this hmem, Res.ok_bind, Res.pure_eq, hincr, hrest,
      List.map_cons]
    simp

/-- Applying `++` `i` times from a position of the in-order sequence moves `i` positions
on; the position after the last entry is the end position. -/
theorem stepForward_nodes {m : Mem K V} (this : Nat) {t : Tree K V}
    (hr : Rep true m.node none t) (hnd : t.addrs.Nodup) {fuel : Nat} (hf : t.height ≤ fuel) :
    ∀ (i : Nat) (L R : List (Nat × K × V)), t.nodes = L ++ R → i ≤ R.length →
      stepForward m fuel i ⟨some this, R.head?.map Prod.fst⟩ =
        Res.ok ⟨some this, (R.drop i).head?.map Prod.fst⟩ := by
  intro i
  induction i with
  | zero =>
    intro L R _ _
    simp [stepForward]
  | succ i ih =>
    intro L R hsplit hi
    cases R with
    | nil => simp at hi
    | cons y R =>
      obtain ⟨a, k, v⟩ := y
      simp only [List.length_cons] at hi
      have hincr := incr_nodes this hr hnd hsplit hf
      have hrest := ih (L ++ [(a, k, v)]) R (by rw [hsplit]; simp) (by omega)
      rw [stepForward]
      simp only [List.head?_cons, Option.map_some', hincr, Res.ok_bind, hrest,
        List.drop_succ_cons]

theorem Tree.height_le_size (t : Tree K V) : t.height ≤ t.size := by
  induction t with
  | nil => simp [Tree.height, Tree.size]
  | node l a k v r ihl ihr => simp only [Tree.height, Tree.size]; omega

end Traversal

section TraversalOrd
variable [LinearOrder K]

/-- The traversal from `begin()` to `end()` returns the in-order sequence. -/
theorem traverse_eq {m : Mem K V} {this : Nat} {t : Tree K V} (hrep : MapRep true m this t)
    (hb : t.BST) {fuel : Nat} (hf : t.height ≤ fuel) (hs : t.size ≤ fuel) :
    traverse m this fuel = Res.ok t.toList := by
  obtain ⟨tm, htm, hroot, hr⟩ := hrep
  have hbegin := cbegin_eq (ε := ConstIterator)
    (show MapRep true m this t from ⟨tm, htm, hroot, hr⟩) hf
  rw [traverse, hbegin]
  simp only [Res.ok_bind]
  rw [traverseFrom_nodes this hr (hr.nodup_addrs hb) hf t.nodes [] fuel (by simp)
    (by rw [← Tree.size_eq_length_nodes]; exact hs), Tree.toList_eq_map]

theorem Tree.sorted_toList {t : Tree K V} (hb : t.BST) :
    (t.toList.map Prod.fst).Sorted (· < ·) := by
  have h := BST.sorted hb
  rwa [Tree.keys_eq_map] at h

end TraversalOrd

/-! ## The order invariant and the forward traversal in reachable states -/

section ReachableTraversal

/-- The scenario map is a reachable state: it is constructed from the initializer list
in the empty memory. -/
theorem exampleMem_reachable : Reachable false exampleMem :=
  @Reachable.ctorList Nat Nat _ _ false Mem.empty exampleMem 0 exampleList Reachable.empty rfl
    (Returns.of_mono (fun _ _ hle h hne => ctorList_mono _ _ _ hle h hne) 8 rfl (by simp))

variable [LinearOrder K] [Inhabited V]

/-- C1 (order invariant).  In every state reached from the empty memory through
constructions from initializer lists, `operator[]` and removals by key or by iterator
(and also copy and move assignments, when `asg` is set), every map object owns a tree
that satisfies the BST order invariant, the traversal from `begin()` with `++` until
`end()` returns normally with the in-order sequence of that tree, and the keys of this
sequence are strictly increasing. -/
theorem order_invariant {asg : Bool} {m : Mem K V} (hreach : Reachable asg m)
    {this : Nat} {tm : TreeMap} (htm : m.tree this = some tm) :
    ∃ t : Tree K V, MapRep true m this t ∧ t.BST ∧
      Returns (fun f => traverse m this f) (Res.ok t.toList) ∧
      (t.toList.map Prod.fst).Sorted (· < ·) := by
  obtain ⟨T, hg⟩ := hreach.ginv
  obtain ⟨h1, h2, h3, _⟩ := hg.1 this tm htm
  refine ⟨T this, ⟨tm, htm, h1, h2⟩, h3, ?_, Tree.sorted_toList h3⟩
  exact Returns.of_forall_ge (T this).size (fun f hf =>
    traverse_eq ⟨tm, htm, h1, h2⟩ h3 (le_trans (Tree.height_le_size _) hf) hf)

/-- Witness of C1: the scenario map built from the keys 5, 3, 8, 1, 4, 7, 9 is
reachable, and its traversal gives the keys 1, 3, 4, 5, 7, 8, 9. -/
theorem order_invariant_witness :
    Reachable false exampleMem ∧ exampleMem.tree 0 = some ⟨some 0, 7⟩ ∧
    (traverse exampleMem 0 7).toOption =
      some [(1, 10), (3, 30), (4, 40), (5, 50), (7, 70), (8, 80), (9, 90)] ∧
    ∃ t : Tree Nat Nat, MapRep true exampleMem 0 t ∧ t.BST ∧
      Returns (fun f => traverse exampleMem 0 f) (Res.ok t.toList) ∧
      (t.toList.map Prod.fst).Sorted (· < ·) :=
  ⟨exampleMem_reachable, exampleMem_tree, by decide,
    order_invariant exampleMem_reachable exampleMem_tree⟩

/-- C10 (forward traversal is complete).  In every reachable state, for every map
object with its tree `t` of stored nodes: `getSize()` is the number of nodes; for every
`i` below it, `begin()` followed by `i` applications of `++` returns normally at the
`i`-th node of the in-order sequence, which is not the end position and dereferences to
the `i`-th entry; after `getSize()` applications the iterator is `end()`.  The nodes of
the sequence are pairwise distinct and their keys increase strictly, so that `begin()`
is the node with the smallest key and every stored entry is visited once. -/
theorem forward_traversal_complete {asg : Bool} {m : Mem K V} (hreach : Reachable asg m)
    {this : Nat} {tm : TreeMap} (htm : m.tree this = some tm) :
    ∃ t : Tree K V, MapRep true m this t ∧
      (getSize m this : Res Unit Nat) = Res.ok t.nodes.length ∧
      (t.nodes.map Prod.fst).Nodup ∧
      (t.nodes.map (fun x => x.2.1)).Sorted (· < ·) ∧
      (∀ (i : Nat) (hi : i < t.nodes.length),
        ∃ it, Returns (fun f => cbegin m this f >>= stepForward m f i) (Res.ok it) ∧
          it ≠ cend this ∧ it = ⟨some this, some t.nodes[i].1⟩ ∧
          ConstIterator.deref m it = Res.ok t.nodes[i].2) ∧
      Returns (fun f => cbegin m this f >>= stepForward m f t.nodes.length)
        (Res.ok (cend this)) := by
  obtain ⟨T, hg⟩ := hreach.ginv
  obtain ⟨h1, h2, h3, h4⟩ := hg.1 this tm htm
  have hrep : MapRep true m this (T this) := ⟨tm, htm, h1, h2⟩
  have hnd := h2.nodup_addrs h3
  have hsteps : ∀ i, i ≤ (T this).nodes.length → ∀ f, (T this).height ≤ f →
      (cbegin m this f >>= stepForward m f i) =
        Res.ok ⟨some this, (T this).nodes[i]?.map Prod.fst⟩ := by
    intro i hi f hf
    rw [cbegin_eq hrep hf, Res.ok_bind,
      stepForward_nodes this h2 hnd hf i [] (T this).nodes (by simp) hi, List.head?_drop]
  refine ⟨T this, hrep, ?_, ?_, ?_, ?_, ?_⟩
  · rw [getSize_eq htm, h4, Tree.size_eq_length_nodes]
  · rwa [← Tree.addrs_eq_map]
  · rw [← Tree.keys_eq_nodes_map]
    exact Tree.BST.sorted h3
  · intro i hi
    refine ⟨⟨some this, some (T this).nodes[i].1⟩, ?_, by simp [cend], rfl, ?_⟩
    · refine Returns.of_forall_ge (T this).height (fun f hf => ?_)
      rw [hsteps i (le_of_lt hi) f hf, List.getElem?_eq_getElem hi]
      rfl
    · exact deref_nodes h2 this (List.getElem_mem hi)
  · refine Returns.of_forall_ge (T this).height (fun f hf => ?_)
    rw [hsteps _ (le_refl _) f hf, List.getElem?_eq_none (le_refl _)]
    rfl

/-- Witness of C10 on the scenario map: seven entries, seven steps from `begin()` to
`end()`. -/
theorem forward_traversal_complete_witness :
    Reachable false exampleMem ∧ exampleMem.tree 0 = some ⟨some 0, 7⟩ ∧
    ((cbegin exampleMem 0 7 >>= stepForward exampleMem 7 7 :
      Res ConstIterator ConstIterator) = Res.ok (cend 0)) ∧
    ∃ t : Tree Nat Nat, MapRep true exampleMem 0 t ∧
      (getSize exampleMem 0 : Res Unit Nat) = Res.ok t.nodes.length ∧
      (t.nodes.map Prod.fst).Nodup ∧
      (t.nodes.map (fun x => x.2.1)).Sorted (· < ·) ∧
      (∀ (i : Nat) (hi : i < t.nodes.length),
        ∃ it, Returns (fun f => cbegin exampleMem 0 f >>= stepForward exampleMem f i)
            (Res.ok it) ∧
          it ≠ cend 0 ∧ it = ⟨some 0, some t.nodes[i].1⟩ ∧
          ConstIterator.deref exampleMem it = Res.ok t.nodes[i].2) ∧
      Returns (fun f => cbegin exampleMem 0 f >>= stepForward exampleMem f t.nodes.length)
        (Res.ok (cend 0)) :=
  ⟨exampleMem_reachable, exampleMem_tree, by decide,
    forward_traversal_complete exampleMem_reachable exampleMem_tree⟩

end ReachableTraversal

/-! ## More fuel does not change an outcome: iterators, removal, assignment -/

section FuelMonotoneIter

theorem leftmost_mono (m : Mem K V) :
    ∀ (f g : Nat) (a : Nat) (r : Res ε Nat),
    f ≤ g → leftmost m f a = r → r ≠ Res.timeout → leftmost m g a = r := by
  intro f
  induction f with
  | zero =>
    intro g a r _ h hne
    cases g with
    | zero => exact h
    | succ g =>
      rw [leftmost.eq_1] at h
      rw [leftmost.eq_2]
      refine Res.bind_mono (fun s hs _ => hs) (fun nd s hs hs2 => ?_) h hne
      cases hl : nd.left with
      | none => simpa [hl] using hs
      | some l =>
        simp only [hl] at hs
        exact absurd hs.symm hs2
  | succ f ih =>
    intro g a r hle h hne
    obtain ⟨g, rfl⟩ : ∃ k, g = k + 1 := ⟨g - 1, by omega⟩
    rw [leftmost] at h ⊢
    refine Res.bind_mono (fun s hs _ => hs) (fun nd s hs hs2 => ?_) h hne
    cases hl : nd.left with
    | none => simpa [hl] using hs
    | some l =>
      simp only [hl] at hs ⊢
      exact ih g l s (by omega) hs hs2

theorem rightmost_mono (m : Mem K V) :
    ∀ (f g : Nat) (a : Nat) (r : Res ε Nat),
    f ≤ g → rightmost m f a = r → r ≠ Res.timeout → rightmost m g a = r := by
  intro f
  induction f with
  | zero =>
    intro g a r _ h hne
    cases g with
    | zero => exact h
    | succ g =>
      rw [rightmost.eq_1] at h
      rw [rightmost.eq_2]
      refine Res.bind_mono (fun s hs _ => hs) (fun nd s hs hs2 => ?_) h hne
      cases hl : nd.right with
      | none => simpa [hl] using hs
      | some l =>
        simp only [hl] at hs
        exact absurd hs.symm hs2
  | succ f ih =>
    intro g a r hle h hne
    obtain ⟨g, rfl⟩ : ∃ k, g = k + 1 := ⟨g - 1, by omega⟩
    rw [rightmost] at h ⊢
    refine Res.bind_mono (fun s hs _ => hs) (fun nd s hs hs2 => ?_) h hne
    cases hl : nd.right with
    | none => simpa [hl] using hs
    | some l =>
      simp only [hl] at hs ⊢
      exact ih g l s (by omega) hs hs2

theorem incrClimb_mono (m : Mem K V) :
    ∀ (f g : Nat) (a : Nat) (r : Res ε (Option Nat)),
    f ≤ g → incrClimb m f a = r → r ≠ Res.timeout → incrClimb m g a = r := by
  intro f
  induction f with
  | zero =>
    intro g a r _ h hne
    subst h
    exact absurd rfl hne
  | succ f ih =>
    intro g a r hle h hne
    obtain ⟨g, rfl⟩ : ∃ k, g = k + 1 := ⟨g - 1, by omega⟩
    rw [incrClimb] at h ⊢
    refine Res.bind_mono (fun s hs _ => hs) (fun nd s hs hs2 => ?_) h hne
    cases hp : nd.parent with
    | none => simpa [hp] using hs
    | some p =>
      simp only [hp] at hs ⊢
      refine Res.bind_mono (fun s hs _ => hs) (fun pn s hs hs2 => ?_) hs hs2
      dsimp only at hs ⊢
      split_ifs at hs ⊢
      · exact hs
      · exact ih g p s (by omega) hs hs2

theorem decrClimb_mono (m : Mem K V) (tree : Option Nat) :
    ∀ (f g : Nat) (a : Nat) (r : Res ConstIterator (Option Nat)),
    f ≤ g → decrClimb m tree f a = r → r ≠ Res.timeout → decrClimb m tree g a = r := by
  intro f
  induction f with
  | zero =>
    intro g a r _ h hne
    subst h
    exact absurd rfl hne
  | succ f ih =>
    intro g a r hle h hne
    obtain ⟨g, rfl⟩ : ∃ k, g = k + 1 := ⟨g - 1, by omega⟩
    rw [decrClimb] at h ⊢
    refine Res.bind_mono (fun s hs _ => hs) (fun nd s hs hs2 => ?_) h hne
    cases hp : nd.parent with
    | none => simpa [hp] using hs
    | some p =>
      simp only [hp] at hs ⊢
      refine Res.bind_mono (fun s hs _ => hs) (fun pn s hs hs2 => ?_) hs hs2
      dsimp only at hs ⊢
      split_ifs at hs ⊢
      · exact hs
      · exact ih g p s (by omega) hs hs2

theorem incr_mono (m : Mem K V) (it : ConstIterator) {f g : Nat} (hle : f ≤ g)
    {r : Res ConstIterator ConstIterator} (h : it.incr m f = r) (hne : r ≠ Res.timeout) :
    it.incr m g = r := by
  obtain ⟨tr, nd⟩ := it
  cases tr with
  | none => simpa [ConstIterator.incr] using h
  | some t =>
    cases nd with
    | none => simpa [ConstIterator.incr] using h
    | some n =>
      simp only [ConstIterator.incr] at h ⊢
      refine Res.bind_mono (fun s hs _ => hs) (fun nd s hs hs2 => ?_) h hne
      cases hr : nd.right with
      | none =>
        simp only [hr] at hs ⊢
        exact Res.bind_mono (fun s hs hs2 => incrClimb_mono m f g n s hle hs hs2)
          (fun _ s hs _ => hs) hs hs2
      | some q =>
        simp only [hr] at hs ⊢
        exact Res.bind_mono (fun s hs hs2 => leftmost_mono m f g q s hle hs hs2)
          (fun _ s hs _ => hs) hs hs2

theorem decr_mono (m : Mem K V) (it : ConstIterator) {f g : Nat} (hle : f ≤ g)
    {r : Res ConstIterator ConstIterator} (h : it.decr m f = r) (hne : r ≠ Res.timeout) :
    it.decr m g = r := by
  obtain ⟨tr, nd⟩ := it
  cases tr with
  | none => simpa [ConstIterator.decr] using h
  | some t =>
    simp only [ConstIterator.decr] at h ⊢
    refine Res.bind_mono (fun s hs _ => hs) (fun tm s hs hs2 => ?_) h hne
    cases hroot : tm.root with
    | none => simpa [hroot] using hs
    | some root =>
      simp only [hroot] at hs ⊢
      cases nd with
      | none =>
        exact Res.bind_mono (fun s hs hs2 => rightmost_mono m f g root s hle hs hs2)
          (fun _ s hs _ => hs) hs hs2
      | some n =>
        refine Res.bind_mono (fun s hs _ => hs) (fun nd s hs hs2 => ?_) hs hs2
        cases hl : nd.left with
        | none =>
          simp only [hl] at hs ⊢
          exact Res.bind_mono (fun s hs hs2 => decrClimb_mono m _ f g n s hle hs hs2)
            (fun _ s hs _ => hs) hs hs2
        | some q =>
          simp only [hl] at hs ⊢
          exact Res.bind_mono (fun s hs hs2 => rightmost_mono m f g q s hle hs hs2)
            (fun _ s hs _ => hs) hs hs2

theorem minNode_mono (m : Mem K V) (node : Option Nat) {f g : Nat} (hle : f ≤ g)
    {r : Res ε (Option Nat)} (h : minNode m node f = r) (hne : r ≠ Res.timeout) :
    minNode m node g = r := by
  cases node with
  | none => simpa [minNode] using h
  | some a =>
    simp only [minNode] at h ⊢
    exact Res.bind_mono (fun s hs hs2 => leftmost_mono m f g a s hle hs hs2)
      (fun _ s hs _ => hs) h hne

theorem cbegin_mono (m : Mem K V) (this : Nat) {f g : Nat} (hle : f ≤ g)
    {r : Res ε ConstIterator} (h : cbegin m this f = r) (hne : r ≠ Res.timeout) :
    cbegin m this g = r := by
  rw [cbegin] at h ⊢
  refine Res.bind_mono (fun s hs _ => hs) (fun t s hs hs2 => ?_) h hne
  exact Res.bind_mono (fun s hs hs2 => minNode_mono m _ hle hs hs2) (fun _ s hs _ => hs) hs hs2

theorem Res.inMem_mono {σ α : Type} (m : Mem K V) {x y : Res σ α}
    (hx : ∀ s, x = s → s ≠ Res.timeout → y = s) :
    ∀ s, x.inMem m = s → s ≠ Res.timeout → y.inMem m = s := by
  intro s hs hne
  cases x with
  | ok a => rw [hx _ rfl (by simp)]; exact hs
  | thrown e c => rw [hx _ rfl (by simp)]; exact hs
  | undefined => rw [hx _ rfl (by simp)]; exact hs
  | timeout =>
    subst hs
    exact absurd rfl hne

theorem stepForward_mono (m : Mem K V) {f g : Nat} (hle : f ≤ g) :
    ∀ (n : Nat) (it : ConstIterator) (r : Res ConstIterator ConstIterator),
    stepForward m f n it = r → r ≠ Res.timeout → stepForward m g n it = r := by
  intro n
  induction n with
  | zero =>
    intro it r h _
    simpa [stepForward] using h
  | succ n ih =>
    intro it r h hne
    rw [stepForward] at h ⊢
    exact Res.bind_mono (fun s hs hs2 => incr_mono m it hle hs hs2)
      (fun it1 s hs hs2 => ih it1 s hs hs2) h hne

theorem climbToNull_mono (m : Mem K V) :
    ∀ (f g : Nat) (p : Option Nat) (r : Res ε Unit),
    f ≤ g → climbToNull m f p = r → r ≠ Res.timeout → climbToNull m g p = r := by
  intro f
  induction f with
  | zero =>
    intro g p r _ h hne
    cases p with
    | none => cases g <;> simpa [climbToNull] using h
    | some a =>
      subst h
      exact absurd rfl hne
  | succ f ih =>
    intro g p r hle h hne
    obtain ⟨g, rfl⟩ : ∃ k, g = k + 1 := ⟨g - 1, by omega⟩
    cases p with
    | none => simpa [climbToNull] using h
    | some a =>
      rw [climbToNull] at h ⊢
      exact Res.bind_mono (fun s hs _ => hs) (fun nd s hs hs2 => ih g _ s (by omega) hs hs2)
        h hne

theorem removeRelink_mono (m : Mem K V) (this node : Nat) {f g : Nat} (hle : f ≤ g)
    {r : Res ε (Mem K V × Option Nat)} (h : removeRelink m this node f = r)
    (hne : r ≠ Res.timeout) : removeRelink m this node g = r := by
  rw [removeRelink] at h ⊢
  refine Res.bind_mono (fun s hs _ => hs) (fun nd s hs hs2 => ?_) h hne
  dsimp only at hs ⊢
  split_ifs at hs ⊢
  · exact hs
  · exact hs
  · cases hr : nd.right with
    | none => simpa [hr] using hs
    | some q =>
      simp only [hr] at hs ⊢
      exact Res.bind_mono (fun s hs hs2 => leftmost_mono m f g q s hle hs hs2)
        (fun _ s hs _ => hs) hs hs2

theorem removeNode_mono (m : Mem K V) (this node : Nat) {f g : Nat} (hle : f ≤ g)
    {r : Res ε (Mem K V)} (h : removeNode m this node f = r)
    (hne : r ≠ Res.timeout) : removeNode m this node g = r := by
  rw [removeNode] at h ⊢
  refine Res.bind_mono (fun s hs hs2 => removeRelink_mono m this node hle hs hs2)
    (fun x s hs hs2 => ?_) h hne
  obtain ⟨m1, tmp⟩ := x
  dsimp only at hs ⊢
  refine Res.bind_mono (fun s hs hs2 => climbToNull_mono m1 f g tmp s hle hs hs2)
    (fun _ s hs hs2 => ?_) hs hs2
  exact Res.bind_mono (fun s hs _ => hs)
    (fun m2 s hs hs2 => Mem.delete_mono f g m2 _ s hle hs hs2) hs hs2

theorem removeIt_mono (m : Mem K V) (this : Nat) (it : ConstIterator) {f g : Nat}
    (hle : f ≤ g) {r : Res (Mem K V) (Mem K V)} (h : removeIt m this it f = r)
    (hne : r ≠ Res.timeout) : removeIt m this it g = r := by
  rw [removeIt] at h ⊢
  split_ifs at h ⊢
  · exact h
  · cases hn : it.node with
    | none => simpa [hn] using h
    | some n =>
      simp only [hn] at h ⊢
      exact removeNode_mono m this n hle h hne

end FuelMonotoneIter

section FuelMonotoneOrd2
variable [LinearOrder K]

theorem find_mono (m : Mem K V) (this : Nat) (key : K) {f g : Nat} (hle : f ≤ g)
    {r : Res ε ConstIterator} (h : find m this key f = r) (hne : r ≠ Res.timeout) :
    find m this key g = r := by
  rw [find] at h ⊢
  exact Res.bind_mono (fun s hs hs2 => findNode_mono m this key hle hs hs2)
    (fun _ s hs _ => hs) h hne

theorem removeKey_mono (m : Mem K V) (this : Nat) (key : K) {f g : Nat} (hle : f ≤ g)
    {r : Res (Mem K V) (Mem K V)} (h : removeKey m this key f = r)
    (hne : r ≠ Res.timeout) : removeKey m this key g = r := by
  rw [removeKey] at h ⊢
  exact Res.bind_mono (fun s hs hs2 => find_mono m this key hle hs hs2)
    (fun it s hs hs2 => removeIt_mono m this it hle hs hs2) h hne

theorem valueOf_mono (m : Mem K V) (this : Nat) (key : K) {f g : Nat} (hle : f ≤ g)
    {r : Res (Mem K V) Nat} (h : valueOf m this key f = r)
    (hne : r ≠ Res.timeout) : valueOf m this key g = r := by
  rw [valueOf] at h ⊢
  exact Res.bind_mono (fun s hs hs2 => findNode_mono m this key hle hs hs2)
    (fun _ s hs _ => hs) h hne

theorem assignLoop_mono (this other : Nat) {f g : Nat} (hle : f ≤ g) :
    ∀ (n k : Nat) (m : Mem K V) (it : ConstIterator) (r : Res (Mem K V) (Mem K V)),
    n ≤ k → assignLoop this other f n m it = r → r ≠ Res.timeout →
      assignLoop this other g k m it = r := by
  intro n
  induction n with
  | zero =>
    intro k m it r _ h hne
    rw [assignLoop.eq_def] at h
    dsimp only at h
    by_cases hit : it = cend other
    · rw [if_pos hit] at h
      rw [assignLoop.eq_def]
      dsimp only
      rw [if_pos hit]
      exact h
    · rw [if_neg hit] at h
      exact absurd h.symm hne
  | succ n ih =>
    intro k m it r hle2 h hne
    obtain ⟨k, rfl⟩ : ∃ j, k = j + 1 := ⟨k - 1, by omega⟩
    rw [assignLoop] at h ⊢
    by_cases hit : it = cend other
    · rw [if_pos hit] at h ⊢
      exact h
    · rw [if_neg hit] at h ⊢
      refine Res.bind_mono (fun s hs _ => hs) (fun d s hs hs2 => ?_) h hne
      refine Res.bind_mono (fun s hs hs2 => insertNew_mono m this _ _ hle hs hs2)
        (fun m1 s hs hs2 => ?_) hs hs2
      exact Res.bind_mono
        (Res.inMem_mono m1 (fun s hs hs2 => incr_mono m1 it hle hs hs2))
        (fun it1 s hs hs2 => ih k m1 it1 s (by omega) hs hs2) hs hs2

theorem assign_mono (m : Mem K V) (this other : Nat) {f g : Nat} (hle : f ≤ g)
    {r : Res (Mem K V) (Mem K V)} (h : assign m this other f = r)
    (hne : r ≠ Res.timeout) : assign m this other g = r := by
  rw [assign] at h ⊢
  split_ifs at h ⊢
  · refine Res.bind_mono (fun s hs hs2 => erase_mono m this hle hs hs2)
      (fun m1 s hs hs2 => ?_) h hne
    exact Res.bind_mono (fun s hs hs2 => cbegin_mono m1 other hle hs hs2)
      (fun it s hs hs2 => assignLoop_mono this other hle f g m1 it s hle hs hs2) hs hs2
  · exact h

end FuelMonotoneOrd2

/-! ## The count of a map along its history -/

section CountHistory

theorem findNode_undefined [LinearOrder K] {m : Mem K V} {this : Nat} (h : m.tree this = none)
    (key : K) (fuel : Nat) : (findNode m this key fuel : Res ε (Option Nat)) = Res.undefined := by
  simp [findNode, Mem.getTree, h]

theorem findNode_eq [LinearOrder K] {pc : Bool} {m : Mem K V} {this : Nat} {t : Tree K V}
    (hrep : MapRep pc m this t) (key : K) {fuel : Nat} (hf : t.height ≤ fuel) :
    (findNode m this key fuel : Res ε (Option Nat)) = Res.ok (t.findAddr key) := by
  have h := find_eq (ε := ε) hrep key hf
  rw [find] at h
  cases hfn : (findNode m this key fuel : Res ε (Option Nat)) with
  | ok c =>
    rw [hfn] at h
    simp only [Res.ok_bind, Res.pure_eq, Res.ok.injEq, ConstIterator.mk.injEq, true_and] at h
    rw [h]
  | thrown e s => rw [hfn] at h; cases h
  | undefined => rw [hfn] at h; cases h
  | timeout => rw [hfn] at h; cases h

/-- A duplicate-free list with the members of another list is as long as that list
without its duplicates. -/
theorem length_eq_dedup_length {α : Type} [DecidableEq α] {l1 l2 : List α} (hnd : l1.Nodup)
    (hmem : ∀ x, x ∈ l1 ↔ x ∈ l2) : l1.length = l2.dedup.length := by
  apply List.Perm.length_eq
  rw [List.perm_ext_iff_of_nodup hnd (List.nodup_dedup l2)]
  intro x
  rw [hmem x, List.mem_dedup]

variable [LinearOrder K]

/-- A copy assignment that returns normally keeps the invariant and leaves the trees of
all maps other than its destination as they are; an assignment of a map to itself leaves
all trees as they are. -/
theorem GInvW.assign_step {m m' : Mem K V} {T : Nat → Tree K V} (hg : GInvW m T)
    {this other : Nat} (hrun : Returns (fun f => Aisdi.assign m this other f) (Res.ok m')) :
    ∃ U, GInvW m' U ∧ ∀ j, (j ≠ this ∨ this = other) → U j = T j := by
  obtain ⟨f, hf, hres⟩ := hrun.exists_ge ((T this).height + (T other).size + 1 +
    (T other).height)
  by_cases hne : this = other
  · simp only [Aisdi.assign, hne, ne_eq, not_true_eq_false, if_false, Res.pure_eq,
      Res.ok.injEq] at hres
    subst hres
    exact ⟨T, hg, fun _ _ => rfl⟩
  · cases htm : m.tree this with
    | none =>
      simp [Aisdi.assign, hne, erase_undefined htm] at hres
    | some tm =>
      cases htmo : m.tree other with
      | none =>
        obtain ⟨m1, e1, _, _, _, e5, _, _⟩ := GInvW.erase (ε := Mem K V) hg htm
          (show (T this).height ≤ f by omega)
        have hno : m1.tree other = none := by rw [e5 other (Ne.symm hne)]; exact htmo
        simp [Aisdi.assign, hne, e1, cbegin, Mem.getTree, hno] at hres
      | some tmo =>
        obtain ⟨m1, t', e1, e2, _⟩ := GInvW.assign hg hne htm htmo
          (show (T this).height ≤ f by omega) (show (T other).size < f by omega)
          (show (T other).height ≤ f by omega) (fun _ => True) (fun _ _ _ _ _ _ _ => trivial)
          trivial
        rw [e1] at hres
        cases hres
        refine ⟨_, e2, fun j hj => ?_⟩
        rcases hj with hj | hj
        · exact Function.update_noteq hj _ _
        · exact absurd hj hne

/-- A move assignment that returns normally keeps the invariant and leaves the trees of
all maps other than its destination and its source as they are; an assignment of a map
to itself leaves all trees as they are. -/
theorem GInvW.moveAssign_step {m m' : Mem K V} {T : Nat → Tree K V} (hg : GInvW m T)
    {this other : Nat}
    (hrun : Returns (fun f => Aisdi.moveAssign m this other f) (Res.ok m')) :
    ∃ U, GInvW m' U ∧ ∀ j, ((j ≠ this ∧ j ≠ other) ∨ this = other) → U j = T j := by
  obtain ⟨f, hf, hres⟩ := hrun.exists_ge (T this).height
  by_cases hne : this = other
  · simp only [Aisdi.moveAssign, hne, ne_eq, not_true_eq_false, if_false, Res.pure_eq,
      Res.ok.injEq] at hres
    subst hres
    exact ⟨T, hg, fun _ _ => rfl⟩
  · cases htm : m.tree this with
    | none =>
      simp [Aisdi.moveAssign, hne, erase_undefined htm] at hres
    | some tm =>
      cases htmo : m.tree other with
      | none =>
        obtain ⟨m1, e1, _, _, _, e5, _, _⟩ := GInvW.erase (ε := Mem K V) hg htm hf
        have hno : m1.tree other = none := by rw [e5 other (Ne.symm hne)]; exact htmo
        simp [Aisdi.moveAssign, hne, e1, Mem.getTree, hno] at hres
      | some tmo =>
        obtain ⟨m1, e1, e2⟩ := GInvW.moveAssign hg hne htm htmo hf
        rw [e1] at hres
        cases hres
        refine ⟨_, e2, fun j hj => ?_⟩
        rcases hj with ⟨hj1, hj2⟩ | hj
        · rw [Function.update_noteq hj2, Function.update_noteq hj1]
        · exact absurd hj hne

variable [Inhabited V]

/-- A history ends in a reachable state. -/
theorem History.reachable {asg : Bool} {obj : Nat} {m : Mem K V} {i r : Nat}
    (h : History asg obj m i r) : Reachable true m := by
  induction h with
  | empty => exact Reachable.empty
  | ctor _ hnew ih => exact Reachable.ctor ih hnew
  | ctorList _ hnew hrun ih => exact Reachable.ctorList ih hnew hrun
  | opIndex _ _ hrun ih => exact Reachable.opIndex ih hrun
  | removeKey _ hrun ih => exact Reachable.removeKey ih hrun
  | removeIt _ hfind hrun ih => exact Reachable.removeIt ih hfind hrun
  | assign _ _ _ hrun ih => exact Reachable.assign rfl ih hrun
  | moveAssign _ _ hrun ih => exact Reachable.moveAssign rfl ih hrun

/-- When no assignment has written to the map `obj`, its tree has as many nodes as there
were successful insertions into it less the successful removals from it. -/
theorem History.size_eq {obj : Nat} {m : Mem K V} {i r : Nat} (h : History false obj m i r) :
    ∃ T, GInvW m T ∧ (T obj).size + r = i := by
  induction h with
  | empty => exact ⟨_, GInvW.empty, rfl⟩
  | ctor _ hnew ih =>
    obtain ⟨T, hg, hs⟩ := ih
    exact ⟨T, hg.ctor hnew, hs⟩
  | @ctorList m m' this i r list _ hnew hrun ih =>
    obtain ⟨T, hg, hs⟩ := ih
    obtain ⟨f, hf, hres⟩ := hrun.exists_ge (list.length + 1)
    obtain ⟨m1, t', e1, e2, e3⟩ := GInvW.ctorList (ε := Mem K V) hg hnew list
      (show list.length < f by omega)
    rw [e1] at hres
    cases hres
    refine ⟨_, e2, ?_⟩
    by_cases hobj : this = obj
    · subst hobj
      have hnil : T this = Tree.nil := hg.2.2.1 this hnew
      rw [hnil] at hs
      simp only [Tree.size, zero_add] at hs
      have hb : t'.BST := by
        cases htm1 : m'.tree this with
        | none =>
          have hnil1 := e2.2.2.1 this htm1
          simp only [Function.update_same] at hnil1
          rw [hnil1]
          trivial
        | some tm1 =>
          have hb1 := (e2.1 this tm1 htm1).2.2.1
          simpa only [Function.update_same] using hb1
      have hlen : t'.size = t'.keys.length := by
        rw [Tree.size_eq_length_nodes, Tree.keys_eq_nodes_map, List.length_map]
      simp only [Function.update_same, if_true]
      rw [hlen, length_eq_dedup_length (Tree.BST.nodup_keys hb) e3]
      omega
    · rw [if_neg hobj, Function.update_noteq (Ne.symm hobj)]
      omega
  | @opIndex m m' this i r key c a _ hfind hrun ih =>
    obtain ⟨T, hg, hs⟩ := ih
    obtain ⟨f1, hf1, hres1⟩ := hfind.exists_ge (T this).height
    obtain ⟨f, hf, hres⟩ := hrun.exists_ge ((T this).height + 1)
    cases htm : m.tree this with
    | none => rw [opIndex_undefined htm] at hres; cases hres
    | some tm =>
      obtain ⟨t1, t2, t3, _⟩ := hg.1 this tm htm
      rw [findNode_eq (show MapRep true m this (T this) from ⟨tm, htm, t1, t2⟩) key hf1] at hres1
      cases hres1
      obtain ⟨m1, a1, e1, e2⟩ := GInvW.opIndex hg htm key (show (T this).height < f by omega)
      rw [e1] at hres
      cases hres
      rcases e2 with ⟨hk, rfl, hfa⟩ | ⟨hk, _, hg'⟩
      · refine ⟨T, hg, ?_⟩
        rw [if_neg (by rw [hfa]; simp)]
        exact hs
      · refine ⟨_, hg', ?_⟩
        have hnone := (Tree.findAddr_eq_none t3).2 hk
        by_cases hobj : this = obj
        · subst hobj
          simp only [Function.update_same, hnone, and_self, if_true]
          rw [Tree.ins_size t3, if_neg hk]
          omega
        · rw [if_neg (fun hh => hobj hh.1), Function.update_noteq (Ne.symm hobj)]
          exact hs
  | @removeKey m m' this i r key _ hrun ih =>
    obtain ⟨T, hg, hs⟩ := ih
    obtain ⟨f, hf, hres⟩ := hrun.exists_ge (T this).height
    cases htm : m.tree this with
    | none =>
      simp [Aisdi.removeKey, find_undefined htm] at hres
    | some tm =>
      obtain ⟨_, _, t3, _⟩ := hg.1 this tm htm
      obtain ⟨t', a, v, e1, L, R, e2, e3⟩ := GInvW.removeKey hg hf hres
      refine ⟨_, e1, ?_⟩
      obtain ⟨_, _, hsz⟩ := Tree.facts_of_nodes_split t3 e2 e3
      by_cases hobj : this = obj
      · subst hobj
        simp only [Function.update_same, if_true]
        omega
      · rw [if_neg hobj, Function.update_noteq (Ne.symm hobj)]
        exact hs
  | @removeIt m m' this i r key it _ hfind hrun ih =>
    obtain ⟨T, hg, hs⟩ := ih
    obtain ⟨f1, hf1, hres1⟩ := hfind.exists_ge (T this).height
    obtain ⟨f, hf, hres⟩ := hrun.exists_ge (T this).height
    cases htm : m.tree this with
    | none => rw [find_undefined htm] at hres1; cases hres1
    | some tm =>
      obtain ⟨t1, t2, t3, _⟩ := hg.1 this tm htm
      rw [find_eq ⟨tm, htm, t1, t2⟩ key hf1] at hres1
      cases hres1
      cases hfa : (T this).findAddr key with
      | none => simp [Aisdi.removeIt, cend, hfa] at hres
      | some a =>
        obtain ⟨v, ha⟩ := (Tree.findAddr_eq_some t3).1 hfa
        obtain ⟨m1, t', d1, d2, L, R, e2, e3⟩ := GInvW.removeIt hg htm ha hf
        rw [hfa, d1] at hres
        cases hres
        refine ⟨_, d2, ?_⟩
        obtain ⟨_, _, hsz⟩ := Tree.facts_of_nodes_split t3 e2 e3
        by_cases hobj : this = obj
        · subst hobj
          simp only [Function.update_same, if_true]
          omega
        · rw [if_neg hobj, Function.update_noteq (Ne.symm hobj)]
          exact hs
  | @assign m m' this other i r c hguard _ _ hrun ih =>
    obtain ⟨T, hg, hs⟩ := ih
    obtain ⟨U, hg', hU⟩ := GInvW.assign_step hg hrun
    refine ⟨U, hg', ?_⟩
    rcases hguard with h | h | h
    · cases h
    · rw [if_neg (fun hh => h hh.1), hU obj (Or.inl (Ne.symm h))]
      exact hs
    · rw [if_neg (fun hh => hh.2 h), hU obj (Or.inr h)]
      exact hs
  | @moveAssign m m' this other i r hguard _ hrun ih =>
    obtain ⟨T, hg, hs⟩ := ih
    obtain ⟨U, hg', hU⟩ := GInvW.moveAssign_step hg hrun
    refine ⟨U, hg', ?_⟩
    rcases hguard with h | ⟨h1, h2⟩ | h
    · cases h
    · rw [hU obj (Or.inl ⟨Ne.symm h1, Ne.symm h2⟩)]
      exact hs
    · rw [hU obj (Or.inr h)]
      exact hs

end CountHistory

/-! ## The count invariant -/

section CountInvariant

theorem Tree.size_eq_zero_iff (t : Tree K V) : t.size = 0 ↔ t.rootPtr = none := by
  cases t with
  | nil => simp [Tree.size]
  | node l a k v r => simp [Tree.size]

theorem Tree.nodes_head_none_iff (t : Tree K V) :
    t.nodes.head?.map Prod.fst = none ↔ t.rootPtr = none := by
  cases t with
  | nil => simp [Tree.nodes]
  | node l a k v r =>
    simp only [Tree.nodes, Tree.rootPtr_node, Option.map_eq_none', List.head?_eq_none_iff,
      List.append_eq_nil, false_iff, reduceCtorEq]
    simp

/-- The scenario map with its history: seven successful insertions, no removal. -/
theorem exampleMem_history : History false 0 exampleMem 7 0 :=
  @History.ctorList Nat Nat _ _ false 0 Mem.empty exampleMem 0 0 0 exampleList
    History.empty rfl
    (Returns.of_mono (fun _ _ hle h hne => ctorList_mono _ _ _ hle h hne) 8 rfl (by simp))

/-- C5, the claim as stated fails once an assignment to the map is part of the history.  After
`TreeMap<int, int> a; a[5]; TreeMap<int, int> b; a = b;` there has been one successful
insertion into `a` (by `a[5]`; the copy assignment inserts nothing, `b` being empty)
and no removal, yet `a.getSize()` is 0: `erase()` in the assignment emptied `a`. -/
theorem count_history_counterexample :
    History true 0 assignedMem 1 0 ∧ (getSize assignedMem 0 : Res Unit Nat) = Res.ok 0 := by
  refine ⟨?_, rfl⟩
  have h0 : History true 0 (ctor (Mem.empty : Mem Nat Nat) 0) 0 0 :=
    History.ctor History.empty rfl
  have h1 := @History.opIndex Nat Nat _ _ true 0 _ indexedMem 0 0 0 5 none 0 h0
    (Returns.of_mono (fun _ _ hle h hne => findNode_mono _ _ _ hle h hne) 2 rfl (by simp))
    (Returns.of_mono (fun _ _ hle h hne => opIndex_mono _ _ _ hle h hne) 2 rfl (by simp))
  have h2 := @History.ctor Nat Nat _ _ true 0 indexedMem 1 _ _ h1 rfl
  have h3 := @History.assign Nat Nat _ _ true 0 _ assignedMem 0 1 _ _ 0 (Or.inl rfl) h2 rfl
    (Returns.of_mono (fun _ _ hle h hne => assign_mono _ _ _ hle h hne) 2 rfl (by simp))
  simpa using h3

variable [LinearOrder K] [Inhabited V]

/-- C5 (count invariant), amended.  In every state reached through constructions,
`operator[]`, removals and copy or move assignments, `getSize()` of a map is the number
of nodes of its tree, `isEmpty()` holds exactly when `root` is null, and `begin()`
returns `end()` exactly when `root` is null.  When no assignment has written to the map
(`asg = false`: it was not the destination of a copy or move assignment from another map
and not the source of a move assignment to another map, whatever was assigned between
other maps), the number of nodes is the number of successful insertions into the map
less the number of successful removals from it. -/
theorem count_invariant {asg : Bool} {obj : Nat} {m : Mem K V} {i r : Nat}
    (h : History asg obj m i r) {tm : TreeMap} (htm : m.tree obj = some tm) :
    ∃ t : Tree K V, MapRep true m obj t ∧
      (getSize m obj : Res Unit Nat) = Res.ok t.size ∧
      (asg = false → t.size + r = i) ∧
      (isEmpty m obj : Res Unit Bool) = Res.ok (decide (tm.root = none)) ∧
      ∃ it, Returns (fun f => (cbegin m obj f : Res Unit ConstIterator)) (Res.ok it) ∧
        (it = cend obj ↔ tm.root = none) := by
  obtain ⟨T, hg⟩ := h.reachable.ginv
  obtain ⟨h1, h2, h3, h4⟩ := hg.1 obj tm htm
  have hrep : MapRep true m obj (T obj) := ⟨tm, htm, h1, h2⟩
  refine ⟨T obj, hrep, ?_, ?_, ?_, ⟨some obj, (T obj).nodes.head?.map Prod.fst⟩, ?_, ?_⟩
  · rw [getSize_eq htm, h4]
  · intro hasg
    subst hasg
    obtain ⟨T2, hg2, hs⟩ := h.size_eq
    have h5 := (hg2.1 obj tm htm).2.2.2
    omega
  · simp only [isEmpty, Mem.getTree_eq htm, Res.ok_bind, Res.pure_eq, Res.ok.injEq,
      decide_eq_decide]
    rw [h4, h1]
    exact Tree.size_eq_zero_iff _
  · exact Returns.of_forall_ge (T obj).height (fun f hf => cbegin_eq hrep hf)
  · simp only [cend, ConstIterator.mk.injEq, true_and]
    rw [h1]
    exact Tree.nodes_head_none_iff _

/-- The history of the map `a` in `TreeMap<int, int> a; a[5]; TreeMap<int, int> b; b = a;`:
one successful insertion, no removal, and no assignment that writes to `a`. -/
theorem copiedMem_history : History false 0 copiedMem 1 0 := by
  have h0 : History false 0 (ctor (Mem.empty : Mem Nat Nat) 0) 0 0 :=
    History.ctor History.empty rfl
  have h1 := @History.opIndex Nat Nat _ _ false 0 _ indexedMem 0 0 0 5 none 0 h0
    (Returns.of_mono (fun _ _ hle h hne => findNode_mono _ _ _ hle h hne) 2 rfl (by simp))
    (Returns.of_mono (fun _ _ hle h hne => opIndex_mono _ _ _ hle h hne) 2 rfl (by simp))
  have h2 := @History.ctor Nat Nat _ _ false 0 indexedMem 1 _ _ h1 rfl
  have h3 := @History.assign Nat Nat _ _ false 0 _ copiedMem 1 0 _ _ 1
    (Or.inr (Or.inl (by decide))) h2 rfl
    (Returns.of_mono (fun _ _ hle h hne => assign_mono _ _ _ hle h hne) 3 rfl (by simp))
  simpa using h3

/-- Witness of C5: on the scenario map, seven insertions, no removal, size 7; and on the
map `a` after `a[5]; b = a;`, where an assignment between maps is part of the history but
does not write to `a`, one insertion, no removal, size 1. -/
theorem count_invariant_witness :
    (History false 0 exampleMem 7 0 ∧ exampleMem.tree 0 = some ⟨some 0, 7⟩ ∧
      (getSize exampleMem 0 : Res Unit Nat) = Res.ok 7 ∧
      ∃ t : Tree Nat Nat, MapRep true exampleMem 0 t ∧
        (getSize exampleMem 0 : Res Unit Nat) = Res.ok t.size ∧
        (false = false → t.size + 0 = 7) ∧
        (isEmpty exampleMem 0 : Res Unit Bool) =
          Res.ok (decide ((⟨some 0, 7⟩ : TreeMap).root = none)) ∧
        ∃ it, Returns (fun f => (cbegin exampleMem 0 f : Res Unit ConstIterator)) (Res.ok it) ∧
          (it = cend 0 ↔ (⟨some 0, 7⟩ : TreeMap).root = none)) ∧
    (History false 0 copiedMem 1 0 ∧ copiedMem.tree 0 = some ⟨some 0, 1⟩ ∧
      (getSize copiedMem 0 : Res Unit Nat) = Res.ok 1 ∧
      (getSize copiedMem 1 : Res Unit Nat) = Res.ok 1 ∧
      ∃ t : Tree Nat Nat, MapRep true copiedMem 0 t ∧
        (getSize copiedMem 0 : Res Unit Nat) = Res.ok t.size ∧
        (false = false → t.size + 0 = 1) ∧
        (isEmpty copiedMem 0 : Res Unit Bool) =
          Res.ok (decide ((⟨some 0, 1⟩ : TreeMap).root = none)) ∧
        ∃ it, Returns (fun f => (cbegin copiedMem 0 f : Res Unit ConstIterator)) (Res.ok it) ∧
          (it = cend 0 ↔ (⟨some 0, 1⟩ : TreeMap).root = none)) :=
  ⟨⟨exampleMem_history, exampleMem_tree, by decide,
      count_invariant exampleMem_history exampleMem_tree⟩,
    ⟨copiedMem_history, by decide, by decide, by decide,
      count_invariant copiedMem_history (by decide)⟩⟩

end CountInvariant

/-! ## Inserting keys and removing them all -/

section RoundTrip

theorem Tree.eq_nil_of_keys {t : Tree K V} (h : ∀ x, x ∉ t.keys) : t = Tree.nil := by
  cases t with
  | nil => rfl
  | node l a k v r => exact absurd (by simp [Tree.keys]) (h k)

variable [LinearOrder K]

/-- Removing, one after the other, the keys of a map in any order succeeds every time
and leaves the map empty. -/
theorem GInvW.removeAll (this : Nat) (perm : List K) :
    ∀ {m : Mem K V} {T : Nat → Tree K V} {tm : TreeMap} {fuel : Nat}, GInvW m T →
      m.tree this = some tm → perm.Nodup → (∀ x, x ∈ (T this).keys ↔ x ∈ perm) →
      (T this).size ≤ fuel →
      ∃ m', removeAll this fuel m perm = Res.ok m' ∧
        GInvW m' (Function.update T this Tree.nil) ∧ ∃ tm', m'.tree this = some tm' := by
  induction perm with
  | nil =>
    intro m T tm fuel hg htm _ hkeys _
    have hnil : T this = Tree.nil := Tree.eq_nil_of_keys (fun x hx => by simpa using (hkeys x).1 hx)
    refine ⟨m, rfl, ?_, tm, htm⟩
    rw [← hnil, Function.update_eq_self]
    exact hg
  | cons k ks ih =>
    intro m T tm fuel hg htm hnd hkeys hf
    obtain ⟨h1, h2, h3, h4⟩ := hg.1 this tm htm
    have hk : k ∈ (T this).keys := (hkeys k).2 (List.mem_cons_self _ _)
    obtain ⟨a, v, ha⟩ := Tree.mem_keys_iff.1 hk
    have hsz : (T this).size ≠ 0 := by
      rw [Tree.size_eq_length_nodes]
      exact List.length_pos_iff_ne_nil.2 (List.ne_nil_of_mem ha) |>.ne'
    have hfh : (T this).height ≤ fuel := le_trans (Tree.height_le_size _) hf
    obtain ⟨m1, t1, e1, _, _, _, e5, _⟩ := removeKey_spec htm h1 h2 h3 (by rw [h4]; exact hsz)
      ha hfh
    obtain ⟨t', a', v', g1, L, R, g2, g3⟩ := GInvW.removeKey hg hfh e1
    obtain ⟨_, hknot, hsize⟩ := Tree.facts_of_nodes_split h3 g2 g3
    have hkeys' : ∀ x, x ∈ t'.keys ↔ x ∈ ks := by
      intro x
      have hndk := Tree.BST.nodup_keys h3
      rw [Tree.keys_eq_nodes_map, g2] at hndk
      have hx := hkeys x
      rw [Tree.keys_eq_nodes_map, g2] at hx
      rw [Tree.keys_eq_nodes_map, g3]
      simp only [List.map_append, List.map_cons, List.mem_append, List.mem_cons] at hx ⊢
      simp only [List.map_append, List.map_cons, List.nodup_append, List.nodup_cons,
        List.mem_cons, List.disjoint_cons_right] at hndk
      have hkks : k ∉ ks := (List.nodup_cons.1 hnd).1
      constructor
      · rintro (hxl | hxr)
        · rcases hx.1 (Or.inl hxl) with rfl | hxks
          · exact absurd hxl hndk.2.2.1
          · exact hxks
        · rcases hx.1 (Or.inr (Or.inr hxr)) with rfl | hxks
          · exact absurd hxr hndk.2.1.1
          · exact hxks
      · intro hxks
        rcases hx.2 (Or.inr hxks) with hxl | rfl | hxr
        · exact Or.inl hxl
        · exact absurd hxks hkks
        · exact Or.inr hxr
    obtain ⟨m', d1, d2, d3⟩ := @ih m1 (Function.update T this t') _ fuel g1 e5
      (List.nodup_cons.1 hnd).2 (by simpa only [Function.update_same] using hkeys')
      (by simp only [Function.update_same]; omega)
    refine ⟨m', ?_, by simpa only [Function.update_idem] using d2, d3⟩
    rw [Aisdi.removeAll, e1]
    exact d1

end RoundTrip

section RoundTripClaim
variable [LinearOrder K]

/-- The object constructed from an initializer list exists afterwards. -/
theorem GInvW.ctorList_tree {m m1 : Mem K V} {T : Nat → Tree K V} (hg : GInvW m T)
    {this : Nat} (hnew : m.tree this = none) (list : List (K × V)) {fuel : Nat}
    (hf : list.length < fuel)
    (hrun : (Aisdi.ctorList m this list fuel : Res ε (Mem K V)) = Res.ok m1) :
    ∃ tm, m1.tree this = some tm := by
  cases list with
  | nil =>
    simp only [Aisdi.ctorList, Aisdi.ctorListLoop, Res.pure_eq, Res.ok.injEq] at hrun
    subst hrun
    exact ⟨⟨none, 0⟩, by simp [Aisdi.ctor]⟩
  | cons x rest =>
    obtain ⟨m', t', e1, e2, e3⟩ := GInvW.ctorList (ε := ε) hg hnew (x :: rest) hf
    rw [e1] at hrun
    cases hrun
    cases htm : m1.tree this with
    | some tm => exact ⟨tm, rfl⟩
    | none =>
      have hnil := e2.2.2.1 this htm
      simp only [Function.update_same] at hnil
      have hx := (e3 x.1).2 (by simp)
      rw [hnil] at hx
      simp [Tree.keys] at hx

variable [Inhabited V]

/-- C11 (insert/remove round trip).  A map is constructed, in any reachable state, from
a list of pairs with pairwise distinct keys; then `remove(key)` is called for the keys
in the order of any permutation of them.  Every call returns normally (the loop returns
normally), and afterwards `isEmpty()` is true, `getSize()` is 0 and `begin()` is
`end()`. -/
theorem insert_remove_round_trip {asg : Bool} {m : Mem K V} (hreach : Reachable asg m)
    {this : Nat} (hnew : m.tree this = none) (list : List (K × V))
    (hnd : (list.map Prod.fst).Nodup) (perm : List K) (hperm : perm.Perm (list.map Prod.fst))
    {fuel : Nat} (hf : list.length < fuel) :
    ∃ m1 m2, (ctorList m this list fuel : Res (Mem K V) (Mem K V)) = Res.ok m1 ∧
      (getSize m1 this : Res Unit Nat) = Res.ok list.length ∧
      removeAll this fuel m1 perm = Res.ok m2 ∧
      (isEmpty m2 this : Res Unit Bool) = Res.ok true ∧
      (getSize m2 this : Res Unit Nat) = Res.ok 0 ∧
      (cbegin m2 this fuel : Res Unit ConstIterator) = Res.ok (cend this) := by
  obtain ⟨T, hg⟩ := hreach.ginv
  obtain ⟨m1, t', e1, e2, e3⟩ := GInvW.ctorList (ε := Mem K V) hg hnew list hf
  obtain ⟨tm1, htm1⟩ := GInvW.ctorList_tree hg hnew list hf e1
  obtain ⟨_, _, b3, b4⟩ := e2.1 this tm1 htm1
  simp only [Function.update_same] at b3 b4
  have hsize : t'.size = list.length := by
    have h1 : t'.size = t'.keys.length := by
      rw [Tree.size_eq_length_nodes, Tree.keys_eq_nodes_map, List.length_map]
    have h2 := List.Perm.length_eq
      ((List.perm_ext_iff_of_nodup (Tree.BST.nodup_keys b3) hnd).2 e3)
    rw [h1, h2, List.length_map]
  obtain ⟨m2, d1, d2, tm2, htm2⟩ := @GInvW.removeAll K V _ this perm m1 _ tm1 fuel e2 htm1
    (hperm.nodup_iff.2 hnd)
    (by
      intro x
      simp only [Function.update_same]
      rw [e3 x]
      exact (hperm.mem_iff).symm)
    (by simp only [Function.update_same]; omega)
  obtain ⟨c1, c2, _, c4⟩ := d2.1 this tm2 htm2
  simp only [Function.update_same, Tree.rootPtr_nil, Tree.size] at c1 c2 c4
  refine ⟨m1, m2, e1, by rw [getSize_eq htm1, b4, hsize], d1, ?_, ?_, ?_⟩
  · simp [isEmpty, Mem.getTree_eq htm2, c4]
  · rw [getSize_eq htm2, c4]
  · have hb := cbegin_eq (ε := Unit)
      (show MapRep true m2 this (Tree.nil : Tree K V) from ⟨tm2, htm2, c1, trivial⟩)
      (show (Tree.nil : Tree K V).height ≤ fuel by simp [Tree.height])
    simpa [Tree.nodes, cend] using hb

/-- Witness of C11: the scenario map, built in the empty memory, with its keys removed
in the order 9, 1, 5, 7, 3, 4, 8. -/
theorem insert_remove_round_trip_witness :
    ∃ m1 m2, (ctorList (Mem.empty : Mem Nat Nat) 0 exampleList 8 :
        Res (Mem Nat Nat) (Mem Nat Nat)) = Res.ok m1 ∧
      (getSize m1 0 : Res Unit Nat) = Res.ok exampleList.length ∧
      removeAll 0 8 m1 [9, 1, 5, 7, 3, 4, 8] = Res.ok m2 ∧
      (isEmpty m2 0 : Res Unit Bool) = Res.ok true ∧
      (getSize m2 0 : Res Unit Nat) = Res.ok 0 ∧
      (cbegin m2 0 8 : Res Unit ConstIterator) = Res.ok (cend 0) :=
  insert_remove_round_trip (Reachable.empty : Reachable false (Mem.empty : Mem Nat Nat))
    rfl exampleList (by decide) [9, 1, 5, 7, 3, 4, 8] (by decide) (by decide)

end RoundTripClaim

/-! ## Index-style access and `valueOf` -/

section IndexAccess
variable [LinearOrder K]

/-- C12 (index-style access).  On a map whose nodes form a binary search tree `t`, with
the allocator returning an unused address, `operator[](key)` returns normally.  When
`key` is absent, the map owns afterwards the entries of `t` and the new entry
`(key, default)` at its sorted position, `getSize()` is larger by one provided that the
larger count fits into a `size_t` (`count++` does not wrap), and the reference returned
designates the value of the new entry.  When `key` is present the memory is unchanged
and the reference returned designates the value stored for `key`. -/
theorem index_access [Inhabited V] {pc : Bool} {m : Mem K V} {this : Nat} {t : Tree K V}
    (hrep : MapRep pc m this t) (hb : t.BST) (hfresh : m.node m.next = none)
    (key : K) {fuel : Nat} (hf : t.height < fuel) :
    ∃ m' a t', opIndex m this key fuel = Res.ok (m', a) ∧
      MapRep pc m' this t' ∧ t'.BST ∧
      (key ∉ t.keys →
        (∃ l1 l2, t.toList = l1 ++ l2 ∧ t'.toList = l1 ++ (key, default) :: l2 ∧
          (∀ x ∈ l1, x.1 < key) ∧ (∀ x ∈ l2, key < x.1)) ∧
        (∀ c, (getSize m this : Res (Mem K V) Nat) = Res.ok c → c + 1 < 2 ^ 64 →
          (getSize m' this : Res (Mem K V) Nat) = Res.ok (c + 1)) ∧
        (a, key, default) ∈ t'.nodes ∧
        ConstIterator.deref m' ⟨some this, some a⟩ = Res.ok (key, default)) ∧
      (key ∈ t.keys → m' = m ∧ t' = t ∧
        ∃ v, (a, key, v) ∈ t.nodes ∧ (key, v) ∈ t.toList ∧
          ConstIterator.deref m ⟨some this, some a⟩ = Res.ok (key, v)) := by
  have hfind := findNode_eq (ε := Mem K V) hrep key (le_of_lt hf)
  obtain ⟨tm, htm, hroot, hr⟩ := hrep
  cases hfa : t.findAddr key with
  | some c =>
    obtain ⟨v, hv⟩ := (Tree.findAddr_eq_some hb).1 hfa
    have hk : key ∈ t.keys := Tree.mem_keys_iff.2 ⟨c, v, hv⟩
    refine ⟨m, c, t, ?_, ⟨tm, htm, hroot, hr⟩, hb, fun hnk => absurd hk hnk, fun _ =>
      ⟨rfl, rfl, v, hv, Tree.mem_toList_iff.2 ⟨c, hv⟩, deref_nodes hr this hv⟩⟩
    rw [opIndex, hfind, hfa]
    rfl
  | none =>
    have hk : key ∉ t.keys := (Tree.findAddr_eq_none hb).1 hfa
    obtain ⟨m', e1, e2, e3, e4, e5, e6, e7⟩ :=
      insertNew_spec (ε := Mem K V) htm hroot hr hb hfresh key default hf
    obtain ⟨l1, l2, h1, h2, h3, h4⟩ := Tree.ins_nodes hb hk m.next (default : V)
    have hmem : (m.next, key, default) ∈ (t.ins m.next key (default : V)).nodes := by
      rw [h2]; simp
    refine ⟨m', m.next, t.ins m.next key default, ?_, ⟨_, e2, rfl, e6⟩, Tree.ins_BST hb _ _ _,
      fun _ => ⟨⟨l1.map Prod.snd, l2.map Prod.snd, ?_, ?_, ?_, ?_⟩, ?_, hmem,
        deref_nodes e6 this hmem⟩, fun hk2 => absurd hk2 hk⟩
    · rw [opIndex, hfind, hfa]
      simp only [Res.ok_bind]
      rw [insertNew] at e1
      rw [e1]
      rfl
    · simp [Tree.toList_eq_map, h1]
    · simp [Tree.toList_eq_map, h2]
    · intro x hx
      obtain ⟨y, hy, rfl⟩ := List.mem_map.1 hx
      exact h3 y hy
    · intro x hx
      obtain ⟨y, hy, rfl⟩ := List.mem_map.1 hx
      exact h4 y hy
    · intro c hc _
      rw [getSize_eq htm] at hc
      cases hc
      rw [getSize_eq e2]
      simp [hk]

/-- Witness of C12 on the scenario map: `operator[](42)`, an absent key. -/
theorem index_access_witness :
    (opIndex exampleMem 0 42 4).toOption.map Prod.snd = some 7 ∧
    (opIndex exampleMem 0 42 4 >>= fun r => getSize r.1 0).toOption = some 8 ∧
    ∃ m' a t', opIndex exampleMem 0 42 4 = Res.ok (m', a) ∧
      MapRep true m' 0 t' ∧ t'.BST ∧
      (42 ∉ exampleTree.keys →
        (∃ l1 l2, exampleTree.toList = l1 ++ l2 ∧ t'.toList = l1 ++ (42, default) :: l2 ∧
          (∀ x ∈ l1, x.1 < 42) ∧ (∀ x ∈ l2, 42 < x.1)) ∧
        (∀ c, (getSize exampleMem 0 : Res (Mem Nat Nat) Nat) = Res.ok c → c + 1 < 2 ^ 64 →
          (getSize m' 0 : Res (Mem Nat Nat) Nat) = Res.ok (c + 1)) ∧
        (a, 42, default) ∈ t'.nodes ∧
        ConstIterator.deref m' ⟨some 0, some a⟩ = Res.ok (42, default)) ∧
      (42 ∈ exampleTree.keys → m' = exampleMem ∧ t' = exampleTree ∧
        ∃ v, (a, 42, v) ∈ exampleTree.nodes ∧ (42, v) ∈ exampleTree.toList ∧
          ConstIterator.deref exampleMem ⟨some 0, some a⟩ = Res.ok (42, v)) :=
  ⟨by decide, by decide,
    index_access (exampleMem_mapRep true) exampleTree_BST exampleMem_fresh 42 (by decide)⟩

end IndexAccess

/-! ## Functions that throw no exception -/

section NoThrowFacts

theorem Res.noThrow_ok {α : Type} (a : α) : (Res.ok a : Res ε α).NoThrow :=
  fun _ _ h => by cases h

theorem Res.noThrow_pure {α : Type} (a : α) : (pure a : Res ε α).NoThrow :=
  fun _ _ h => by cases h

theorem Res.noThrow_undefined {α : Type} : (Res.undefined : Res ε α).NoThrow :=
  fun _ _ h => by cases h

theorem Res.noThrow_timeout {α : Type} : (Res.timeout : Res ε α).NoThrow :=
  fun _ _ h => by cases h

theorem Res.NoThrow.bind {α β : Type} {x : Res ε α} {f : α → Res ε β} (hx : x.NoThrow)
    (hf : ∀ a, (f a).NoThrow) : (x >>= f).NoThrow := by
  intro e s h
  cases x with
  | ok a => exact hf a e s h
  | thrown e1 s1 => exact hx e1 s1 rfl
  | undefined => cases h
  | timeout => cases h

theorem Mem.getNode_noThrow (m : Mem K V) (a : Nat) : (m.getNode a : Res ε (Node K V)).NoThrow := by
  unfold Mem.getNode
  split
  · exact Res.noThrow_ok _
  · exact Res.noThrow_undefined

theorem Mem.getTree_noThrow (m : Mem K V) (a : Nat) : (m.getTree a : Res ε TreeMap).NoThrow := by
  unfold Mem.getTree
  split
  · exact Res.noThrow_ok _
  · exact Res.noThrow_undefined

theorem Mem.setLeft_noThrow (m : Mem K V) (a : Nat) (p : Option Nat) :
    (m.setLeft a p : Res ε (Mem K V)).NoThrow :=
  Res.NoThrow.bind (Mem.getNode_noThrow m a) (fun _ => Res.noThrow_pure _)

theorem Mem.setRight_noThrow (m : Mem K V) (a : Nat) (p : Option Nat) :
    (m.setRight a p : Res ε (Mem K V)).NoThrow :=
  Res.NoThrow.bind (Mem.getNode_noThrow m a) (fun _ => Res.noThrow_pure _)

theorem Mem.setParent_noThrow (m : Mem K V) (a : Nat) (p : Option Nat) :
    (m.setParent a p : Res ε (Mem K V)).NoThrow :=
  Res.NoThrow.bind (Mem.getNode_noThrow m a) (fun _ => Res.noThrow_pure _)

theorem Mem.setRoot_noThrow (m : Mem K V) (a : Nat) (p : Option Nat) :
    (m.setRoot a p : Res ε (Mem K V)).NoThrow :=
  Res.NoThrow.bind (Mem.getTree_noThrow m a) (fun _ => Res.noThrow_pure _)

theorem Mem.setCount_noThrow (m : Mem K V) (a : Nat) (c : Nat) :
    (m.setCount a c : Res ε (Mem K V)).NoThrow :=
  Res.NoThrow.bind (Mem.getTree_noThrow m a) (fun _ => Res.noThrow_pure _)

theorem Mem.decrCount_noThrow (m : Mem K V) (a : Nat) :
    (m.decrCount a : Res ε (Mem K V)).NoThrow :=
  Res.NoThrow.bind (Mem.getTree_noThrow m a) (fun _ => Mem.setCount_noThrow _ _ _)

theorem Mem.delete_noThrow : ∀ (f : Nat) (m : Mem K V) (p : Option Nat),
    (Mem.delete f m p : Res ε (Mem K V)).NoThrow := by
  intro f
  induction f with
  | zero =>
    intro m p
    cases p with
    | none => exact Res.noThrow_ok _
    | some a => exact Res.noThrow_timeout
  | succ f ih =>
    intro m p
    cases p with
    | none => exact Res.noThrow_ok _
    | some a =>
      rw [Mem.delete]
      exact Res.NoThrow.bind (Mem.getNode_noThrow m a) (fun nd =>
        Res.NoThrow.bind (ih m _) (fun m1 =>
          Res.NoThrow.bind (ih m1 _) (fun _ => Res.noThrow_pure _)))

theorem leftmost_noThrow (m : Mem K V) : ∀ (f a : Nat), (leftmost m f a : Res ε Nat).NoThrow := by
  intro f
  induction f with
  | zero =>
    intro a
    rw [leftmost.eq_1]
    refine Res.NoThrow.bind (Mem.getNode_noThrow m a) (fun nd => ?_)
    split
    · exact Res.noThrow_pure _
    · exact Res.noThrow_timeout
  | succ f ih =>
    intro a
    rw [leftmost.eq_2]
    refine Res.NoThrow.bind (Mem.getNode_noThrow m a) (fun nd => ?_)
    split
    · exact Res.noThrow_pure _
    · exact ih _

theorem climbToNull_noThrow (m : Mem K V) : ∀ (f : Nat) (p : Option Nat),
    (climbToNull m f p : Res ε Unit).NoThrow := by
  intro f
  induction f with
  | zero =>
    intro p
    cases p with
    | none => exact Res.noThrow_ok _
    | some a => exact Res.noThrow_timeout
  | succ f ih =>
    intro p
    cases p with
    | none => exact Res.noThrow_ok _
    | some a =>
      rw [climbToNull]
      exact Res.NoThrow.bind (Mem.getNode_noThrow m a) (fun nd => ih _)

theorem replace_noThrow (m : Mem K V) (this A : Nat) (B : Option Nat) :
    (replace m this A B : Res ε (Mem K V)).NoThrow := by
  unfold replace
  repeat' first
    | exact Res.noThrow_pure _
    | exact Res.noThrow_undefined
    | exact Mem.getNode_noThrow _ _
    | exact Mem.setLeft_noThrow _ _ _
    | exact Mem.setRight_noThrow _ _ _
    | exact Mem.setParent_noThrow _ _ _
    | exact Mem.setRoot_noThrow _ _ _
    | refine Res.NoThrow.bind ?_ (fun _ => ?_)
    | split

theorem removeRelink_noThrow (m : Mem K V) (this node fuel : Nat) :
    (removeRelink m this node fuel : Res ε (Mem K V × Option Nat)).NoThrow := by
  unfold removeRelink
  repeat' first
    | exact Res.noThrow_pure _
    | exact Res.noThrow_undefined
    | exact Mem.getNode_noThrow _ _
    | exact replace_noThrow _ _ _ _
    | exact leftmost_noThrow _ _ _
    | refine Res.NoThrow.bind ?_ (fun _ => ?_)
    | split

theorem removeNode_noThrow (m : Mem K V) (this node fuel : Nat) :
    (removeNode m this node fuel : Res ε (Mem K V)).NoThrow := by
  unfold removeNode
  repeat' first
    | exact Res.noThrow_pure _
    | exact removeRelink_noThrow _ _ _ _
    | exact climbToNull_noThrow _ _ _
    | exact Mem.decrCount_noThrow _ _
    | exact Mem.delete_noThrow _ _ _
    | refine Res.NoThrow.bind ?_ (fun _ => ?_)

end NoThrowFacts

/-! ## Errors of `valueOf` and `remove` -/

section SmallScenario

theorem smallMem_tree : smallMem.tree 0 = some ⟨some 0, 3⟩ := by decide

theorem smallMem_mapRep (pc : Bool) : MapRep pc smallMem 0 smallTree := by
  refine ⟨⟨some 0, 3⟩, smallMem_tree, rfl, ?_⟩
  exact ⟨⟨⟨(1, 10), none, some 1, none⟩, rfl, rfl, rfl, rfl, fun _ => rfl⟩, trivial,
    ⟨⟨⟨(2, 20), none, some 2, some 0⟩, rfl, rfl, rfl, rfl, fun _ => rfl⟩, trivial,
      ⟨⟨⟨(3, 30), none, none, some 1⟩, rfl, rfl, rfl, rfl, fun _ => rfl⟩, trivial,
        trivial⟩⟩⟩

theorem smallTree_BST : smallTree.BST := by
  simp [smallTree, Tree.BST, Tree.keys]

end SmallScenario

section IteratorRemoval

/-- C14 (`remove(iterator)` rejects invalid iterators).  For every memory, map object
and iterator, `remove(it)` throws exactly when `it` is not bound to this map (it is
bound to another map or to none) or is the end position of this map; the exception is
`std::out_of_range("remove")` and the memory it leaves behind is the memory before the
call. -/
theorem removeIt_rejects (m : Mem K V) (this : Nat) (it : ConstIterator) (fuel : Nat) :
    ((∃ e s, removeIt m this it fuel = Res.thrown e s) ↔
      (it.tree ≠ some this ∨ it = cend this)) ∧
    (∀ e s, removeIt m this it fuel = Res.thrown e s → e = OutOfRange.remove ∧ s = m) := by
  by_cases hc : some this ≠ it.tree ∨ it = cend this
  · have hrun : removeIt m this it fuel = Res.thrown OutOfRange.remove m := by
      rw [removeIt, if_pos hc]
    refine ⟨⟨fun _ => ?_, fun _ => ⟨_, _, hrun⟩⟩, fun e s h => ?_⟩
    · rcases hc with h1 | h2
      · exact Or.inl (fun h => h1 h.symm)
      · exact Or.inr h2
    · rw [hrun] at h
      cases h
      exact ⟨rfl, rfl⟩
  · have hno : (removeIt m this it fuel).NoThrow := by
      rw [removeIt, if_neg hc]
      split
      · exact Res.noThrow_undefined
      · exact removeNode_noThrow _ _ _ _
    refine ⟨⟨fun ⟨e, s, h⟩ => absurd h (hno e s), fun h => ?_⟩, fun e s h => absurd h (hno e s)⟩
    exfalso
    apply hc
    rcases h with h1 | h2
    · exact Or.inl (fun h => h1 h.symm)
    · exact Or.inr h2

end IteratorRemoval

section ErrorClaims
variable [LinearOrder K]

/-- C13 (`valueOf` raises iff the key is absent).  On a map whose nodes form a binary
search tree, `valueOf(key)` throws exactly when `key` is not stored; the exception is
`std::out_of_range("valueOf")` and the memory it leaves behind is the memory before the
call.  When `key` is stored with the value `v`, the call returns a reference to the
value of the node that holds `(key, v)`.  The function returns no new memory: it does
not write. -/
theorem valueOf_raises_iff {pc : Bool} {m : Mem K V} {this : Nat} {t : Tree K V}
    (hrep : MapRep pc m this t) (hb : t.BST) (key : K) {fuel : Nat} (hf : t.height ≤ fuel) :
    ((∃ e s, valueOf m this key fuel = Res.thrown e s) ↔ key ∉ t.keys) ∧
    (key ∉ t.keys → valueOf m this key fuel = Res.thrown OutOfRange.valueOf m) ∧
    (∀ v, (key, v) ∈ t.toList →
      ∃ a nd, valueOf m this key fuel = Res.ok a ∧ (a, key, v) ∈ t.nodes ∧
        m.node a = some nd ∧ nd.data = (key, v)) := by
  have hfind := findNode_eq (ε := Mem K V) hrep key hf
  obtain ⟨tm, htm, hroot, hr⟩ := hrep
  have habs : key ∉ t.keys → valueOf m this key fuel = Res.thrown OutOfRange.valueOf m := by
    intro hk
    rw [valueOf, hfind, (Tree.findAddr_eq_none hb).2 hk]
    rfl
  have hpres : ∀ v, (key, v) ∈ t.toList →
      ∃ a nd, valueOf m this key fuel = Res.ok a ∧ (a, key, v) ∈ t.nodes ∧
        m.node a = some nd ∧ nd.data = (key, v) := by
    intro v hv
    obtain ⟨a, ha⟩ := Tree.mem_toList_iff.1 hv
    obtain ⟨nd, c1, c2⟩ := hr.cell_of_mem ha
    refine ⟨a, nd, ?_, ha, c1, c2⟩
    rw [valueOf, hfind, (Tree.findAddr_eq_some hb).2 ⟨v, ha⟩]
    rfl
  refine ⟨⟨?_, fun hk => ⟨_, _, habs hk⟩⟩, habs, hpres⟩
  rintro ⟨e, s, hthrow⟩ hk
  obtain ⟨a, v, ha⟩ := Tree.mem_keys_iff.1 hk
  obtain ⟨a', nd, h1, _⟩ := hpres v (Tree.mem_toList_iff.2 ⟨a, ha⟩)
  rw [h1] at hthrow
  cases hthrow

/-- Witness of C13: `valueOf(42)` on the map with the keys 1, 2, 3 throws. -/
theorem valueOf_raises_iff_witness :
    ((valueOf smallMem 0 42 3).toOption = none) ∧
    (((∃ e s, valueOf smallMem 0 42 3 = Res.thrown e s) ↔ 42 ∉ smallTree.keys) ∧
      (42 ∉ smallTree.keys → valueOf smallMem 0 42 3 = Res.thrown OutOfRange.valueOf smallMem) ∧
      (∀ v, (42, v) ∈ smallTree.toList →
        ∃ a nd, valueOf smallMem 0 42 3 = Res.ok a ∧ (a, 42, v) ∈ smallTree.nodes ∧
          smallMem.node a = some nd ∧ nd.data = (42, v))) :=
  ⟨by decide, valueOf_raises_iff (smallMem_mapRep false) smallTree_BST 42 (by decide)⟩

/-- C19 (`remove(key)` on an absent key is an error).  On a map whose nodes form a
binary search tree, `remove(key)` throws exactly when `key` is not stored; it is then
the exception `std::out_of_range("remove")` that `remove(end())` throws, and the memory
left behind is the memory before the call.  With consistent parent links and `count`
equal to the number of nodes, `remove(key)` returns normally exactly when `key` is
stored. -/
theorem removeKey_absent_throws {pc : Bool} {m : Mem K V} {this : Nat} {t : Tree K V}
    (hrep : MapRep pc m this t) (hb : t.BST) (key : K) {fuel : Nat} (hf : t.height ≤ fuel) :
    ((∃ e s, removeKey m this key fuel = Res.thrown e s) ↔ key ∉ t.keys) ∧
    (key ∉ t.keys → removeKey m this key fuel = Res.thrown OutOfRange.remove m ∧
      removeIt m this (cend this) fuel = Res.thrown OutOfRange.remove m) ∧
    (pc = true → (getSize m this : Res (Mem K V) Nat) = Res.ok t.size →
      ((∃ m', removeKey m this key fuel = Res.ok m') ↔ key ∈ t.keys)) := by
  have hfind := find_eq (ε := Mem K V) hrep key hf
  have habs : key ∉ t.keys → removeKey m this key fuel = Res.thrown OutOfRange.remove m := by
    intro hk
    rw [removeKey, hfind, (Tree.findAddr_eq_none hb).2 hk]
    simp [removeIt, cend]
  have hpres : key ∈ t.keys → (removeKey m this key fuel).NoThrow := by
    intro hk
    obtain ⟨a, v, ha⟩ := Tree.mem_keys_iff.1 hk
    rw [removeKey, hfind, (Tree.findAddr_eq_some hb).2 ⟨v, ha⟩]
    simp only [Res.ok_bind, removeIt, cend, ne_eq, not_true_eq_false, ConstIterator.mk.injEq,
      reduceCtorEq, and_false, or_self, if_false]
    exact removeNode_noThrow _ _ _ _
  refine ⟨⟨?_, fun hk => ⟨_, _, habs hk⟩⟩, fun hk => ⟨habs hk, by simp [removeIt, cend]⟩, ?_⟩
  · rintro ⟨e, s, hthrow⟩ hk
    exact hpres hk e s hthrow
  · intro hpc hcount
    subst hpc
    obtain ⟨tm, htm, hroot, hr⟩ := hrep
    rw [getSize_eq htm] at hcount
    simp only [Res.ok.injEq] at hcount
    constructor
    · rintro ⟨m', hrun⟩
      by_contra hk
      rw [habs hk] at hrun
      cases hrun
    · intro hk
      obtain ⟨a, v, ha⟩ := Tree.mem_keys_iff.1 hk
      have hsz : t.size ≠ 0 := by
        rw [Tree.size_eq_length_nodes]
        exact (List.length_pos_iff_ne_nil.2 (List.ne_nil_of_mem ha)).ne'
      obtain ⟨m', t', e1, _⟩ := removeKey_spec htm hroot hr hb (by rw [hcount]; exact hsz)
        ha hf
      exact ⟨m', e1⟩

/-- Witness of C19 on the scenario map: `remove(6)`, an absent key, throws. -/
theorem removeKey_absent_throws_witness :
    (removeKey exampleMem 0 6 3).toOption.isNone = true ∧
    (((∃ e s, removeKey exampleMem 0 6 3 = Res.thrown e s) ↔ 6 ∉ exampleTree.keys) ∧
      (6 ∉ exampleTree.keys →
        removeKey exampleMem 0 6 3 = Res.thrown OutOfRange.remove exampleMem ∧
        removeIt exampleMem 0 (cend 0) 3 = Res.thrown OutOfRange.remove exampleMem) ∧
      (true = true → (getSize exampleMem 0 : Res (Mem Nat Nat) Nat) = Res.ok exampleTree.size →
        ((∃ m', removeKey exampleMem 0 6 3 = Res.ok m') ↔ 6 ∈ exampleTree.keys))) :=
  ⟨by decide, removeKey_absent_throws (exampleMem_mapRep true) exampleTree_BST 6 (by decide)⟩

end ErrorClaims

/-! ## Construction from a list: the first occurrence of a key wins -/

section FirstWinsBasics

theorem Tree.mem_keys_of_mem_toList {t : Tree K V} {k : K} {v : V} (h : (k, v) ∈ t.toList) :
    k ∈ t.keys := by
  rw [Tree.keys_eq_map]
  exact List.mem_map.2 ⟨(k, v), h, rfl⟩

end FirstWinsBasics

section FirstWins
variable [LinearOrder K]

theorem Tree.ins_toList_iff {t : Tree K V} (hb : t.BST) {key : K} (hk : key ∉ t.keys)
    (p : Nat) (v : V) (y : K × V) :
    y ∈ (t.ins p key v).toList ↔ y = (key, v) ∨ y ∈ t.toList := by
  obtain ⟨l1, l2, h1, h2, _, _⟩ := Tree.ins_nodes hb hk p v
  rw [Tree.toList_eq_map, Tree.toList_eq_map, h1, h2]
  simp only [List.map_append, List.map_cons, List.mem_append, List.mem_cons]
  tauto

/-- The loop of the initializer-list constructor, with the entries it leaves: those of
the map before, and for every other key the first pair of the list with that key. -/
theorem GInvW.ctorListLoop_entries (this : Nat) (list : List (K × V)) :
    ∀ {m : Mem K V} {T : Nat → Tree K V} {tm : TreeMap} {fuel : Nat}, GInvW m T →
      m.tree this = some tm → (T this).height + list.length < fuel →
      ∃ m' t', (Aisdi.ctorListLoop this fuel m list : Res ε (Mem K V)) = Res.ok m' ∧
        GInvW m' (Function.update T this t') ∧
        (∀ k v, (k, v) ∈ t'.toList ↔ ((k, v) ∈ (T this).toList ∨
          (k ∉ (T this).keys ∧ list.find? (fun x => decide (x.1 = k)) = some (k, v)))) ∧
        ∃ tm', m'.tree this = some tm' := by
  induction list with
  | nil =>
    intro m T tm fuel hg htm hf
    exact ⟨m, T this, rfl, by rw [Function.update_eq_self]; exact hg, by simp, tm, htm⟩
  | cons x rest ih =>
    intro m T tm fuel hg htm hf
    simp only [List.length_cons] at hf
    have hb := (hg.1 this tm htm).2.2.1
    obtain ⟨m1, e1, e2, _, _, ⟨tm1, htm1⟩⟩ := GInvW.insertNew (ε := ε) hg htm x.1 x.2
      (show (T this).height < fuel by omega)
    have hh : ((Function.update T this ((T this).ins m.next x.1 x.2)) this).height
        + rest.length < fuel := by
      simp only [Function.update_same]
      have hle := Tree.ins_height_le (T this) m.next x.1 x.2
      omega
    obtain ⟨m', t', d1, d2, d3, d4⟩ := ih e2 htm1 hh
    refine ⟨m', t', ?_, ?_, ?_, d4⟩
    · simp only [Aisdi.ctorListLoop, e1, Res.ok_bind, d1]
    · simpa using d2
    · intro k v
      rw [d3 k v]
      simp only [Function.update_same, List.find?_cons]
      by_cases hx : x.1 ∈ (T this).keys
      · rw [Tree.ins_of_mem hb hx]
        by_cases hxk : x.1 = k
        · subst hxk
          simp [hx]
        · simp [hxk]
      · rw [Tree.ins_toList_iff hb hx, Tree.ins_keys_iff hb]
        by_cases hxk : x.1 = k
        · subst hxk
          simp only [decide_True, Option.some.injEq, true_or, not_true_eq_false, false_and,
            or_false]
          constructor
          · rintro (h | h)
            · exact Or.inr ⟨hx, h.symm⟩
            · exact Or.inl h
          · rintro (h | ⟨_, h⟩)
            · exact Or.inr h
            · exact Or.inl h.symm
        · have hne : (k, v) ≠ x := fun h => hxk (by rw [← h])
          have hkx : ¬ k = x.1 := fun h => hxk h.symm
          simp [hxk, hne, hkx]

variable [Inhabited V]

/-- C15 (construction from a sequence, the first occurrence wins).  The map constructed
from a list of pairs, in any reachable state, stores the pair `(k, v)` exactly when
`(k, v)` is the first pair of the list with the key `k`; its keys are the keys of the
list, each once, in increasing order, and `getSize()` is the number of distinct keys of
the list. -/
theorem ctorList_first_wins {asg : Bool} {m : Mem K V} (hreach : Reachable asg m)
    {this : Nat} (hnew : m.tree this = none) (list : List (K × V)) {fuel : Nat}
    (hf : list.length < fuel) :
    ∃ m' t', (ctorList m this list fuel : Res (Mem K V) (Mem K V)) = Res.ok m' ∧
      MapRep true m' this t' ∧ t'.BST ∧
      (∀ k v, (k, v) ∈ t'.toList ↔ list.find? (fun x => decide (x.1 = k)) = some (k, v)) ∧
      (∀ k, k ∈ t'.keys ↔ k ∈ list.map Prod.fst) ∧
      (getSize m' this : Res (Mem K V) Nat) = Res.ok (list.map Prod.fst).dedup.length := by
  obtain ⟨T, hg⟩ := hreach.ginv
  have hT : T this = Tree.nil := hg.2.2.1 this hnew
  obtain ⟨m', t', e1, e2, e3, tm', htm'⟩ := GInvW.ctorListLoop_entries (ε := Mem K V) this list
    (GInvW.ctor hg hnew)
    (show (Aisdi.ctor m this).tree this = some ⟨none, 0⟩ by simp [Aisdi.ctor])
    (show (T this).height + list.length < fuel by rw [hT]; simpa [Tree.height] using hf)
  obtain ⟨b1, b2, b3, b4⟩ := e2.1 this tm' htm'
  simp only [Function.update_same] at b1 b2 b3 b4
  have hentries : ∀ k v, (k, v) ∈ t'.toList ↔
      list.find? (fun x => decide (x.1 = k)) = some (k, v) := by
    intro k v
    rw [e3 k v, hT]
    simp [Tree.toList, Tree.keys]
  have hkeys : ∀ k, k ∈ t'.keys ↔ k ∈ list.map Prod.fst := by
    intro k
    constructor
    · intro hk
      obtain ⟨a, v, ha⟩ := Tree.mem_keys_iff.1 hk
      have hfind := (hentries k v).1 (Tree.mem_toList_iff.2 ⟨a, ha⟩)
      exact List.mem_map.2 ⟨(k, v), List.mem_of_find?_eq_some hfind, rfl⟩
    · intro hk
      obtain ⟨y, hy, rfl⟩ := List.mem_map.1 hk
      cases hfind : list.find? (fun x => decide (x.1 = y.1)) with
      | none =>
        have := List.find?_eq_none.1 hfind y hy
        simp at this
      | some z =>
        have hz : z.1 = y.1 := by simpa using List.find?_some hfind
        have hmem := (hentries y.1 z.2).2 (by rw [hfind, ← hz])
        exact Tree.mem_keys_of_mem_toList hmem
  refine ⟨m', t', e1, ⟨tm', htm', b1, b2⟩, b3, hentries, hkeys, ?_⟩
  rw [getSize_eq htm', b4]
  have hlen : t'.size = t'.keys.length := by
    rw [Tree.size_eq_length_nodes, Tree.keys_eq_nodes_map, List.length_map]
  rw [hlen, length_eq_dedup_length (Tree.BST.nodup_keys b3) hkeys]

/-- Witness of C15: the list `[(5, 1), (5, 2)]` gives a map of size 1 in which
`valueOf(5)` designates the value 1. -/
theorem ctorList_first_wins_witness :
    (getSize dupMem 0 : Res Unit Nat) = Res.ok 1 ∧
    ((valueOf dupMem 0 5 3 >>= fun a => dupMem.getNode a).toOption.map
      (fun nd => nd.data.2)) = some 1 ∧
    ∃ m' t', (ctorList (Mem.empty : Mem Nat Nat) 0 [(5, 1), (5, 2)] 3 :
        Res (Mem Nat Nat) (Mem Nat Nat)) = Res.ok m' ∧
      MapRep true m' 0 t' ∧ t'.BST ∧
      (∀ k v, (k, v) ∈ t'.toList ↔
        [(5, 1), (5, 2)].find? (fun x => decide (x.1 = k)) = some (k, v)) ∧
      (∀ k, k ∈ t'.keys ↔ k ∈ [(5, 1), (5, 2)].map Prod.fst) ∧
      (getSize m' 0 : Res (Mem Nat Nat) Nat) =
        Res.ok ([(5, 1), (5, 2)].map Prod.fst).dedup.length :=
  ⟨by decide, by decide,
    ctorList_first_wins (Reachable.empty : Reachable false (Mem.empty : Mem Nat Nat)) rfl
      [(5, 1), (5, 2)] (by decide)⟩

end FirstWins

/-! ## Equality of maps -/

section TwinScenario

theorem twinMem_tree0 : twinMem.tree 0 = some ⟨some 0, 3⟩ := by decide

theorem twinMem_tree1 : twinMem.tree 1 = some ⟨some 3, 3⟩ := by decide

theorem twinMem_mapRep0 : MapRep true twinMem 0 smallTree := by
  refine ⟨⟨some 0, 3⟩, twinMem_tree0, rfl, ?_⟩
  exact ⟨⟨⟨(1, 10), none, some 1, none⟩, rfl, rfl, rfl, rfl, fun _ => rfl⟩, trivial,
    ⟨⟨⟨(2, 20), none, some 2, some 0⟩, rfl, rfl, rfl, rfl, fun _ => rfl⟩, trivial,
      ⟨⟨⟨(3, 30), none, none, some 1⟩, rfl, rfl, rfl, rfl, fun _ => rfl⟩, trivial,
        trivial⟩⟩⟩

theorem twinMem_mapRep1 : MapRep true twinMem 1 twinTree := by
  refine ⟨⟨some 3, 3⟩, twinMem_tree1, rfl, ?_⟩
  exact ⟨⟨⟨(2, 20), some 4, some 5, none⟩, rfl, rfl, rfl, rfl, fun _ => rfl⟩,
    ⟨⟨⟨(1, 10), none, none, some 3⟩, rfl, rfl, rfl, rfl, fun _ => rfl⟩, trivial, trivial⟩,
    ⟨⟨⟨(3, 30), none, none, some 3⟩, rfl, rfl, rfl, rfl, fun _ => rfl⟩, trivial, trivial⟩⟩

theorem twinTree_BST : twinTree.BST := by
  simp [twinTree, Tree.BST, Tree.keys]

end TwinScenario

section Equality
variable [LinearOrder K] [DecidableEq V]

/-- The loop of `operator==` from two positions with equally many entries left: the
result tells whether the remaining entries are equal one by one. -/
theorem opEqLoop_nodes {m : Mem K V} (this other : Nat) {t u : Tree K V}
    (hr : Rep true m.node none t) (hnd : t.addrs.Nodup)
    (hr2 : Rep true m.node none u) (hnd2 : u.addrs.Nodup)
    {fuel : Nat} (hf : t.height ≤ fuel) (hf2 : u.height ≤ fuel) (R1 : List (Nat × K × V)) :
    ∀ (R2 L1 L2 : List (Nat × K × V)) (n : Nat), t.nodes = L1 ++ R1 → u.nodes = L2 ++ R2 →
      R1.length = R2.length → R1.length ≤ n →
      opEqLoop m this fuel n ⟨some this, R1.head?.map Prod.fst⟩
          ⟨some other, R2.head?.map Prod.fst⟩ =
        Res.ok (decide (R1.map Prod.snd = R2.map Prod.snd)) := by
  induction R1 with
  | nil =>
    intro R2 L1 L2 n _ _ hlen _
    have hR2 : R2 = [] := List.length_eq_zero.1 hlen.symm
    subst hR2
    cases n <;> simp [opEqLoop, cend]
  | cons y R1 ih =>
    intro R2 L1 L2 n hs1 hs2 hlen hn
    cases R2 with
    | nil => simp at hlen
    | cons z R2 =>
      obtain ⟨a, k, v⟩ := y
      obtain ⟨b, kb, vb⟩ := z
      simp only [List.length_cons, add_left_inj] at hlen
      simp only [List.length_cons] at hn
      obtain ⟨n, rfl⟩ : ∃ g, n = g + 1 := ⟨n - 1, by omega⟩
      have hm1 : (a, k, v) ∈ t.nodes := by rw [hs1]; simp
      have hm2 : (b, kb, vb) ∈ u.nodes := by rw [hs2]; simp
      have hi1 := incr_nodes this hr hnd hs1 hf
      have hi2 := incr_nodes other hr2 hnd2 hs2 hf2
      have hrest := ih R2 (L1 ++ [(a, k, v)]) (L2 ++ [(b, kb, vb)]) n (by rw [hs1]; simp)
        (by rw [hs2]; simp) hlen (by omega)
      rw [opEqLoop]
      simp only [cend, ConstIterator.mk.injEq, true_and, List.head?_cons, Option.map_some',
        if_false, deref_nodes hr this hm1, deref_nodes hr2 other hm2, Res.inMem_ok,
        Res.ok_bind, reduceCtorEq]
      by_cases hd : (k, v) = (kb, vb)
      · simp only [hd, ne_eq, not_true_eq_false, if_false, hi1, hi2, Res.inMem_ok, Res.ok_bind,
          hrest, List.map_cons, List.cons.injEq, true_and]
      · simp only [ne_eq, hd, not_false_eq_true, if_true, Res.pure_eq, List.map_cons,
          List.cons.injEq, false_and, decide_False]

end Equality

section EqualityClaim
variable [LinearOrder K] [DecidableEq V]

/-- The result of `operator==` on two maps that own binary search trees with consistent
parent links and correct counts: whether the in-order sequences are equal. -/
theorem opEq_eq {m : Mem K V} {this other : Nat} {t u : Tree K V}
    (hrep : MapRep true m this t) (hrep2 : MapRep true m other u) (hb : t.BST) (hb2 : u.BST)
    (hcount : (getSize m this : Res (Mem K V) Nat) = Res.ok t.size)
    (hcount2 : (getSize m other : Res (Mem K V) Nat) = Res.ok u.size)
    {fuel : Nat} (hf : t.size ≤ fuel) (hf2 : u.height ≤ fuel) :
    opEq m this other fuel = Res.ok (decide (t.toList = u.toList)) := by
  have hbegin := cbegin_eq (ε := Mem K V) hrep (le_trans (Tree.height_le_size _) hf)
  have hbegin2 := cbegin_eq (ε := Mem K V) hrep2 hf2
  obtain ⟨tm, htm, hroot, hr⟩ := hrep
  obtain ⟨tmo, htmo, hroot2, hr2⟩ := hrep2
  rw [getSize_eq htm] at hcount
  rw [getSize_eq htmo] at hcount2
  simp only [Res.ok.injEq] at hcount hcount2
  rw [opEq]
  simp only [Mem.getTree_eq htm, Mem.getTree_eq htmo, Res.ok_bind, hcount, hcount2]
  by_cases hsz : t.size = u.size
  · simp only [hsz, ne_eq, not_true_eq_false, if_false, hbegin, hbegin2, Res.ok_bind]
    rw [opEqLoop_nodes this other hr (hr.nodup_addrs hb) hr2 (hr2.nodup_addrs hb2)
      (le_trans (Tree.height_le_size _) hf) hf2 t.nodes u.nodes [] [] fuel (by simp) (by simp)
      (by rw [← Tree.size_eq_length_nodes, ← Tree.size_eq_length_nodes, hsz])
      (by rw [← Tree.size_eq_length_nodes]; exact hf),
      Tree.toList_eq_map, Tree.toList_eq_map]
  · have hne : t.toList ≠ u.toList := by
      intro h
      apply hsz
      rw [Tree.size_eq_length_nodes, Tree.size_eq_length_nodes,
        ← List.length_map t.nodes Prod.snd, ← List.length_map u.nodes Prod.snd,
        ← Tree.toList_eq_map, ← Tree.toList_eq_map, h]
    simp only [ne_eq, hsz, not_false_eq_true, if_true, Res.pure_eq, hne, decide_False]

/-- C17 (container equality is equality of in-order content).  For two map objects
(possibly the same) that own binary search trees `t` and `u` with consistent parent links
and `count` equal to the number of nodes, `a == b` returns normally, and it returns true
exactly when the in-order sequences of pairs of `t` and `u` are equal, which is the case
exactly when the sizes agree and the sequences agree; the shapes of the trees play no
role.  `a != b` returns the negation. -/
theorem opEq_content {m : Mem K V} {this other : Nat} {t u : Tree K V}
    (hrep : MapRep true m this t) (hrep2 : MapRep true m other u) (hb : t.BST) (hb2 : u.BST)
    (hcount : (getSize m this : Res (Mem K V) Nat) = Res.ok t.size)
    (hcount2 : (getSize m other : Res (Mem K V) Nat) = Res.ok u.size)
    {fuel : Nat} (hf : t.size ≤ fuel) (hf2 : u.height ≤ fuel) :
    opEq m this other fuel = Res.ok (decide (t.toList = u.toList)) ∧
    (opEq m this other fuel = Res.ok true ↔
      ((getSize m this : Res (Mem K V) Nat) = getSize m other ∧ t.toList = u.toList)) ∧
    opNe m this other fuel = Res.ok (!decide (t.toList = u.toList)) := by
  have hmain := opEq_eq hrep hrep2 hb hb2 hcount hcount2 hf hf2
  obtain ⟨tm, htm, hroot, hr⟩ := hrep
  obtain ⟨tmo, htmo, hroot2, hr2⟩ := hrep2
  rw [getSize_eq htm] at hcount
  rw [getSize_eq htmo] at hcount2
  simp only [Res.ok.injEq] at hcount hcount2
  refine ⟨hmain, ?_, ?_⟩
  · rw [hmain, getSize_eq htm, getSize_eq htmo]
    simp only [Res.ok.injEq, decide_eq_true_eq, hcount, hcount2]
    constructor
    · intro h
      refine ⟨?_, h⟩
      rw [Tree.size_eq_length_nodes, Tree.size_eq_length_nodes,
        ← List.length_map t.nodes Prod.snd, ← List.length_map u.nodes Prod.snd,
        ← Tree.toList_eq_map, ← Tree.toList_eq_map, h]
    · exact fun h => h.2
  · rw [opNe, hmain]
    rfl

/-- Witness of C17: the maps built from the keys 1, 2, 3 and from the keys 2, 1, 3 have
trees of different shapes and compare equal. -/
theorem opEq_content_witness :
    (opEq twinMem 0 1 3).toOption = some true ∧ smallTree.rootPtr ≠ twinTree.rootPtr ∧
    (opEq twinMem 0 1 3 = Res.ok (decide (smallTree.toList = twinTree.toList)) ∧
      (opEq twinMem 0 1 3 = Res.ok true ↔
        ((getSize twinMem 0 : Res (Mem Nat Nat) Nat) = getSize twinMem 1 ∧
          smallTree.toList = twinTree.toList)) ∧
      opNe twinMem 0 1 3 = Res.ok (!decide (smallTree.toList = twinTree.toList))) :=
  ⟨by decide, by decide,
    opEq_content twinMem_mapRep0 twinMem_mapRep1 smallTree_BST twinTree_BST rfl rfl
      (by decide) (by decide)⟩

end EqualityClaim

/-! ## Copies -/

section ChainFacts

theorem Tree.RightChain.height_eq_size {t : Tree K V} (h : t.RightChain) :
    t.height = t.size := by
  induction t with
  | nil => rfl
  | node l a k v r _ ihr =>
    obtain ⟨rfl, hr⟩ := h
    simp only [Tree.height, Tree.size, ihr hr]
    omega

theorem Tree.RightChain.rootPtr_eq_head {t : Tree K V} (h : t.RightChain) :
    t.rootPtr = t.nodes.head?.map Prod.fst := by
  cases t with
  | nil => rfl
  | node l a k v r =>
    obtain ⟨rfl, _⟩ := h
    simp [Tree.nodes]

theorem Tree.RightChain.left_null {pc : Bool} {h : Nat → Option (Node K V)} {t : Tree K V}
    (hc : t.RightChain) :
    ∀ {par : Option Nat}, Rep pc h par t → ∀ a k v, (a, k, v) ∈ t.nodes →
      ∃ nd, h a = some nd ∧ nd.left = none := by
  induction t with
  | nil =>
    intro par _ a k v hm
    simp [Tree.nodes] at hm
  | node l b kb vb r _ ihr =>
    intro par hr a k v hm
    obtain ⟨rfl, hcr⟩ := hc
    obtain ⟨⟨nd, h1, _, h3, _⟩, _, hrr⟩ := hr
    simp only [Tree.nodes, List.nil_append, List.mem_cons, Prod.mk.injEq] at hm
    rcases hm with ⟨rfl, _, _⟩ | hm
    · exact ⟨nd, h1, by simpa using h3⟩
    · exact ihr hcr hrr a k v hm

theorem Tree.RightChain.ins [LinearOrder K] {t : Tree K V} (hc : t.RightChain) {k : K}
    (hmax : ∀ x ∈ t.keys, x < k) (p : Nat) (v : V) : (t.ins p k v).RightChain := by
  induction t with
  | nil => exact ⟨rfl, trivial⟩
  | node l a kb vb r _ ihr =>
    obtain ⟨rfl, hcr⟩ := hc
    have hlt : kb < k := hmax kb (by simp [Tree.keys])
    have hgt : k > kb := hlt
    simp only [Tree.ins, hgt, if_true]
    exact ⟨rfl, ihr hcr (fun x hx => hmax x (by simp [Tree.keys, hx]))⟩

end ChainFacts

section CopyFacts
variable [LinearOrder K]

theorem Content.of_ginv {m : Mem K V} {T : Nat → Tree K V} (hg : GInvW m T) {this : Nat}
    {tm : TreeMap} (htm : m.tree this = some tm) : Content m this (T this).toList := by
  obtain ⟨h1, h2, h3, h4⟩ := hg.1 this tm htm
  refine ⟨T this, ⟨tm, htm, h1, h2⟩, h3, rfl, ?_⟩
  rw [getSize_eq htm, h4, Tree.size_eq_length_nodes, Tree.toList_eq_map, List.length_map]

/-- The copy assignment from another map returns normally; afterwards the invariant
holds with a right-leaning chain that has the in-order sequence of the other map. -/
theorem GInvW.copy {m : Mem K V} {T : Nat → Tree K V} (hg : GInvW m T) {this other : Nat}
    (hne : this ≠ other) {tm tmo : TreeMap} (htm : m.tree this = some tm)
    (htmo : m.tree other = some tmo) :
    ∃ m' t', Returns (fun f => Aisdi.assign m this other f) (Res.ok m') ∧
      GInvW m' (Function.update T this t') ∧ t'.toList = (T other).toList ∧
      t'.RightChain ∧ (∃ tm', m'.tree this = some tm') ∧ m'.tree other = some tmo := by
  obtain ⟨m', t', e1, e2, e3, e4, e5, e6⟩ := GInvW.assign hg hne htm htmo
    (show (T this).height ≤ (T this).height + (T other).size + 1 by omega)
    (show (T other).size < (T this).height + (T other).size + 1 by omega)
    (show (T other).height ≤ (T this).height + (T other).size + 1 by
      have := Tree.height_le_size (T other)
      omega)
    Tree.RightChain (fun t p k v hc _ hmax => hc.ins hmax p v) trivial
  refine ⟨m', t', Returns.of_mono (fun _ _ hle h hne2 => assign_mono _ _ _ hle h hne2) _ e1
    (by simp), e2, e3, e4, e5, ?_⟩
  rw [e6 other (Ne.symm hne)]
  exact htmo

/-- The comparison of two maps with the same in-order sequence returns true. -/
theorem opEq_of_content [DecidableEq V] {m : Mem K V} {this other : Nat} {l : List (K × V)}
    (h1 : Content m this l) (h2 : Content m other l) :
    Returns (fun f => opEq m this other f) (Res.ok true) := by
  obtain ⟨t, r1, b1, rfl, c1⟩ := h1
  obtain ⟨u, r2, b2, l2, c2⟩ := h2
  have c1' : (getSize m this : Res (Mem K V) Nat) = Res.ok t.size := by
    obtain ⟨tm, htm, _⟩ := r1
    rw [getSize_eq htm] at c1 ⊢
    simp only [Res.ok.injEq] at c1
    rw [c1, Tree.size_eq_length_nodes, Tree.toList_eq_map, List.length_map]
  have c2' : (getSize m other : Res (Mem K V) Nat) = Res.ok u.size := by
    obtain ⟨tm, htm, _⟩ := r2
    rw [getSize_eq htm] at c2 ⊢
    simp only [Res.ok.injEq] at c2
    rw [c2, ← l2, Tree.size_eq_length_nodes, Tree.toList_eq_map, List.length_map]
  refine Returns.of_forall_ge (t.size + u.size) (fun f hf => ?_)
  have hu := Tree.height_le_size u
  rw [opEq_eq r1 r2 b1 b2 c1' c2' (show t.size ≤ f by omega)
    (show u.height ≤ f by omega)]
  simp [l2]

end CopyFacts

section CopyBasics

/-- The memory with the two maps of the keys 1, 2, 3 is a reachable state. -/
theorem twinMem_reachable : Reachable false twinMem :=
  @Reachable.ctorList Nat Nat _ _ false smallMem twinMem 1 [(2, 20), (1, 10), (3, 30)]
    (@Reachable.ctorList Nat Nat _ _ false Mem.empty smallMem 0 [(1, 10), (2, 20), (3, 30)]
      Reachable.empty rfl
      (Returns.of_mono (fun _ _ hle h hne => ctorList_mono _ _ _ hle h hne) 4 rfl (by simp)))
    rfl
    (Returns.of_mono (fun _ _ hle h hne => ctorList_mono _ _ _ hle h hne) 4 rfl (by simp))

theorem ctor_tree_ne (m : Mem K V) {this other : Nat} (hne : this ≠ other) :
    (ctor m this).tree other = m.tree other := by
  simp [ctor, Mem.setTree, Ne.symm hne]

theorem ctor_tree_self (m : Mem K V) (this : Nat) :
    (ctor m this).tree this = some ⟨none, 0⟩ := by
  simp [ctor, Mem.setTree]

end CopyBasics

section CopyClaims
variable [LinearOrder K]

/-- The facts about a copy assignment that the statements about copies share. -/
theorem GInvW.copy_facts {m : Mem K V} {T : Nat → Tree K V} (hg : GInvW m T)
    {this other : Nat} (hne : this ≠ other) {tm tmo : TreeMap} (htm : m.tree this = some tm)
    (htmo : m.tree other = some tmo) :
    ∃ m' t', Returns (fun f => Aisdi.assign m this other f) (Res.ok m') ∧
      Content m' this (T other).toList ∧ Content m' other (T other).toList ∧
      MapRep true m' this t' ∧ t'.BST ∧ t'.RightChain ∧
      (getSize m' this : Res Unit Nat) = Res.ok t'.size := by
  obtain ⟨m', t', e1, e2, e3, e4, ⟨tm', htm'⟩, e6⟩ := GInvW.copy hg hne htm htmo
  have c1 := Content.of_ginv e2 htm'
  have c2 := Content.of_ginv e2 e6
  rw [Function.update_same, e3] at c1
  rw [Function.update_noteq (Ne.symm hne)] at c2
  obtain ⟨b1, b2, b3, b4⟩ := e2.1 this tm' htm'
  simp only [Function.update_same] at b1 b2 b3 b4
  exact ⟨m', t', e1, c1, c2, ⟨tm', htm', b1, b2⟩, b3, e4, by rw [getSize_eq htm', b4]⟩

theorem Content.traverse {m : Mem K V} {this : Nat} {l : List (K × V)}
    (h : Content m this l) : Returns (fun f => Aisdi.traverse m this f) (Res.ok l) := by
  obtain ⟨t, r, b, rfl, _⟩ := h
  exact Returns.of_forall_ge t.size (fun f hf =>
    traverse_eq r b (le_trans (Tree.height_le_size _) hf) hf)

variable [Inhabited V]

/-- C16 (copy preserves content).  In a reachable state let the map `other` hold the
in-order sequence `l`.  The copy assignment `this = other` to another existing map,
whatever it holds, and the copy construction of `this` from `other` at an unused object
address return normally; afterwards both maps hold the sequence `l` (with `getSize()`
its length), the traversal of the copy returns `l`, and `this == other` returns true.
The copy assignment of a map to itself returns the memory unchanged. -/
theorem copy_preserves_content [DecidableEq V] {asg : Bool} {m : Mem K V}
    (hreach : Reachable asg m) {this other : Nat} {tmo : TreeMap}
    (htmo : m.tree other = some tmo) (hne : this ≠ other) :
    ∃ l, Content m other l ∧
      (∀ tm, m.tree this = some tm →
        ∃ m', Returns (fun f => assign m this other f) (Res.ok m') ∧
          Content m' this l ∧ Content m' other l ∧
          Returns (fun f => traverse m' this f) (Res.ok l) ∧
          Returns (fun f => opEq m' this other f) (Res.ok true)) ∧
      (m.tree this = none →
        ∃ m', Returns (fun f => copyCtor m this other f) (Res.ok m') ∧
          Content m' this l ∧ Content m' other l ∧
          Returns (fun f => traverse m' this f) (Res.ok l) ∧
          Returns (fun f => opEq m' this other f) (Res.ok true)) ∧
      ∀ fuel, assign m other other fuel = Res.ok m := by
  obtain ⟨T, hg⟩ := hreach.ginv
  refine ⟨(T other).toList, Content.of_ginv hg htmo, ?_, ?_, ?_⟩
  · intro tm htm
    obtain ⟨m', t', e1, c1, c2, _⟩ := GInvW.copy_facts hg hne htm htmo
    exact ⟨m', e1, c1, c2, c1.traverse, opEq_of_content c1 c2⟩
  · intro hnew
    obtain ⟨m', t', e1, c1, c2, _⟩ := GInvW.copy_facts (GInvW.ctor hg hnew) hne
      (ctor_tree_self m this) (by rw [ctor_tree_ne m hne]; exact htmo)
    exact ⟨m', e1, c1, c2, c1.traverse, opEq_of_content c1 c2⟩
  · intro fuel
    simp [assign]

/-- Witness of C16: the copy construction of a map at address 2 from the map at address 1
of the memory with two maps, whose tree has the key 2 at the root. -/
theorem copy_preserves_content_witness :
    ((copyCtor twinMem 2 1 4).toOption.bind (fun m' => (traverse m' 2 4).toOption)) =
      some [(1, 10), (2, 20), (3, 30)] ∧
    ∃ l, Content twinMem 1 l ∧
      (∀ tm, twinMem.tree 2 = some tm →
        ∃ m', Returns (fun f => assign twinMem 2 1 f) (Res.ok m') ∧
          Content m' 2 l ∧ Content m' 1 l ∧
          Returns (fun f => traverse m' 2 f) (Res.ok l) ∧
          Returns (fun f => opEq m' 2 1 f) (Res.ok true)) ∧
      (twinMem.tree 2 = none →
        ∃ m', Returns (fun f => copyCtor twinMem 2 1 f) (Res.ok m') ∧
          Content m' 2 l ∧ Content m' 1 l ∧
          Returns (fun f => traverse m' 2 f) (Res.ok l) ∧
          Returns (fun f => opEq m' 2 1 f) (Res.ok true)) ∧
      ∀ fuel, assign twinMem 1 1 fuel = Res.ok twinMem :=
  ⟨by decide, copy_preserves_content twinMem_reachable twinMem_tree1 (by decide)⟩

/-- C20 (a copy is a right-leaning chain).  In a reachable state, the copy assignment
`this = other` to another existing map and the copy construction of `this` from `other`
at an unused object address return normally, and the tree `t` of the copy is a
right-leaning chain: no node of the copy has a left child, `begin()`, the node with the
smallest key, is the root, and the height of the tree is its number of nodes, which is
`getSize()`. -/
theorem copy_right_chain {asg : Bool} {m : Mem K V} (hreach : Reachable asg m)
    {this other : Nat} {tmo : TreeMap} (htmo : m.tree other = some tmo) (hne : this ≠ other) :
    (∀ tm, m.tree this = some tm →
      ∃ m' t, Returns (fun f => assign m this other f) (Res.ok m') ∧
        MapRep true m' this t ∧ t.BST ∧
        (∀ a k v, (a, k, v) ∈ t.nodes → ∃ nd, m'.node a = some nd ∧ nd.left = none) ∧
        Returns (fun f => (cbegin m' this f : Res Unit ConstIterator))
          (Res.ok ⟨some this, t.rootPtr⟩) ∧
        t.height = t.size ∧ (getSize m' this : Res Unit Nat) = Res.ok t.size) ∧
    (m.tree this = none →
      ∃ m' t, Returns (fun f => copyCtor m this other f) (Res.ok m') ∧
        MapRep true m' this t ∧ t.BST ∧
        (∀ a k v, (a, k, v) ∈ t.nodes → ∃ nd, m'.node a = some nd ∧ nd.left = none) ∧
        Returns (fun f => (cbegin m' this f : Res Unit ConstIterator))
          (Res.ok ⟨some this, t.rootPtr⟩) ∧
        t.height = t.size ∧ (getSize m' this : Res Unit Nat) = Res.ok t.size) := by
  obtain ⟨T, hg⟩ := hreach.ginv
  have hfacts : ∀ (m0 : Mem K V) (m' : Mem K V) (t : Tree K V), MapRep true m' this t →
      t.BST → t.RightChain → (getSize m' this : Res Unit Nat) = Res.ok t.size →
      MapRep true m' this t ∧ t.BST ∧
        (∀ a k v, (a, k, v) ∈ t.nodes → ∃ nd, m'.node a = some nd ∧ nd.left = none) ∧
        Returns (fun f => (cbegin m' this f : Res Unit ConstIterator))
          (Res.ok ⟨some this, t.rootPtr⟩) ∧
        t.height = t.size ∧ (getSize m' this : Res Unit Nat) = Res.ok t.size := by
    intro _ m' t hrep hb hc hsz
    refine ⟨hrep, hb, ?_, ?_, hc.height_eq_size, hsz⟩
    · obtain ⟨_, _, _, hr⟩ := hrep
      exact hc.left_null hr
    · refine Returns.of_forall_ge t.height (fun f hf => ?_)
      rw [cbegin_eq hrep hf, hc.rootPtr_eq_head]
  refine ⟨?_, ?_⟩
  · intro tm htm
    obtain ⟨m', t', e1, _, _, r, b, c, s⟩ := GInvW.copy_facts hg hne htm htmo
    exact ⟨m', t', e1, hfacts m m' t' r b c s⟩
  · intro hnew
    obtain ⟨m', t', e1, _, _, r, b, c, s⟩ := GInvW.copy_facts (GInvW.ctor hg hnew) hne
      (ctor_tree_self m this) (by rw [ctor_tree_ne m hne]; exact htmo)
    exact ⟨m', t', e1, hfacts m m' t' r b c s⟩

/-- Witness of C20: the copy, at address 2, of the map whose tree has the key 2 at the
root and the keys 1 and 3 below it: the root of the copy is the node of the key 1, the
first node allocated for the copy, and it has no left child. -/
theorem copy_right_chain_witness :
    ((copyCtor twinMem 2 1 4).toOption.bind (fun m' => m'.tree 2)) = some ⟨some 6, 3⟩ ∧
    ((copyCtor twinMem 2 1 4).toOption.bind (fun m' =>
      (cbegin m' 2 4 : Res Unit ConstIterator).toOption)) = some ⟨some 2, some 6⟩ ∧
    ((copyCtor twinMem 2 1 4).toOption.bind (fun m' =>
      (ConstIterator.deref m' ⟨some 2, some 6⟩).toOption)) = some (1, 10) ∧
    ((copyCtor twinMem 2 1 4).toOption.bind (fun m' =>
      (m'.node 6).map (fun nd => (nd.left, nd.right)))) = some (none, some 7) ∧
    ((∀ tm, twinMem.tree 2 = some tm →
      ∃ m' t, Returns (fun f => assign twinMem 2 1 f) (Res.ok m') ∧
        MapRep true m' 2 t ∧ t.BST ∧
        (∀ a k v, (a, k, v) ∈ t.nodes → ∃ nd, m'.node a = some nd ∧ nd.left = none) ∧
        Returns (fun f => (cbegin m' 2 f : Res Unit ConstIterator))
          (Res.ok ⟨some 2, t.rootPtr⟩) ∧
        t.height = t.size ∧ (getSize m' 2 : Res Unit Nat) = Res.ok t.size) ∧
    (twinMem.tree 2 = none →
      ∃ m' t, Returns (fun f => copyCtor twinMem 2 1 f) (Res.ok m') ∧
        MapRep true m' 2 t ∧ t.BST ∧
        (∀ a k v, (a, k, v) ∈ t.nodes → ∃ nd, m'.node a = some nd ∧ nd.left = none) ∧
        Returns (fun f => (cbegin m' 2 f : Res Unit ConstIterator))
          (Res.ok ⟨some 2, t.rootPtr⟩) ∧
        t.height = t.size ∧ (getSize m' 2 : Res Unit Nat) = Res.ok t.size)) :=
  ⟨by decide, by decide, by decide, by decide,
    copy_right_chain twinMem_reachable twinMem_tree1 (by decide)⟩

end CopyClaims

/-! ## Parent consistency -/

section ParentLinks

theorem Rep.root_cell {h : Nat → Option (Node K V)} {par : Option Nat} {t : Tree K V}
    (hr : Rep true h par t) {b : Nat} (hb : t.rootPtr = some b) :
    ∃ nb, h b = some nb ∧ nb.parent = par := by
  cases t with
  | nil => simp at hb
  | node l a k v r =>
    simp only [Tree.rootPtr_node, Option.some.injEq] at hb
    subst hb
    obtain ⟨⟨nd, h1, _, _, _, h5⟩, _, _⟩ := hr
    exact ⟨nd, h1, h5 rfl⟩

/-- In a tree laid out with consistent parent links, the parent link of every child of
a node is that node. -/
theorem Rep.parent_links {h : Nat → Option (Node K V)} {t : Tree K V} :
    ∀ {par : Option Nat}, Rep true h par t → ∀ a k v, (a, k, v) ∈ t.nodes →
      ∃ nd, h a = some nd ∧
        ∀ b, (nd.left = some b ∨ nd.right = some b) →
          ∃ nb, h b = some nb ∧ nb.parent = some a := by
  induction t with
  | nil =>
    intro par _ a k v hm
    simp [Tree.nodes] at hm
  | node l q kq vq r ihl ihr =>
    intro par hr a k v hm
    obtain ⟨⟨nd, h1, _, h3, h4, _⟩, hl, hrr⟩ := hr
    simp only [Tree.nodes, List.mem_append, List.mem_cons, Prod.mk.injEq] at hm
    rcases hm with hm | ⟨rfl, _, _⟩ | hm
    · exact ihl hl a k v hm
    · refine ⟨nd, h1, fun b hb => ?_⟩
      rcases hb with hb | hb
      · exact hl.root_cell (by rw [← h3]; exact hb)
      · exact hrr.root_cell (by rw [← h4]; exact hb)
    · exact ihr hrr a k v hm

end ParentLinks

section PlugHeight

theorem plug_height_pos (c : List (Frame K V)) (l : Tree K V) (a : Nat) (k : K) (v : V)
    (r : Tree K V) : 0 < (plug c (Tree.node l a k v r)).height := by
  have h := Tree.height_le_size (plug c (Tree.node l a k v r))
  cases hp : plug c (Tree.node l a k v r) with
  | nil =>
    have hmem : a ∈ (plug c (Tree.node l a k v r)).addrs := by
      obtain ⟨L, R, hX⟩ := plug_addrs c
      rw [hX]
      simp [Tree.addrs]
    rw [hp] at hmem
    simp [Tree.addrs] at hmem
  | node l2 a2 k2 v2 r2 => simp [Tree.height]

end PlugHeight

section ParentConsistency
variable [LinearOrder K] [Inhabited V]

/-- C18 (parent consistency is preserved).  In every reachable state, for every map
object with its tree `t` of stored nodes: the parent link of the root is null; whenever
a node is the left or the right child of a stored node, its parent link is that node;
and `remove` at a stored node returns normally, its relinking step (the calls of
`replace`) leaves the node with its three links cleared and the rest a tree with
consistent parent links, so that the `delete` that follows releases this node only. -/
theorem parent_consistency {asg : Bool} {m : Mem K V} (hreach : Reachable asg m)
    {this : Nat} {tm : TreeMap} (htm : m.tree this = some tm) :
    ∃ t : Tree K V, MapRep true m this t ∧
      (∀ r, tm.root = some r → ∃ nd, m.node r = some nd ∧ nd.parent = none) ∧
      (∀ a k v, (a, k, v) ∈ t.nodes →
        ∃ nd, m.node a = some nd ∧
          ∀ b, (nd.left = some b ∨ nd.right = some b) →
            ∃ nb, m.node b = some nb ∧ nb.parent = some a) ∧
      (∀ a k v, (a, k, v) ∈ t.nodes → ∀ fuel, t.height ≤ fuel →
        ∃ m1 tmp m2 t', (removeRelink m this a fuel : Res (Mem K V) (Mem K V × Option Nat)) =
            Res.ok (m1, tmp) ∧
          m1.node a = some ⟨(k, v), none, none, none⟩ ∧ Rep true m1.node none t' ∧
          removeIt m this ⟨some this, some a⟩ fuel = Res.ok m2 ∧
          m2.node a = none ∧ MapRep true m2 this t' ∧
          (∀ x, x ≠ a → m2.node x = m1.node x)) := by
  obtain ⟨T, hg⟩ := hreach.ginv
  obtain ⟨h1, h2, h3, h4⟩ := hg.1 this tm htm
  refine ⟨T this, ⟨tm, htm, h1, h2⟩, ?_, h2.parent_links, ?_⟩
  · intro r hr
    exact h2.root_cell (by rw [← h1]; exact hr)
  · intro a k v ha fuel hf
    have hnd := h2.nodup_addrs h3
    obtain ⟨c, l, k1, v1, r, e⟩ := exists_plug (Tree.mem_addrs_of_mem_nodes ha)
    obtain ⟨L, R, hn1, hn2⟩ := plug_delRoot_nodes c l a k1 v1 r
    rw [← e] at hn1
    obtain ⟨rfl, rfl⟩ : k = k1 ∧ v = v1 := Tree.node_unique hnd ha (by rw [hn1]; simp)
    have hsz : tm.count ≠ 0 := by
      rw [h4, Tree.size_eq_length_nodes]
      exact (List.length_pos_iff_ne_nil.2 (List.ne_nil_of_mem ha)).ne'
    rw [e] at h1 h2 hnd hf
    obtain ⟨m1, r1, r2, r3, r4, r5, r6, r7⟩ :=
      removeRelink_spec (ε := Mem K V) htm h1 h2 hnd hf
    obtain ⟨m2, q1, q2, q3, q4, q5, q6, q7⟩ :=
      removeNode_spec (ε := Mem K V) htm h1 h2 hnd hsz hf
    refine ⟨m1, _, m2, _, r1, r3, r4, ?_, q3, ⟨_, q5, rfl, q4⟩, ?_⟩
    · simp [removeIt, cend, q1]
    · intro x hx
      have hrun := q1
      rw [removeNode, r1] at hrun
      simp only [Res.ok_bind] at hrun
      cases hclimb : (climbToNull m1 fuel (Tree.node l a k v r).delRoot.rootPtr :
          Res (Mem K V) Unit) with
      | ok u =>
        rw [hclimb] at hrun
        simp only [Res.ok_bind, Mem.decrCount_eq r5 hsz] at hrun
        have hpos : 0 < fuel := by
          have hh := plug_height_pos c l a k v r
          omega
        rw [Mem.delete_leaf (show (m1.setTree this _).node a = some ⟨(k, v), none, none, none⟩
          from r3) rfl rfl fuel hpos] at hrun
        simp only [Res.ok.injEq] at hrun
        subst hrun
        simp [Mem.freeNode, Mem.setTree, hx]
      | thrown e s => rw [hclimb] at hrun; cases hrun
      | undefined => rw [hclimb] at hrun; cases hrun
      | timeout => rw [hclimb] at hrun; cases hrun

/-- Witness of C18 on the scenario map: the relinking step of `remove` at the root (the
key 5, two children) leaves the root node with its three links cleared. -/
theorem parent_consistency_witness :
    ((removeRelink exampleMem 0 0 3 : Res Unit (Mem Nat Nat × Option Nat)).toOption.bind
      (fun x => (x.1.node 0).map (fun nd => (nd.left, nd.right, nd.parent)))) =
        some (none, none, none) ∧
    ∃ t : Tree Nat Nat, MapRep true exampleMem 0 t ∧
      (∀ r, (⟨some 0, 7⟩ : TreeMap).root = some r →
        ∃ nd, exampleMem.node r = some nd ∧ nd.parent = none) ∧
      (∀ a k v, (a, k, v) ∈ t.nodes →
        ∃ nd, exampleMem.node a = some nd ∧
          ∀ b, (nd.left = some b ∨ nd.right = some b) →
            ∃ nb, exampleMem.node b = some nb ∧ nb.parent = some a) ∧
      (∀ a k v, (a, k, v) ∈ t.nodes → ∀ fuel, t.height ≤ fuel →
        ∃ m1 tmp m2 t', (removeRelink exampleMem 0 a fuel :
            Res (Mem Nat Nat) (Mem Nat Nat × Option Nat)) = Res.ok (m1, tmp) ∧
          m1.node a = some ⟨(k, v), none, none, none⟩ ∧ Rep true m1.node none t' ∧
          removeIt exampleMem 0 ⟨some 0, some a⟩ fuel = Res.ok m2 ∧
          m2.node a = none ∧ MapRep true m2 0 t' ∧
          (∀ x, x ≠ a → m2.node x = m1.node x)) :=
  ⟨by decide, parent_consistency exampleMem_reachable exampleMem_tree⟩

end ParentConsistency

end Aisdi
